import Mathlib

/-! # Verification of the RAG client (`rag_client`, `embed_interface`, `llm_interface`)

A shallow embedding of the retrieval core of the repository and of its two model wrappers:

* `rag_client::dot`, `rag_client::rank`, `rag_client::build_context`
  (src/src/rag_client.cpp, src/include/rag_client.h),
* `trim`, `parse_vec_csv`, `rag_client::parse_index_line`, `rag_client::load_index`
  (src/src/rag_client.cpp),
* the `chunk_words` / `clean_spaces` lambdas and the record writer of
  `embed_interface::create_index` (src/src/embed_interface.cpp),
* `llm_interface::set_system_prompt`, `begin_prepare_prompt`, `after_prepare_prepare` and
  `run_prompt` (src/src/llm_interface.cpp),
* `embed_interface::embed_query`, `embed_passage` and `encode_once`
  (src/src/embed_interface.cpp),
* `rag_client::embed_question` and `rag_client::ask` (src/src/rag_client.cpp).

Modelling conventions.

* A `std::string` is the list of its `char`s (`Str`); `size()` is the list length.
* A `float` or `double` is not-a-number, an infinity or a finite value (`float`); the
  arithmetic of `dot` rounds as IEEE 754 prescribes (binary64 for the products and sums,
  binary32 for the result), and a comparison with not-a-number is false. The sign of a
  zero is not modelled.
* `std::size_t` is unbounded (`Nat`). An `int` is an `Int`; where an `int` is computed from
  arguments of the caller (`chunk_words`) an overflow yields `none`, and `std::stoi` checks
  its range explicitly. The other `int`s count rows, items or characters.
* A subscript outside the container (undefined behaviour in C++) yields `none`. Loops
  whose termination is not structural carry fuel: `chunkLoop` yields `none` when it runs
  out, and the fuel of `parseVecLoop` always suffices (`parse_vec_csv_fuel`).
* Library routines whose result the C++ standard leaves open are parameters:
  `std::sort` (any function meeting the standard's contract), `std::stof` and the stream
  formatting of a `float`. `std::stoi`, `std::getline`, `operator>>` on strings, the
  `std::string` members and `std::regex_replace` with `\s+` are modelled as the standard
  describes them for the "C" locale. Where an example depends on what a particular
  `std::sort` does, it is the one of the GNU C++ library (`gnuSort`).
* The llama.cpp library is a collaborator and enters as parameters: the chat template
  (`chat_template`, what `llama_chat_apply_template` renders or that it fails), the
  vocabulary (`vocab_model`), the answers of the generation engine pass by pass
  (`engine_trace`) and the embedding engine (`embed_engine`). A callback is modelled by
  the list of texts handed to it, in order. A call that ends the process (`exit`,
  `GGML_ABORT`), throws, or has undefined behaviour is an outcome of its own, never a
  returned value.
-/

namespace RagClient

/-- A `std::string`: one list element per `char`. -/
abbrev Str := List Char

/-! ## Floating-point values (IEEE 754 binary32 and binary64) -/

/-- A value of type `float` (or of type `double`, for the intermediate results of `dot`):
not-a-number, an infinity, or a finite value, given by the rational it stands for. The
sign of a zero is not modelled. -/
inductive float where
  | nan
  | ninf
  | fin (q : ℚ)
  | pinf
  deriving DecidableEq

instance (n : Nat) : OfNat float n := ⟨.fin n⟩

instance : Neg float := ⟨fun x =>
  match x with
  | .nan => .nan
  | .ninf => .pinf
  | .fin q => .fin (-q)
  | .pinf => .ninf⟩

/-- The comparison `a < b` of two floating-point values: false as soon as one of them is
not a number. -/
def float.lt : float → float → Bool
  | .nan, _ => false
  | _, .nan => false
  | .ninf, .ninf => false
  | .ninf, _ => true
  | .fin _, .ninf => false
  | .fin a, .fin b => decide (a < b)
  | .fin _, .pinf => true
  | .pinf, _ => false

/-- The comparison `a <= b` of two floating-point values: false as soon as one of them is
not a number. -/
def float.le : float → float → Bool
  | .nan, _ => false
  | _, .nan => false
  | .ninf, _ => true
  | .fin _, .ninf => false
  | .fin a, .fin b => decide (a ≤ b)
  | .fin _, .pinf => true
  | .pinf, .pinf => true
  | .pinf, _ => false

instance : LT float := ⟨fun a b => float.lt a b = true⟩

instance : LE float := ⟨fun a b => float.le a b = true⟩

instance (a b : float) : Decidable (a < b) := inferInstanceAs (Decidable (float.lt a b = true))

instance (a b : float) : Decidable (a ≤ b) := inferInstanceAs (Decidable (float.le a b = true))

/-- The number of binary digits of `n`; `fuel` bounds the number of halvings, and `n`
itself is enough. -/
def bitLength : Nat → Nat → Nat
  | 0, _ => 0
  | fuel + 1, n => if n = 0 then 0 else bitLength fuel (n / 2) + 1

/-- The largest `e` with `2 ^ e <= n / d`, for positive `n` and `d`. -/
def floorLog2 (n d : Nat) : Int :=
  let e0 : Int := (bitLength n n : Int) - (bitLength d d : Int)
  if n * 2 ^ (-e0).toNat ≥ d * 2 ^ e0.toNat then e0 else e0 - 1

/-- Rounding of a rational to the nearest value of the binary format with `p` significand
bits and exponents `emin .. emax`: ties go to the even significand, values below the
normal range are rounded on the subnormal grid, and a result beyond the largest finite
value is an infinity (IEEE 754, roundTiesToEven). -/
def roundBinary (p : Nat) (emin emax : Int) (q : ℚ) : float :=
  if q = 0 then .fin 0
  else
    let n := q.num.natAbs
    let d := q.den
    let qe : Int := max (floorLog2 n d) emin - ((p : Int) - 1)
    let N := n * 2 ^ (-qe).toNat
    let D := d * 2 ^ qe.toNat
    let m := N / D
    let r := N % D
    let m1 := if 2 * r > D ∨ (2 * r = D ∧ m % 2 = 1) then m + 1 else m
    let v : ℚ := (m1 : ℚ) * (2 : ℚ) ^ qe
    if v ≥ (2 : ℚ) ^ (emax + 1) then (if q < 0 then .ninf else .pinf)
    else .fin (if q < 0 then -v else v)

/-- The conversion `(float)x` of a `double`: rounding to binary32. -/
def toFloat : float → float
  | .fin q => roundBinary 24 (-126) 127 q
  | x => x

/-- Rounding to `double` (binary64). -/
def roundDouble (q : ℚ) : float := roundBinary 53 (-1022) 1023 q

/-- The product `a * b` of two `double`s. -/
def float.mulDouble : float → float → float
  | .nan, _ => .nan
  | _, .nan => .nan
  | .fin a, .fin b => roundDouble (a * b)
  | .fin a, .pinf => if a = 0 then .nan else if a < 0 then .ninf else .pinf
  | .fin a, .ninf => if a = 0 then .nan else if a < 0 then .pinf else .ninf
  | .pinf, .fin b => if b = 0 then .nan else if b < 0 then .ninf else .pinf
  | .ninf, .fin b => if b = 0 then .nan else if b < 0 then .pinf else .ninf
  | .pinf, .pinf => .pinf
  | .pinf, .ninf => .ninf
  | .ninf, .pinf => .ninf
  | .ninf, .ninf => .pinf

/-- The sum `a + b` of two `double`s. -/
def float.addDouble : float → float → float
  | .nan, _ => .nan
  | _, .nan => .nan
  | .fin a, .fin b => roundDouble (a + b)
  | .fin _, .pinf => .pinf
  | .fin _, .ninf => .ninf
  | .pinf, .ninf => .nan
  | .ninf, .pinf => .nan
  | .pinf, _ => .pinf
  | .ninf, _ => .ninf

/-! ## Data model (src/include/rag_client.h) -/

/-- The struct `rag_client::rag_index_row`. -/
structure rag_index_row where
  id : Int := -1
  vec : List float := []
  filename : Str := []
  text : Str := []
  deriving DecidableEq

/-- The struct `rag_client::rag_rank_item`. -/
structure rag_rank_item where
  score : float := 0
  row_index : Int := -1
  deriving DecidableEq

/-- The fields of `rag_client::rag_config` read by the retriever. -/
structure rag_config where
  top_k : Int := 8
  context_budget : Nat := 3500
  min_score_keep : float := -1

/-! ## `std::sort` -/

/-- The requirement the standard puts on the comparator handed to `std::sort`: it induces a
strict weak ordering on the values of the range. -/
def StrictWeakOrder {α : Type} (comp : α → α → Bool) (l : List α) : Prop :=
  (∀ a ∈ l, comp a a = false) ∧
  (∀ a ∈ l, ∀ b ∈ l, ∀ c ∈ l, comp a b = true → comp b c = true → comp a c = true) ∧
  (∀ a ∈ l, ∀ b ∈ l, ∀ c ∈ l, comp a b = false → comp b a = false → comp b c = false →
    comp c b = false → comp a c = false ∧ comp c a = false)

/-- What the standard guarantees about `std::sort(first, last, comp)` when the comparator
meets its requirement on the range: the range is rearranged (a permutation) so that no
later element compares before an earlier one. Nothing is promised about the relative
order of equivalent elements, and nothing at all for a comparator that does not meet the
requirement. -/
def SortContract {α : Type} (sort : (α → α → Bool) → List α → List α) : Prop :=
  ∀ comp l, StrictWeakOrder comp l →
    (sort comp l).Perm l ∧ (sort comp l).Pairwise (fun a b => comp b a = false)

/-- The extra guarantee of a stable sort (`std::stable_sort`): two elements of which the
second does not compare before the first keep their relative order. -/
def SortStable {α : Type} (sort : (α → α → Bool) → List α → List α) : Prop :=
  ∀ comp l, StrictWeakOrder comp l → ∀ a b,
    comp b a = false → List.Sublist [a, b] l → List.Sublist [a, b] (sort comp l)

/-- A sort meeting `SortContract` that keeps equivalent elements in their original order:
straight insertion. -/
def insertionStdSort {α : Type} (comp : α → α → Bool) (l : List α) : List α :=
  List.insertionSort (fun a b => comp b a = false) l

/-! ## `std::sort` of the GNU C++ library (libstdc++, bits/stl_algo.h, bits/stl_heap.h) -/

/-- The call `std::iter_swap(a + i, a + j)`. -/
def iterSwap {α : Type} (a : List α) (i j : Nat) : Option (List α) := do
  let x ← a[i]?
  let y ← a[j]?
  pure ((a.set i y).set j x)

/-- The function `std::__move_median_to_first`. -/
def moveMedianToFirst {α : Type} (comp : α → α → Bool) (arr : List α) (result a b c : Nat) :
    Option (List α) := do
  let va ← arr[a]?
  let vb ← arr[b]?
  let vc ← arr[c]?
  if comp va vb then
    if comp vb vc then iterSwap arr result b
    else if comp va vc then iterSwap arr result c
    else iterSwap arr result a
  else if comp va vc then iterSwap arr result a
  else if comp vb vc then iterSwap arr result c
  else iterSwap arr result b

/-- The loop `while (comp(first, pivot)) ++first;` of `std::__unguarded_partition`. -/
def partitionUp {α : Type} (comp : α → α → Bool) (arr : List α) (pivot : Nat) :
    Nat → Nat → Option Nat
  | 0, _ => none
  | fuel + 1, first => do
    let x ← arr[first]?
    let p ← arr[pivot]?
    if comp x p then partitionUp comp arr pivot fuel (first + 1) else pure first

/-- The loop `while (comp(pivot, last)) --last;` of `std::__unguarded_partition`. -/
def partitionDown {α : Type} (comp : α → α → Bool) (arr : List α) (pivot : Nat) :
    Nat → Nat → Option Nat
  | 0, _ => none
  | fuel + 1, last => do
    let x ← arr[last]?
    let p ← arr[pivot]?
    if comp p x then
      if last = 0 then none else partitionDown comp arr pivot fuel (last - 1)
    else pure last

/-- The function `std::__unguarded_partition`: the array afterwards and the returned
position. -/
def unguardedPartition {α : Type} (comp : α → α → Bool) (pivot : Nat) :
    Nat → List α → Nat → Nat → Option (List α × Nat)
  | 0, _, _, _ => none
  | fuel + 1, arr, first, last => do
    let first1 ← partitionUp comp arr pivot (arr.length + 1) first
    if last = 0 then none
    else
      let last1 ← partitionDown comp arr pivot (arr.length + 1) (last - 1)
      if first1 < last1 then
        let arr1 ← iterSwap arr first1 last1
        unguardedPartition comp pivot fuel arr1 (first1 + 1) last1
      else pure (arr, first1)

/-- The function `std::__push_heap` on the range that starts at `first`. -/
def pushHeap {α : Type} (comp : α → α → Bool) (first topIndex : Nat) (value : α) :
    Nat → List α → Nat → Option (List α)
  | 0, _, _ => none
  | fuel + 1, arr, holeIndex =>
    let parent := (holeIndex - 1) / 2
    if holeIndex > topIndex then do
      let p ← arr[first + parent]?
      if comp p value then
        pushHeap comp first topIndex value fuel (arr.set (first + holeIndex) p) parent
      else pure (arr.set (first + holeIndex) value)
    else pure (arr.set (first + holeIndex) value)

/-- The first loop of `std::__adjust_heap`: the array, `holeIndex` and `secondChild` after
it. -/
def adjustDown {α : Type} (comp : α → α → Bool) (first len : Nat) :
    Nat → List α → Nat → Nat → Option (List α × Nat × Nat)
  | 0, _, _, _ => none
  | fuel + 1, arr, holeIndex, secondChild =>
    if secondChild < (len - 1) / 2 then do
      let sc := 2 * (secondChild + 1)
      let x ← arr[first + sc]?
      let y ← arr[first + (sc - 1)]?
      let sc1 := if comp x y then sc - 1 else sc
      let z ← arr[first + sc1]?
      adjustDown comp first len fuel (arr.set (first + holeIndex) z) sc1 sc1
    else pure (arr, holeIndex, secondChild)

/-- The function `std::__adjust_heap` on the range that starts at `first`. -/
def adjustHeap {α : Type} (comp : α → α → Bool) (arr : List α) (first holeIndex len : Nat)
    (value : α) : Option (List α) := do
  let (arr1, hole1, sc1) ← adjustDown comp first len (len + 1) arr holeIndex holeIndex
  if len % 2 = 0 ∧ 2 ≤ len ∧ sc1 = (len - 2) / 2 then
    let sc2 := 2 * (sc1 + 1)
    let z ← arr1[first + (sc2 - 1)]?
    pushHeap comp first holeIndex value (len + 1) (arr1.set (first + hole1) z) (sc2 - 1)
  else pushHeap comp first holeIndex value (len + 1) arr1 hole1

/-- The function `std::__pop_heap(first, last, result, comp)`. -/
def popHeap {α : Type} (comp : α → α → Bool) (arr : List α) (first last result : Nat) :
    Option (List α) := do
  let value ← arr[result]?
  let top ← arr[first]?
  adjustHeap comp (arr.set result top) first 0 (last - first) value

/-- The loop of `std::__make_heap` from `parent` downwards. -/
def makeHeapLoop {α : Type} (comp : α → α → Bool) (first len : Nat) :
    Nat → List α → Option (List α)
  | 0, arr => do
    let value ← arr[first]?
    adjustHeap comp arr first 0 len value
  | parent + 1, arr => do
    let value ← arr[first + (parent + 1)]?
    let arr1 ← adjustHeap comp arr first (parent + 1) len value
    makeHeapLoop comp first len parent arr1

/-- The function `std::__make_heap(first, last, comp)`. -/
def makeHeap {α : Type} (comp : α → α → Bool) (arr : List α) (first last : Nat) :
    Option (List α) :=
  if last - first < 2 then some arr
  else makeHeapLoop comp first (last - first) ((last - first - 2) / 2) arr

/-- The function `std::__sort_heap(first, last, comp)`; `n` is `last - first`. -/
def sortHeap {α : Type} (comp : α → α → Bool) (first : Nat) : Nat → List α → Option (List α)
  | 0, arr => some arr
  | n + 1, arr =>
    if n + 1 > 1 then do
      let arr1 ← popHeap comp arr first (first + n) (first + n)
      sortHeap comp first n arr1
    else some arr

/-- The call `std::__partial_sort(first, last, last, comp)`: `std::__heap_select` has
nothing to select beyond `last`, so it is `std::__make_heap` followed by
`std::__sort_heap`. -/
def partialSortAll {α : Type} (comp : α → α → Bool) (arr : List α) (first last : Nat) :
    Option (List α) := do
  let arr1 ← makeHeap comp arr first last
  sortHeap comp first (last - first) arr1

/-- The function `std::__introsort_loop`; one unit of fuel per pass of its loop, and every
pass lowers `depth_limit`. -/
def introsortLoop {α : Type} (comp : α → α → Bool) :
    Nat → List α → Nat → Nat → Nat → Option (List α)
  | 0, _, _, _, _ => none
  | fuel + 1, arr, first, last, depth_limit =>
    if last - first > 16 then
      if depth_limit = 0 then partialSortAll comp arr first last
      else do
        let arr1 ← moveMedianToFirst comp arr first (first + 1) (first + (last - first) / 2)
          (last - 1)
        let (arr2, cut) ← unguardedPartition comp first (arr.length + 1) arr1 (first + 1) last
        let arr3 ← introsortLoop comp fuel arr2 cut last (depth_limit - 1)
        introsortLoop comp fuel arr3 first cut (depth_limit - 1)
    else some arr

/-- The loop of `std::__unguarded_linear_insert` for the value `val` taken from position
`last`. -/
def linearInsertLoop {α : Type} (comp : α → α → Bool) (val : α) :
    Nat → List α → Nat → Option (List α)
  | 0, _, _ => none
  | fuel + 1, arr, last =>
    if last = 0 then none
    else do
      let x ← arr[last - 1]?
      if comp val x then linearInsertLoop comp val fuel (arr.set last x) (last - 1)
      else pure (arr.set last val)

/-- The function `std::__unguarded_linear_insert`. -/
def unguardedLinearInsert {α : Type} (comp : α → α → Bool) (arr : List α) (last : Nat) :
    Option (List α) := do
  let val ← arr[last]?
  linearInsertLoop comp val (arr.length + 1) arr last

/-- The body of the loop of `std::__insertion_sort` for position `i`. -/
def insertionStep {α : Type} (comp : α → α → Bool) (first : Nat) (arr : List α) (i : Nat) :
    Option (List α) := do
  let x ← arr[i]?
  let f ← arr[first]?
  if comp x f then
    pure (arr.take first ++ x :: ((arr.drop first).take (i - first) ++ arr.drop (i + 1)))
  else unguardedLinearInsert comp arr i

/-- The function `std::__insertion_sort(first, last, comp)`. -/
def insertionSortRange {α : Type} (comp : α → α → Bool) (arr : List α) (first last : Nat) :
    Option (List α) :=
  (List.range' (first + 1) (last - (first + 1))).foldlM (insertionStep comp first) arr

/-- The function `std::__unguarded_insertion_sort(first, last, comp)`. -/
def unguardedInsertionSort {α : Type} (comp : α → α → Bool) (arr : List α)
    (first last : Nat) : Option (List α) :=
  (List.range' first (last - first)).foldlM (unguardedLinearInsert comp) arr

/-- The function `std::__final_insertion_sort` on the whole array. -/
def finalInsertionSort {α : Type} (comp : α → α → Bool) (arr : List α) : Option (List α) :=
  if arr.length > 16 then do
    let arr1 ← insertionSortRange comp arr 0 16
    unguardedInsertionSort comp arr1 16 arr.length
  else insertionSortRange comp arr 0 arr.length

/-- The function `std::__lg`: the position of the highest set bit of a positive `n`. -/
def lg (n : Nat) : Nat := bitLength n n - 1

/-- The function `std::__sort` on a whole array, which `std::sort(begin, end, comp)` calls:
the array afterwards, or nothing when an element outside the array is accessed (possible
only for a comparator that is not a strict weak ordering on the elements). -/
def gnuSort {α : Type} (comp : α → α → Bool) (arr : List α) : Option (List α) :=
  if arr.length = 0 then some arr
  else do
    let arr1 ← introsortLoop comp (2 * lg arr.length + 1) arr 0 arr.length
      (2 * lg arr.length)
    finalInsertionSort comp arr1

/-- The `std::sort` of the GNU C++ library as a function on arrays. Where the library
would access an element outside the array, which it can do only for a comparator that is
not a strict weak ordering on the elements and in none of the examples below, the array is
taken as left unchanged. -/
def gnuStdSort {α : Type} (comp : α → α → Bool) (arr : List α) : List α :=
  (gnuSort comp arr).getD arr

/-! ## Retriever (src/src/rag_client.cpp, src/include/rag_client.h) -/

/-- The function `rag_client::dot`: the products of the first `min(a.size(), b.size())`
component pairs, each pair taken to `double`, accumulated in a `double` from 0.0, and the
sum converted to `float`. -/
def dot (a b : List float) : float :=
  let n := min a.length b.length
  toFloat ((List.range n).foldl
    (fun s i => float.addDouble s (float.mulDouble (a.getD i 0) (b.getD i 0))) 0)

/-- The comparator lambda of `rag_client::rank`: `a.score > b.score`. -/
def rankComp (a b : rag_rank_item) : Bool := decide (a.score > b.score)

/-- One iteration of the scan loop of `rag_client::rank` at position `i`. -/
def rankStep (cfg : rag_config) (items : List rag_index_row) (qvec : List float)
    (ranked : List rag_rank_item) (i : Nat) : List rag_rank_item :=
  match items[i]? with
  | none => ranked
  | some r =>
    let s := dot qvec r.vec
    if cfg.min_score_keep ≥ 0 ∧ s < cfg.min_score_keep then ranked
    else ranked ++ [{ score := s, row_index := (i : Int) }]

/-- The scan loop of `rag_client::rank`, before sorting. -/
def rankScan (cfg : rag_config) (items : List rag_index_row) (qvec : List float) :
    List rag_rank_item :=
  (List.range items.length).foldl (rankStep cfg items qvec) []

/-- The function `rag_client::rank`, for a given `std::sort`. -/
def rank (sort : (rag_rank_item → rag_rank_item → Bool) → List rag_rank_item → List rag_rank_item)
    (cfg : rag_config) (items : List rag_index_row) (qvec : List float) : List rag_rank_item :=
  sort rankComp (rankScan cfg items qvec)

/-- The subscript `items_[i]` with an `int` index: a row when `0 <= i < items_.size()`,
nothing otherwise (where the C++ behaviour is undefined). -/
def rowAt (items : List rag_index_row) (i : Int) : Option rag_index_row :=
  if 0 ≤ i then items[i.toNat]? else none

/-- The line `"- [" + r.filename + "] " + r.text + "\n\n"` of `build_context`. -/
def formatLine (r : rag_index_row) : Str :=
  "- [".toList ++ r.filename ++ "] ".toList ++ r.text ++ "\n\n".toList

/-- The loop of `rag_client::build_context` over the remaining ranked items, with the
stream contents `oss`, the running total `used` and the counter `count`. Leaving the loop
yields the stream contents; an out-of-range subscript yields nothing. -/
def buildLoop (items : List rag_index_row) (top_k : Int) (char_budget : Nat) :
    List rag_rank_item → Str → Nat → Int → Option Str
  | [], oss, _, _ => some oss
  | it :: rest, oss, used, count =>
    if count ≥ top_k then some oss
    else
      match rowAt items it.row_index with
      | none => none
      | some r =>
        let one := formatLine r
        if used + one.length > char_budget ∧ count ≥ 1 then some oss
        else buildLoop items top_k char_budget rest (oss ++ one) (used + one.length) (count + 1)

/-- The function `rag_client::build_context`. -/
def build_context (items : List rag_index_row) (ranked : List rag_rank_item) (top_k : Int)
    (char_budget : Nat) : Option Str :=
  buildLoop items top_k char_budget ranked [] 0 0

/-- The formatted line of a ranked item (empty when its row index is out of range). -/
def lineOf (items : List rag_index_row) (it : rag_rank_item) : Str :=
  match rowAt items it.row_index with
  | some r => formatLine r
  | none => []

/-- The concatenation of the formatted lines of a list of ranked items. -/
def linesOf (items : List rag_index_row) (l : List rag_rank_item) : Str :=
  (l.map (lineOf items)).flatten

/-- The item the scan loop pushes for position `i`, if that position passes the filter. -/
def scanItem (cfg : rag_config) (items : List rag_index_row) (qvec : List float) (i : Nat) :
    Option rag_rank_item :=
  match items[i]? with
  | none => none
  | some r =>
    if cfg.min_score_keep ≥ 0 ∧ dot qvec r.vec < cfg.min_score_keep then none
    else some { score := dot qvec r.vec, row_index := (i : Int) }

/-- The filter of `rank` as the specification words it: an active (non-negative) threshold
keeps the scores that reach it, an inactive (negative) one keeps every score. -/
def passesFilter (cfg : rag_config) (s : float) : Prop :=
  0 ≤ cfg.min_score_keep → cfg.min_score_keep ≤ s

/-- The index rows of the specification's end-to-end scenario. -/
def scenarioItems : List rag_index_row :=
  [ { id := 0, vec := [1, 0], filename := "a.txt".toList, text := "cats are mammals".toList },
    { id := 1, vec := [0, 1], filename := "b.txt".toList, text := "dogs bark".toList } ]

/-- Seventeen index rows with the same vector, so that every query scores them equally. -/
def tiedItems : List rag_index_row :=
  (List.range 17).map (fun i =>
    { id := (i : Int), vec := [1], filename := "a.txt".toList, text := "same".toList })

/-- Three index rows of which the last two score equally and higher than the first. -/
def mixedItems : List rag_index_row :=
  [ { id := 0, vec := [0], filename := "a.txt".toList, text := "low".toList },
    { id := 1, vec := [1], filename := "b.txt".toList, text := "high".toList },
    { id := 2, vec := [1], filename := "c.txt".toList, text := "high too".toList } ]

/-- Two index rows, the first of which holds a component that is not a number (the token
`nan` in the vector field of the index file). -/
def nanItems : List rag_index_row :=
  [ { id := 0, vec := [float.nan], filename := "a.txt".toList, text := "first".toList },
    { id := 1, vec := [1], filename := "b.txt".toList, text := "second".toList } ]

/-- The rows of the specification's scenario ranked for the query `[1, 0]`. -/
def scenarioRanked : List rag_rank_item :=
  [{ score := 1, row_index := 0 }, { score := 0, row_index := 1 }]

/-! ## Chunker (src/src/embed_interface.cpp, lambdas of `create_index`) -/

/-- The whitespace class of the "C" locale, used by `operator>>` and by `\s` in `std::regex`. -/
def isspace (c : Char) : Bool :=
  c = ' ' || c = '\t' || c = '\n' || c = Char.ofNat 11 || c = Char.ofNat 12 || c = '\r'

/-- The call `std::regex_replace(s, std::regex("\\s+"), " ")`: every maximal run of
whitespace becomes one space. The flag tells whether the previous character was whitespace. -/
def regexReplaceSpaces : Bool → Str → Str
  | _, [] => []
  | inRun, c :: cs =>
    if isspace c then
      if inRun then regexReplaceSpaces true cs else ' ' :: regexReplaceSpaces true cs
    else c :: regexReplaceSpaces false cs

/-- The member `find_first_not_of(c)`: position of the first character other than `c`. -/
def find_first_not_of (s : Str) (c : Char) : Option Nat :=
  let i := (s.takeWhile (fun x => x = c)).length
  if i < s.length then some i else none

/-- The member `find_last_not_of(c)`: position of the last character other than `c`. -/
def find_last_not_of (s : Str) (c : Char) : Option Nat :=
  let k := (s.reverse.takeWhile (fun x => x = c)).length
  if k < s.length then some (s.length - 1 - k) else none

/-- The member `substr(pos, len)`. -/
def substr (s : Str) (pos len : Nat) : Str := (s.drop pos).take len

/-- The lambda `clean_spaces` of `create_index`. -/
def clean_spaces (s : Str) : Str :=
  let s1 := regexReplaceSpaces false s
  match find_first_not_of s1 ' ' with
  | none => []
  | some l =>
    let r := (find_last_not_of s1 ' ').getD 0
    substr s1 l (r - l + 1)

/-- The loop `while (iss >> w) words.push_back(w)`: the maximal whitespace-free runs of the
text, in order. `cur` is the word being read. -/
def splitWordsAux : Str → Str → List Str
  | [], cur => if cur = [] then [] else [cur]
  | c :: cs, cur =>
    if isspace c then
      if cur = [] then splitWordsAux cs [] else cur :: splitWordsAux cs []
    else splitWordsAux cs (cur ++ [c])

/-- The words of a text, as read by `iss >> w`. -/
def splitWords (text : Str) : List Str := splitWordsAux text []

/-- The inner loop of `chunk_words`: `for (k = i; k < j; ++k) { if (k > i) oss << ' ';
oss << words[k]; }`. -/
def joinRange (words : List Str) (i : Nat) (j : Int) : Str :=
  (List.range' i (j - (i : Int)).toNat).foldl
    (fun oss k => (if k > i then oss ++ [' '] else oss) ++ words.getD k []) []

/-- The value of an arithmetic expression of type `int`: the mathematical result when an
`int` can hold it, nothing otherwise (signed overflow, where the C++ behaviour is
undefined). -/
def intResult (x : Int) : Option Int :=
  if -2147483648 ≤ x ∧ x ≤ 2147483647 then some x else none

/-- The outer loop of `chunk_words` from position `i` with the chunks collected so far;
`fuel` bounds the number of iterations and running out of it yields nothing, as does an
overflow of `i + max_words` or of `i += step`. -/
def chunkLoop (words : List Str) (max_words : Int) (step : Nat) :
    Nat → Nat → List Str → Option (List Str)
  | 0, _, _ => none
  | fuel + 1, i, out =>
    if i < words.length then
      match intResult ((i : Int) + max_words) with
      | none => none
      | some e =>
        let j : Int := min (words.length : Int) e
        let c := clean_spaces (joinRange words i j)
        match intResult ((i : Int) + (step : Int)) with
        | none => none
        | some _ =>
          chunkLoop words max_words step fuel (i + step) (if c ≠ [] then out ++ [c] else out)
    else some out

/-- The lambda `chunk_words` of `create_index`, for `int` arguments `max_words` and
`overlap`. The loop counter advances by `step >= 1`, so `words.size() + 1` iterations
always suffice. An overflow of `max_words - overlap` yields nothing, and so does a word
count that no `int` can hold. -/
def chunk_words (text : Str) (max_words overlap : Int) : Option (List Str) :=
  let words := splitWords text
  if words = [] then some []
  else
    match intResult (max_words - overlap), intResult (words.length : Int) with
    | some d, some _ => chunkLoop words max_words (max 1 d).toNat (words.length + 1) 0 []
    | _, _ => none

/-- The chunk count the specification states: `ceil(max(0, W - M) / step) + 1`. -/
def specChunkCount (W M step : Nat) : Nat := (W - M + step - 1) / step + 1

/-- Words joined by single spaces. -/
def joinWords : List Str → Str
  | [] => []
  | [w] => w
  | w :: w' :: ws => w ++ ' ' :: joinWords (w' :: ws)

/-- A word as `iss >> w` reads it: non-empty and free of whitespace. -/
def IsWord (w : Str) : Prop := w ≠ [] ∧ ∀ c ∈ w, isspace c = false

/-- The window of `chunk_words` that starts at word `i`: the words `i .. min(W, i + M) - 1`. -/
def window (words : List Str) (M i : Nat) : List Str := (words.drop i).take M

/-! ## Index loader (src/src/rag_client.cpp) -/

/-- The helper `trim`: erase from the front, then from the back, while the end character,
as an `unsigned char`, is at most `' '`. -/
def trim (s : Str) : Str :=
  ((s.dropWhile (fun c => c.toNat ≤ 32)).reverse.dropWhile (fun c => c.toNat ≤ 32)).reverse

/-- One pass of the outer loop of `parse_vec_csv` per unit of fuel, over the characters from
`p` to `end`: skip separators, stop at the end, otherwise cut a token up to the next comma,
push `std::stof` of it (0.0 when `std::stof` throws) and step over the comma. -/
def parseVecLoop (stof : Str → Option float) : Nat → Str → List float
  | 0, _ => []
  | fuel + 1, s =>
    let s1 := s.dropWhile (fun c => c = ',' || c = ' ' || c = '\t')
    if s1 = [] then []
    else
      let tok := s1.takeWhile (fun c => c ≠ ',')
      let rest := s1.dropWhile (fun c => c ≠ ',')
      (stof tok).getD 0 :: parseVecLoop stof fuel (rest.drop 1)

/-- The function `parse_vec_csv`. Every pass of the loop that does not stop consumes a
character, so `csv.size()` passes are enough. -/
def parse_vec_csv (stof : Str → Option float) (csv : Str) : List float :=
  parseVecLoop stof csv.length csv

/-- The member `find(c, pos)`: the first position at or after `pos` holding `c`. -/
def find (s : Str) (c : Char) (pos : Nat) : Option Nat :=
  let i := ((s.drop pos).takeWhile (fun x => x ≠ c)).length
  if pos + i < s.length then some (pos + i) else none

/-- The value of a run of decimal digits. -/
def digitsValue (ds : Str) : Nat :=
  ds.foldl (fun acc c => acc * 10 + (c.toNat - '0'.toNat)) 0

/-- The digits part of `std::stoi`: read the longest run of decimal digits at the front of
`t` and ignore what follows; nothing when there is no digit (`std::invalid_argument`) or the
signed value does not fit an `int` (`std::out_of_range`). -/
def readDigits (neg : Bool) (t : Str) : Option Int :=
  let ds := t.takeWhile Char.isDigit
  if ds = [] then none
  else
    let v : Int := if neg then -(digitsValue ds : Int) else (digitsValue ds : Int)
    if -2147483648 ≤ v ∧ v ≤ 2147483647 then some v else none

/-- The library function `std::stoi(str)` (base 10): skip leading whitespace, step over one
sign if there is one, then read the digits. -/
def stoi (s : Str) : Option Int :=
  match s.dropWhile isspace with
  | '-' :: t => readDigits true t
  | '+' :: t => readDigits false t
  | s1 => readDigits false s1

/-- The function `rag_client::parse_index_line`: the returned flag and the contents of the
output parameter `row` after the call. -/
def parse_index_line (stof : Str → Option float) (line : Str) (row : rag_index_row) :
    Bool × rag_index_row :=
  match find line '\t' 0 with
  | none => (false, row)
  | some p1 =>
    match find line '\t' (p1 + 1) with
    | none => (false, row)
    | some p2 =>
      match find line '\t' (p2 + 1) with
      | none => (false, row)
      | some p3 =>
        let id := trim (substr line 0 p1)
        let vcsv := trim (substr line (p1 + 1) (p2 - p1 - 1))
        let fname := trim (substr line (p2 + 1) (p3 - p2 - 1))
        let text := line.drop (p3 + 1)
        if id = [] ∨ vcsv = [] ∨ fname = [] then (false, row)
        else
          match stoi id with
          | none => (false, row)
          | some n =>
            let r : rag_index_row :=
              { id := n, vec := parse_vec_csv stof vcsv, filename := fname, text := text }
            if r.vec = [] then (false, row) else (true, r)

/-- The lines successive `std::getline` calls deliver from a stream holding `s`: the pieces
between newlines, a last unterminated piece included when it is not empty. `cur` is the
line being read. -/
def getlinesAux : Str → Str → List Str
  | [], cur => if cur = [] then [] else [cur]
  | c :: cs, cur => if c = '\n' then cur :: getlinesAux cs [] else getlinesAux cs (cur ++ [c])

/-- The lines of a file's contents, as `std::getline` reads them. -/
def getlines (content : Str) : List Str := getlinesAux content []

/-- The body of the read loop of `rag_client::load_index` for one line. -/
def loadStep (stof : Str → Option float) (items : List rag_index_row) (line : Str) :
    List rag_index_row :=
  if line = [] then items
  else
    let res := parse_index_line stof line {}
    if res.1 then items ++ [res.2] else items

/-- The function `rag_client::load_index` on a file given by its contents (`none`: the file
cannot be opened): the returned flag and `items_` after the call. -/
def load_index (stof : Str → Option float) (file : Option Str) : Bool × List rag_index_row :=
  match file with
  | none => (false, [])
  | some content =>
    let items := (getlines content).foldl (loadStep stof) []
    (!items.isEmpty, items)

/-- The text before the first tab of `s` (all of `s` when it has no tab). -/
def beforeTab (s : Str) : Str := s.takeWhile (fun x => x ≠ '\t')

/-- The text after the first tab of `s` (empty when it has no tab). -/
def afterTab (s : Str) : Str := (s.dropWhile (fun x => x ≠ '\t')).drop 1

/-- The id field of a line: the text before the first tab, trimmed. -/
def idField (line : Str) : Str := trim (beforeTab line)

/-- The vector field of a line: the text between the first and second tab, trimmed. -/
def vecField (line : Str) : Str := trim (beforeTab (afterTab line))

/-- The filename field of a line: the text between the second and third tab, trimmed. -/
def nameField (line : Str) : Str := trim (beforeTab (afterTab (afterTab line)))

/-- The text field of a line: everything after the third tab, untrimmed. -/
def textField (line : Str) : Str := afterTab (afterTab (afterTab line))

/-- A decimal integer in the specification's sense: an optional sign followed by one or
more decimal digits and nothing else. -/
def isDecimalInteger (s : Str) : Bool :=
  match s with
  | '-' :: t => !t.isEmpty && t.all Char.isDigit
  | '+' :: t => !t.isEmpty && t.all Char.isDigit
  | _ => !s.isEmpty && s.all Char.isDigit

/-- What `std::stoi` reads from a string, spelled out: the string begins with an optional
sign and a non-empty run of decimal digits that is not followed by a further digit, and
`v`, the signed value of the run, fits an `int`. -/
def StartsWithInt (s : Str) (v : Int) : Prop :=
  ∃ sign ds rest, s = sign ++ ds ++ rest ∧ (sign = [] ∨ sign = ['-'] ∨ sign = ['+']) ∧
    ds ≠ [] ∧ (∀ c ∈ ds, c.isDigit = true) ∧ (∀ c, rest.head? = some c → c.isDigit = false) ∧
    v = (if sign = ['-'] then -(digitsValue ds : Int) else (digitsValue ds : Int)) ∧
    -2147483648 ≤ v ∧ v ≤ 2147483647

/-! ## Index writer (src/src/embed_interface.cpp, `create_index`) -/

/-- What `create_index` writes for one chunk: the id, the embedding, the file's basename and
the chunk text. -/
structure index_record where
  chunk_id : Nat
  emb : List float
  filename : Str
  chunk : Str

/-- The loop that fills `vcsv`: `if (i) vcsv << ','; vcsv << emb[i];`, where `fmt` is the
stream's rendering of a `float` (fixed notation, precision 7). -/
def formatVec (fmt : float → Str) (emb : List float) : Str :=
  (List.range emb.length).foldl
    (fun vcsv i => (if i ≠ 0 then vcsv ++ [','] else vcsv) ++ fmt (emb.getD i 0)) []

/-- The statement `fout << chunk_id++ << '\t' << vcsv.str() << '\t' << filename << '\t' <<
ch << '\n'`: the characters written for one record. -/
def writeRecord (fmt : float → Str) (r : index_record) : Str :=
  Nat.toDigits 10 r.chunk_id ++ '\t' :: (formatVec fmt r.emb ++ '\t' :: (r.filename ++
    '\t' :: (r.chunk ++ ['\n'])))

/-- The contents of the index file after the records have been written in order. -/
def writeIndex (fmt : float → Str) (recs : List index_record) : Str :=
  (recs.map (writeRecord fmt)).flatten

/-- What is assumed of the rendering of a `float`: it is never empty and consists of
characters above the space other than the comma (digits, sign, point, the letters of
`inf` and `nan`). -/
def FloatTextOK (fmt : float → Str) : Prop :=
  ∀ x, fmt x ≠ [] ∧ ∀ c ∈ fmt x, c ≠ ',' ∧ 32 < c.toNat

/-- A rendering in fixed notation with seven decimals: for a finite value the sign, the
integer part, the point and seven digits of the value rounded to the nearest multiple of
`1e-7`; `nan`, `inf` and `-inf` for the other values. -/
def formatFixed7 : float → Str
  | .nan => "nan".toList
  | .pinf => "inf".toList
  | .ninf => "-inf".toList
  | .fin x =>
    let n : Nat := (⌊|x| * 10000000 + 1 / 2⌋).toNat
    let frac := Nat.toDigits 10 (n % 10000000)
    (if x < 0 then ['-'] else []) ++ Nat.toDigits 10 (n / 10000000) ++
      '.' :: (List.replicate (7 - frac.length) '0' ++ frac)

/-- Tokens joined by single commas. -/
def joinComma : List Str → Str
  | [] => []
  | [w] => w
  | w :: w' :: ws => w ++ ',' :: joinComma (w' :: ws)

/-- The row `load_index` is expected to hold for a written record: the same id and text,
the filename without its leading and trailing characters up to the space, and one
vector component per written component. -/
def loadedRow (fmt : float → Str) (stof : Str → Option float) (r : index_record) : rag_index_row :=
  { id := (r.chunk_id : Int), vec := r.emb.map (fun x => (stof (fmt x)).getD 0),
    filename := trim r.filename, text := r.chunk }

/-- The line written for a record, without its final newline. -/
def recordLine (fmt : float → Str) (r : index_record) : Str :=
  Nat.toDigits 10 r.chunk_id ++ '\t' :: (formatVec fmt r.emb ++ '\t' :: (r.filename ++
    '\t' :: r.chunk))

/-- What the round trip needs of a written record: the id fits an `int`, the vector has a
component, the filename has no tab or newline and does not trim to nothing, and the chunk
text has no newline. -/
def Loadable (r : index_record) : Prop :=
  r.chunk_id ≤ 2147483647 ∧ r.emb ≠ [] ∧ trim r.filename ≠ [] ∧ '\t' ∉ r.filename ∧
    '\n' ∉ r.filename ∧ '\n' ∉ r.chunk

/-- The records `create_index` writes for the specification's end-to-end scenario. -/
def scenarioRecords : List index_record :=
  [ { chunk_id := 0, emb := [1, 0], filename := "a.txt".toList,
      chunk := "cats are mammals".toList },
    { chunk_id := 1, emb := [0, 1], filename := "b.txt".toList, chunk := "dogs bark".toList } ]

/-- A record for a file whose name begins with a space. -/
def spacedNameRecord : index_record :=
  { chunk_id := 0, emb := [1], filename := " a.txt".toList, chunk := "hello".toList }

/-! ## Vector field, the specification's view -/

/-- The pieces of a field between its commas, empty pieces included. `cur` is the piece
being read. -/
def splitCommaAux : Str → Str → List Str
  | [], cur => [cur]
  | c :: cs, cur => if c = ',' then cur :: splitCommaAux cs [] else splitCommaAux cs (cur ++ [c])

/-- The comma-separated tokens of a vector field. -/
def splitComma (s : Str) : List Str := splitCommaAux s []

/-- A token without its leading spaces and tabs. -/
def stripBlank (t : Str) : Str := t.dropWhile (fun c => c = ' ' || c = '\t')

/-- The components a list of tokens contributes: every token that holds a character other
than a space or a tab gives what `std::stof` reads from it once its leading spaces and tabs
are dropped, or 0.0 when `std::stof` throws; the other tokens give nothing. -/
def tokenValues (stof : Str → Option float) (toks : List Str) : List float :=
  ((toks.map stripBlank).filter (fun t => decide (t ≠ []))).map (fun t => (stof t).getD 0)

/-! ## Conversation session (src/src/llm_interface.cpp) -/

/-- The struct `llama_chat_message`: a role and a content. -/
structure chat_message where
  role : Str
  content : Str
  deriving DecidableEq

/-- What the collaborator `llama_chat_apply_template` makes of a message list and the
`add_ass` flag: the formatted transcript (the call then returns its length), or a failure
(the call then returns the negative number `-(code + 1)`). -/
inductive template_result where
  | text (formatted : Str)
  | error (code : Nat)
  deriving DecidableEq

/-- The value `llama_chat_apply_template` returns. -/
def template_result.ret : template_result → Int
  | .text formatted => (formatted.length : Int)
  | .error code => -((code : Int) + 1)

/-- A chat template (the model's template as `llama_chat_apply_template` applies it): the
rendering of a message list, with or without the trailing generation marker. -/
abbrev chat_template := List chat_message → Bool → template_result

/-- The copy `strdup(s.c_str())`: the characters before the first NUL. -/
def cstr (s : Str) : Str := s.takeWhile (fun c => c ≠ Char.ofNat 0)

/-- The members of `llm_interface` that make up the conversation: `_messages`,
`_formatted_messages` and `_prev_len`. -/
structure llm_state where
  messages : List chat_message := []
  formatted : Str := []
  prev_len : Int := 0

/-- The session after construction and `load_model`: no message, a buffer of `n_ctx`
characters, `_prev_len = 0`. -/
def initial_state (n_ctx : Nat) : llm_state :=
  { messages := [], formatted := List.replicate n_ctx (Char.ofNat 0), prev_len := 0 }

/-- The function `llm_interface::set_system_prompt`. -/
def set_system_prompt (s : llm_state) (system_prompt : Str) : llm_state :=
  { s with messages := s.messages ++ [{ role := "system".toList, content := cstr system_prompt }] }

/-- The call `llama_chat_apply_template(tmpl, msgs, n, add_ass, buf, length)` on a buffer of
`length = buf.size()` characters: the value returned and the buffer afterwards. On success
the formatted text is copied as `strncpy` does: its first `length` characters, padded with
NUL when it is shorter. -/
def apply_template (tmpl : chat_template) (msgs : List chat_message) (add_ass : Bool)
    (buf : Str) : Int × Str :=
  match tmpl msgs add_ass with
  | .error code => (-((code : Int) + 1), buf)
  | .text formatted =>
    ((formatted.length : Int),
      if buf.length > 0 then
        formatted.take buf.length ++ List.replicate (buf.length - formatted.length) (Char.ofNat 0)
      else buf)

/-- The call `v.resize(n)` on a vector of characters. -/
def resize (buf : Str) (n : Nat) : Str :=
  buf.take n ++ List.replicate (n - buf.length) (Char.ofNat 0)

/-- The string `std::string(buf.begin() + first, buf.begin() + last)`: the characters
`first .. last - 1` of the buffer when `0 <= first <= last <= buf.size()`, and nothing
otherwise (the iterator range is then invalid). -/
def iterRange (buf : Str) (first last : Int) : Option Str :=
  if 0 ≤ first ∧ first ≤ last ∧ last ≤ (buf.length : Int) then
    some ((buf.drop first.toNat).take (last - first).toNat)
  else none

/-- The function `llm_interface::begin_prepare_prompt`: the session afterwards and the
string returned. -/
def begin_prepare_prompt (tmpl : chat_template) (s : llm_state) (prompt : Str) :
    llm_state × Option Str :=
  let msgs := s.messages ++ [{ role := "user".toList, content := cstr prompt }]
  let r1 := apply_template tmpl msgs true s.formatted
  let r2 := if r1.1 > (r1.2.length : Int) then
      apply_template tmpl msgs true (resize r1.2 r1.1.toNat)
    else r1
  let s' : llm_state := { messages := msgs, formatted := r2.2, prev_len := s.prev_len }
  if r2.1 < 0 then (s', some [])
  else (s', iterRange r2.2 s.prev_len r2.1)

/-- The function `llm_interface::after_prepare_prepare`: the session afterwards. The value
returned by `llama_chat_apply_template` (called without a buffer) is stored in `_prev_len`
before it is tested. -/
def after_prepare_prepare (tmpl : chat_template) (s : llm_state) (result : Str) : llm_state :=
  let msgs := s.messages ++ [{ role := "assistant".toList, content := cstr result }]
  { messages := msgs, formatted := s.formatted, prev_len := (tmpl msgs false).ret }

/-- A plain template: every message as `role: content` on a line of its own, and
`assistant: ` as the generation marker. -/
def plainTemplate : chat_template := fun msgs add_ass =>
  .text ((msgs.map (fun m => m.role ++ ": ".toList ++ m.content ++ "\n".toList)).flatten ++
    (if add_ass then "assistant: ".toList else []))

/-- A template that renders the content of the last message only. -/
def lastOnlyTemplate : chat_template := fun msgs _ =>
  .text (match msgs.getLast? with
    | some m => m.content
    | none => [])

/-- A template `llama_chat_apply_template` cannot apply: every call returns -1. -/
def failingTemplate : chat_template := fun _ _ => .error 0

/-- The session after `set_system_prompt("S")`, for a buffer of 8 characters. -/
def sessionStart : llm_state := set_system_prompt (initial_state 8) "S".toList

/-- The session after `set_system_prompt("S")`, `begin_turn("Q1")` and `end_turn(answer)`
under a given template. -/
def sessionAfterTurn (tmpl : chat_template) (answer : Str) : llm_state :=
  after_prepare_prepare tmpl (begin_prepare_prompt tmpl sessionStart "Q1".toList).1 answer

/-! ## Generation loop (src/src/llm_interface.cpp, `run_prompt`) -/

/-- The type `llama_token`. -/
abbrev llama_token := Int

/-- What the generation engine answers during one pass of the loop of `run_prompt`:
`llama_n_ctx`, `llama_memory_seq_pos_max`, the value of `llama_decode` and the token drawn
by `llama_sampler_sample`. -/
structure gen_step where
  n_ctx : Int
  seq_pos_max : Int
  decode_ret : Int
  sampled : llama_token

/-- The answers of the generation engine during one call of `run_prompt`:
`llama_memory_seq_pos_max` right after the memory is cleared, then one `gen_step` per pass
of the loop. -/
structure engine_trace where
  seq_pos_max0 : Int
  steps : List gen_step

/-- The vocabulary side of the engine: `llama_tokenize` on the prompt (nothing when it
reports a failure), `llama_vocab_is_eog`, and `llama_token_to_piece` (nothing when it
returns a negative length). -/
structure vocab_model where
  tokenize : Str → Bool → Option (List llama_token)
  is_eog : llama_token → Bool
  token_to_piece : llama_token → Option Str

/-- How the loop of `run_prompt` ends: left through `break` with the accumulated result,
the process ended by `exit(0)` (context size exceeded) or by `GGML_ABORT`, or the recorded
answers of the engine used up. `delivered` lists the strings handed to `token_out`. -/
inductive loop_outcome where
  | finished (result : Str) (delivered : List Str)
  | exited (delivered : List Str)
  | aborted (delivered : List Str)
  | pending

/-- The loop `while (true)` of `run_prompt`, one engine answer per pass: `batch_n` is
`batch.n_tokens`, `result` the accumulated text, `delivered` the strings handed to
`token_out` so far, and `has_token_out` tells whether `token_out` is not null. -/
def genLoop (v : vocab_model) (has_token_out : Bool) :
    List gen_step → Int → Str → List Str → loop_outcome
  | [], _, _, _ => .pending
  | st :: rest, batch_n, result, delivered =>
    if st.seq_pos_max + 1 + batch_n > st.n_ctx then .exited delivered
    else if st.decode_ret ≠ 0 then .aborted delivered
    else if v.is_eog st.sampled then .finished result delivered
    else
      match v.token_to_piece st.sampled with
      | none => .aborted delivered
      | some piece =>
        genLoop v has_token_out rest 1 (result ++ piece)
          (if has_token_out then delivered ++ [piece] else delivered)

/-- How a call of `run_prompt` ends: it returns (flag, `result`, the session afterwards),
the process is ended, the recorded answers of the engine are used up, or the behaviour is
undefined (invalid iterator range in `begin_prepare_prompt`). -/
inductive run_outcome where
  | returned (ok : Bool) (result : Str) (delivered : List Str) (state : llm_state)
  | exited (delivered : List Str)
  | aborted (delivered : List Str)
  | pending
  | undefined

/-- The function `llm_interface::run_prompt`. -/
def run_prompt (tmpl : chat_template) (v : vocab_model) (trace : engine_trace)
    (has_token_out : Bool) (s : llm_state) (prompt : Str) : run_outcome :=
  let b := begin_prepare_prompt tmpl s prompt
  match b.2 with
  | none => .undefined
  | some n_prompt =>
    let is_first := decide (trace.seq_pos_max0 = -1)
    match v.tokenize n_prompt is_first with
    | none => .aborted []
    | some prompt_tokens =>
      match genLoop v has_token_out trace.steps (prompt_tokens.length : Int) [] [] with
      | .finished result delivered =>
        .returned true result delivered (after_prepare_prepare tmpl b.1 result)
      | .exited delivered => .exited delivered
      | .aborted delivered => .aborted delivered
      | .pending => .pending

/-- A vocabulary for examples: one token per character of the prompt, token 0 ends the
generation, and the piece of a token is the character with that code. -/
def charVocab : vocab_model :=
  { tokenize := fun s _ => some (s.map (fun c => (c.toNat : Int))),
    is_eog := fun t => decide (t = 0),
    token_to_piece := fun t => if 0 < t then some [Char.ofNat t.toNat] else none }

/-- Engine answers for examples: the tokens `H`, `i`, then the end-of-generation token,
then a token that is never reached. -/
def helloTrace : engine_trace :=
  { seq_pos_max0 := -1,
    steps :=
      [ { n_ctx := 4096, seq_pos_max := -1, decode_ret := 0, sampled := 72 },
        { n_ctx := 4096, seq_pos_max := 29, decode_ret := 0, sampled := 105 },
        { n_ctx := 4096, seq_pos_max := 30, decode_ret := 0, sampled := 0 },
        { n_ctx := 4096, seq_pos_max := 31, decode_ret := 0, sampled := 33 } ] }

/-- The display texts of the tokens sampled in a list of passes, in order. -/
def piecesOf (v : vocab_model) (steps : List gen_step) : List Str :=
  steps.map (fun st => (v.token_to_piece st.sampled).getD [])

/-! ## Embedding (src/src/embed_interface.cpp, src/include/embed_interface.h) -/

/-- The fields of `embed_interface::model_config` read by `embed_query`, `embed_passage`
and `encode_once`. -/
structure embed_interface.model_config where
  normalize_l2 : Bool := true
  add_bos : Bool := true
  query_prefix : Str := []
  passage_prefix : Str := []

/-- What `encode_once` asks of the library and of the loaded model. `embd_tokenize` yields
nothing when it throws or aborts; `get_embeddings_ith` and `get_embeddings_seq` yield nothing
for a null pointer; `embd_normalize` takes roots and is left as a parameter, its arguments
being the input, `n` and `embd_norm`. -/
structure embed_engine where
  embd_tokenize : Str → Bool → Bool → Option (List llama_token)
  n_embd : Nat
  n_ctx : Int
  vocab_get_add_bos : Bool
  vocab_bos : llama_token
  decode : List llama_token → Int
  pooling_none : Bool
  get_embeddings_ith : List llama_token → Int → Option (List float)
  get_embeddings_seq : List llama_token → Int → Option (List float)
  embd_normalize : List float → Nat → Int → List float

/-- The string `in` of `encode_once`:
`_cfg.query_prefix.empty() ? text : (_cfg.query_prefix + text)`. -/
def encodeInput (cfg : embed_interface.model_config) (text : Str) : Str :=
  if cfg.query_prefix.isEmpty then text else cfg.query_prefix ++ text

/-- The body of `encode_once` after the call of `embd_tokenize`, for the outcome `toks` of
that call: the flag returned and the vector left in `out_emb`, or nothing when the
tokenizer threw. -/
def encodeTokens (e : embed_engine) (cfg : embed_interface.model_config) :
    Option (List llama_token) → Option (Bool × List float)
  | none => none
  | some toks =>
    if toks.isEmpty then some (true, List.replicate e.n_embd 0)
    else
      let toks1 :=
        if cfg.add_bos && e.vocab_get_add_bos then
          (if toks.isEmpty || toks.head? != some e.vocab_bos then e.vocab_bos :: toks
           else toks)
        else toks
      if (toks1.length : Int) > e.n_ctx then some (false, [])
      else if e.decode toks1 < 0 then some (false, [])
      else
        let embd_ptr :=
          if e.pooling_none then e.get_embeddings_ith toks1 ((toks1.length : Int) - 1)
          else e.get_embeddings_seq toks1 0
        match embd_ptr with
        | none => some (false, [])
        | some inp =>
          some (true, e.embd_normalize inp e.n_embd (if cfg.normalize_l2 then 2 else 0))

/-- The function `embed_interface::encode_once`. -/
def embed_interface.encode_once (e : embed_engine) (cfg : embed_interface.model_config)
    (text : Str) : Option (Bool × List float) :=
  encodeTokens e cfg (e.embd_tokenize (encodeInput cfg text) true true)

/-- The function `embed_interface::embed_query`. -/
def embed_interface.embed_query (e : embed_engine) (cfg : embed_interface.model_config)
    (text : Str) : Option (Bool × List float) :=
  embed_interface.encode_once e cfg ( cfg.query_prefix ++ text)

/-- The function `embed_interface::embed_passage`. -/
def embed_interface.embed_passage (e : embed_engine) (cfg : embed_interface.model_config)
    (text : Str) : Option (Bool × List float) :=
  embed_interface.encode_once e cfg ( cfg.passage_prefix ++ text)

/-- The prefixes set in `main.cpp`: `"query: "` and `"passage: "`. -/
def mainEmbedConfig : embed_interface.model_config :=
  { query_prefix := "query: ".toList, passage_prefix := "passage: ".toList }

/-- An engine for examples whose embedding shows what was tokenized: one token per
character, no BOS token, and the embedding is the list of token codes, unchanged by
`embd_normalize`. -/
def echoEngine : embed_engine :=
  { embd_tokenize := fun s _ _ => some (s.map (fun c : Char => (c.toNat : Int))),
    n_embd := 4,
    n_ctx := 4096,
    vocab_get_add_bos := false,
    vocab_bos := 1,
    decode := fun _ => 0,
    pooling_none := false,
    get_embeddings_ith := fun _ _ => none,
    get_embeddings_seq := fun toks _ => some (toks.map (fun t : Int => float.fin (t : ℚ))),
    embd_normalize := fun inp _ _ => inp }

/-- The text whose character codes are the components of an embedding of `echoEngine`. -/
def echoText (emb : List float) : Str :=
  emb.map (fun x =>
    match x with
    | .fin q => Char.ofNat q.num.toNat
    | _ => Char.ofNat 0)

/-! ## Question answering (src/src/rag_client.cpp, `ask`) -/

/-- The bytes of a string literal of the source file, which is UTF-8 encoded: one element
per `char`. -/
def utf8 (s : String) : Str :=
  (s.toList.flatMap String.utf8EncodeChar).map (fun b => Char.ofNat b.toNat)

/-- The fields of `rag_client::rag_config` read by `ask`: those of the retriever, the
configuration of the embedding model, `system_prompt` and `stream_tokens`. -/
structure ask_config extends rag_config where
  embed : embed_interface.model_config := {}
  system_prompt : Str :=
    utf8 "คุณคือผู้ช่วย RAG ภาษาไทย ตอบเป็นภาษาไทยเท่านั้น ตอบจากบริบทเท่านั้น ถ้าไม่มีข้อมูลให้บอกว่าไม่ทราบ"
  stream_tokens : Bool := true

/-- The members of `rag_client` read by `ask`; `_llm` is the session of the generation
model. -/
structure rag_client where
  cfg_ : ask_config := {}
  items_ : List rag_index_row := []
  _llm : llm_state := {}
  _models_ready : Bool := false

/-- The function `rag_client::embed_question`: the flag returned and `out_qvec`, or nothing
when the tokenizer throws. -/
def embed_question (e : embed_engine) (c : rag_client) (question : Str) :
    Option (Bool × List float) :=
  if !c._models_ready then some (false, [])
  else
    match embed_interface.embed_query e c.cfg_.embed question with
    | none => none
    | some (ok, out_qvec) => some (ok && !out_qvec.isEmpty, out_qvec)

/-- The string built in `user_prompt` by `ask`. -/
def userPrompt (system_prompt ctx question : Str) : Str :=
  system_prompt ++ "\n\n".toList ++
  utf8 "บริบท:\n" ++ ctx ++ "\n".toList ++
  utf8 "คำถาม: " ++ question ++ "\n\n".toList ++
  utf8 "ข้อกำหนดการตอบ:\n" ++
  utf8 "- ตอบเป็นภาษาไทยแบบกระชับ ชัดเจน\n"

/-- How a call of `ask` ends: it returns (the string, the texts handed to `on_token`, the
session of the generation model afterwards), or it does not return: the process is ended
by the generation loop, the recorded answers of the engine are used up, the behaviour is
undefined, or the tokenizer of the embedding model throws. -/
inductive ask_outcome where
  | returned (answer : Str) (on_token_texts : List Str) (llm : llm_state)
  | exited (on_token_texts : List Str)
  | aborted (on_token_texts : List Str)
  | pending
  | undefined
  | raised

/-- The function `rag_client::ask`; `has_on_token` tells whether `on_token` is set. -/
def ask (sort : (rag_rank_item → rag_rank_item → Bool) → List rag_rank_item →
      List rag_rank_item)
    (e : embed_engine) (tmpl : chat_template) (v : vocab_model) (trace : engine_trace)
    (c : rag_client) (question : Str) (override_top_k : Option Int) (has_on_token : Bool) :
    ask_outcome :=
  if !c._models_ready then .returned "[ERROR] models not loaded".toList [] c._llm
  else if c.items_.isEmpty then .returned "[ERROR] index is empty".toList [] c._llm
  else
    match embed_question e c question with
    | none => .raised
    | some (false, _) => .returned "[ERROR] failed to embed question".toList [] c._llm
    | some (true, qvec) =>
      let ranked := rank sort c.cfg_.torag_config c.items_ qvec
      if ranked.isEmpty then .returned "[WARN] no relevant context found".toList [] c._llm
      else
        let K := override_top_k.getD c.cfg_.top_k
        match build_context c.items_ ranked K c.cfg_.context_budget with
        | none => .undefined
        | some ctx =>
          let user_prompt := userPrompt c.cfg_.system_prompt ctx question
          let streaming := c.cfg_.stream_tokens && has_on_token
          match run_prompt tmpl v trace true c._llm user_prompt with
          | .returned ok final_answer delivered llm =>
            if streaming then
              if !ok then .returned "[ERROR] LLM run_prompt failed".toList delivered llm
              else .returned final_answer delivered llm
            else
              if !ok then .returned "[ERROR] LLM run_prompt failed".toList [] llm
              else
                .returned (if final_answer.isEmpty then delivered.flatten else final_answer)
                  [] llm
          | .exited delivered => .exited (if streaming then delivered else [])
          | .aborted delivered => .aborted (if streaming then delivered else [])
          | .pending => .pending
          | .undefined => .undefined

/-- A client for examples: models loaded as `load_models` leaves them (the system prompt
pushed on the session), the rows of `scenarioItems`, and the given threshold. -/
def scenarioClient (min_score_keep : float) : rag_client :=
  { cfg_ := { min_score_keep := min_score_keep, system_prompt := "S".toList },
    items_ := scenarioItems,
    _llm := sessionStart,
    _models_ready := true }

/-- An embedding engine for examples that embeds every text as the vector `(1, 0)`. -/
def fixedEngine : embed_engine :=
  { embd_tokenize := fun s _ _ => some (s.map (fun c : Char => (c.toNat : Int))),
    n_embd := 2,
    n_ctx := 4096,
    vocab_get_add_bos := false,
    vocab_bos := 1,
    decode := fun _ => 0,
    pooling_none := false,
    get_embeddings_ith := fun _ _ => none,
    get_embeddings_seq := fun _ _ => some [1, 0],
    embd_normalize := fun inp _ _ => inp }

/-- An embedding engine for examples whose `llama_decode` fails. -/
def failingEngine : embed_engine :=
  { fixedEngine with decode := fun _ => -1 }

/-! # Theorems -/

/-! ## Facts about floating-point comparisons -/

theorem float.lt_irrefl (a : float) : float.lt a a = false := by
  cases a <;> simp [float.lt]

theorem float.lt_trans (a b c : float) (hab : float.lt a b = true) (hbc : float.lt b c = true) :
    float.lt a c = true := by
  cases a <;> cases b <;> cases c <;> simp_all [float.lt]
  exact hab.trans hbc

theorem float.eq_of_not_lt (a b : float) (ha : a ≠ float.nan) (hb : b ≠ float.nan)
    (hab : float.lt a b = false) (hba : float.lt b a = false) : a = b := by
  cases a <;> cases b <;> simp_all [float.lt]
  exact le_antisymm hba hab

theorem float.le_iff_not_lt (a b : float) (ha : a ≠ float.nan) (hb : b ≠ float.nan) :
    float.le a b = true ↔ float.lt b a = false := by
  cases a <;> cases b <;> simp_all [float.lt, float.le]

theorem float.not_le_of_lt (a b : float) (hab : float.lt a b = true) : float.le b a = false := by
  cases a <;> cases b <;> simp_all [float.lt, float.le]

theorem float.ne_nan_of_le_left (a b : float) (h : float.le a b = true) : a ≠ float.nan := by
  cases a <;> simp_all [float.le]

theorem float.ne_nan_of_le_right (a b : float) (h : float.le a b = true) : b ≠ float.nan := by
  cases a <;> cases b <;> simp_all [float.le]

/-! ## Facts about the sort contract -/

theorem StrictWeakOrder.asymm {α : Type} {comp : α → α → Bool} {l : List α}
    (h : StrictWeakOrder comp l) (a b : α) (ha : a ∈ l) (hb : b ∈ l)
    (hab : comp a b = true) : comp b a = false := by
  cases hba : comp b a with
  | false => rfl
  | true =>
    have := h.2.1 a ha b hb a ha hab hba
    rw [h.1 a ha] at this
    exact absurd this (by decide)

theorem StrictWeakOrder.total {α : Type} {comp : α → α → Bool} {l : List α}
    (h : StrictWeakOrder comp l) (a b : α) (ha : a ∈ l) (hb : b ∈ l) :
    comp b a = false ∨ comp a b = false := by
  cases hab : comp a b with
  | false => exact Or.inr rfl
  | true => exact Or.inl (h.asymm a b ha hb hab)

theorem StrictWeakOrder.trans_not {α : Type} {comp : α → α → Bool} {l : List α}
    (h : StrictWeakOrder comp l) (a b c : α) (ha : a ∈ l) (hb : b ∈ l) (hc : c ∈ l)
    (hab : comp b a = false) (hbc : comp c b = false) : comp c a = false := by
  cases hca : comp c a with
  | false => rfl
  | true =>
    cases hab' : comp a b with
    | true =>
      have := h.2.1 c hc a ha b hb hca hab'
      rw [hbc] at this
      exact absurd this (by decide)
    | false =>
      cases hbc' : comp b c with
      | true =>
        have := h.2.1 b hb c hc a ha hbc' hca
        rw [hab] at this
        exact absurd this (by decide)
      | false =>
        have := (h.2.2 a ha b hb c hc hab' hab hbc' hbc).2
        rw [hca] at this
        exact absurd this (by decide)

/-- Straight insertion sorts a range on whose values the comparator is a strict weak
ordering. -/
theorem insertionSort_sorted_of_swo {α : Type} {comp : α → α → Bool} (l : List α)
    (h : StrictWeakOrder comp l) :
    (List.insertionSort (fun a b => comp b a = false) l).Pairwise
      (fun a b => comp b a = false) := by
  let r : {x // x ∈ l} → {x // x ∈ l} → Prop := fun a b => comp b.1 a.1 = false
  haveI : DecidableRel r := fun a b => inferInstanceAs (Decidable (comp b.1 a.1 = false))
  haveI : IsTotal {x // x ∈ l} r := ⟨fun a b => h.total a.1 b.1 a.2 b.2⟩
  haveI : IsTrans {x // x ∈ l} r := ⟨fun a b c => h.trans_not a.1 b.1 c.1 a.2 b.2 c.2⟩
  have hsorted : (List.insertionSort r l.attach).Pairwise r := List.sorted_insertionSort r _
  have hmap : (List.insertionSort r l.attach).map Subtype.val =
      List.insertionSort (fun a b => comp b a = false) (l.attach.map Subtype.val) :=
    List.map_insertionSort r (fun a b => comp b a = false) Subtype.val l.attach
      (fun a _ b _ => Iff.rfl)
  rw [List.attach_map_subtype_val] at hmap
  rw [← hmap, List.pairwise_map]
  exact hsorted

theorem insertionStdSort_contract {α : Type} :
    SortContract (insertionStdSort : (α → α → Bool) → List α → List α) := by
  intro comp l h
  exact ⟨List.perm_insertionSort _ l, insertionSort_sorted_of_swo l h⟩

theorem insertionStdSort_stable {α : Type} :
    SortStable (insertionStdSort : (α → α → Bool) → List α → List α) := by
  intro comp l _ a b hab hsub
  exact List.pair_sublist_insertionSort hab hsub

/-- Without a score that is not a number, the comparator of `rank` is a strict weak
ordering on the items. -/
theorem rankComp_swo (l : List rag_rank_item) (hl : ∀ it ∈ l, it.score ≠ float.nan) :
    StrictWeakOrder rankComp l := by
  refine ⟨?_, ?_, ?_⟩
  · intro a _
    simp only [rankComp, decide_eq_false_iff_not]
    intro h
    have := float.lt_irrefl a.score
    exact absurd h (by simp [this, GT.gt, LT.lt])
  · intro a _ b _ c _ h1 h2
    simp only [rankComp, decide_eq_true_eq, GT.gt, LT.lt] at *
    exact float.lt_trans _ _ _ h2 h1
  · intro a ha b hb c hc h1 h2 h3 h4
    simp only [rankComp, decide_eq_false_iff_not, GT.gt, LT.lt, Bool.not_eq_true] at *
    have hab := float.eq_of_not_lt _ _ (hl a ha) (hl b hb) h2 h1
    have hbc := float.eq_of_not_lt _ _ (hl b hb) (hl c hc) h4 h3
    rw [hab, hbc]
    exact ⟨float.lt_irrefl _, float.lt_irrefl _⟩

/-! ## The scan loop of `rank` -/

theorem rankStep_eq (cfg : rag_config) (items : List rag_index_row) (qvec : List float)
    (ranked : List rag_rank_item) (i : Nat) :
    rankStep cfg items qvec ranked i = ranked ++ (scanItem cfg items qvec i).toList := by
  unfold rankStep scanItem
  cases items[i]? with
  | none => simp
  | some r =>
    by_cases hc : cfg.min_score_keep ≥ 0 ∧ dot qvec r.vec < cfg.min_score_keep
    · simp [hc]
    · simp [hc]

theorem foldl_rankStep (cfg : rag_config) (items : List rag_index_row) (qvec : List float)
    (n : Nat) :
    (List.range n).foldl (rankStep cfg items qvec) [] =
      (List.range n).filterMap (scanItem cfg items qvec) := by
  induction n with
  | zero => rfl
  | succ n ih =>
    rw [List.range_succ, List.foldl_append, ih, List.filterMap_append]
    simp only [List.foldl_cons, List.foldl_nil, rankStep_eq]
    cases hs : scanItem cfg items qvec n <;> simp [List.filterMap, hs]

theorem rankScan_eq (cfg : rag_config) (items : List rag_index_row) (qvec : List float) :
    rankScan cfg items qvec = (List.range items.length).filterMap (scanItem cfg items qvec) :=
  foldl_rankStep cfg items qvec items.length

theorem scanItem_some_iff (cfg : rag_config) (items : List rag_index_row) (qvec : List float)
    (i : Nat) (it : rag_rank_item) :
    scanItem cfg items qvec i = some it ↔
      ∃ r, items[i]? = some r ∧
        ¬ (cfg.min_score_keep ≥ 0 ∧ dot qvec r.vec < cfg.min_score_keep) ∧
        it = { score := dot qvec r.vec, row_index := (i : Int) } := by
  unfold scanItem
  cases hi : items[i]? with
  | none => simp
  | some r =>
    by_cases hc : cfg.min_score_keep ≥ 0 ∧ dot qvec r.vec < cfg.min_score_keep
    · simp [hc]
    · simp only [hc, if_false, Option.some.injEq, exists_eq_left', not_false_eq_true,
        true_and]
      exact eq_comm

theorem mem_rankScan (cfg : rag_config) (items : List rag_index_row) (qvec : List float)
    (it : rag_rank_item) :
    it ∈ rankScan cfg items qvec ↔
      ∃ (i : Nat) (r : rag_index_row), items[i]? = some r ∧
        ¬ (cfg.min_score_keep ≥ 0 ∧ dot qvec r.vec < cfg.min_score_keep) ∧
        it = { score := dot qvec r.vec, row_index := (i : Int) } := by
  rw [rankScan_eq, List.mem_filterMap]
  constructor
  · rintro ⟨i, -, hi⟩
    exact ⟨i, (scanItem_some_iff cfg items qvec i it).mp hi⟩
  · rintro ⟨i, r, hr, hp, hit⟩
    refine ⟨i, ?_, (scanItem_some_iff cfg items qvec i it).mpr ⟨r, hr, hp, hit⟩⟩
    rw [List.mem_range]
    exact (List.getElem?_eq_some.mp hr).1

/-- For a score that is a number, the test of the scan loop keeps a row exactly when the
score passes the filter as the specification words it. -/
theorem keeps_iff_passesFilter (cfg : rag_config) (s : float) (hs : s ≠ float.nan) :
    ¬ (cfg.min_score_keep ≥ 0 ∧ s < cfg.min_score_keep) ↔ passesFilter cfg s := by
  unfold passesFilter
  constructor
  · intro h h0
    have hm : cfg.min_score_keep ≠ float.nan := float.ne_nan_of_le_right _ _ h0
    have hlt : float.lt s cfg.min_score_keep = false := by
      cases hv : float.lt s cfg.min_score_keep with
      | false => rfl
      | true => exact absurd ⟨h0, hv⟩ h
    exact (float.le_iff_not_lt _ _ hm hs).mpr hlt
  · rintro h ⟨h0, hlt⟩
    have := float.not_le_of_lt _ _ hlt
    rw [h h0] at this
    exact absurd this (by decide)

theorem rankScan_rows_increasing (cfg : rag_config) (items : List rag_index_row)
    (qvec : List float) :
    (rankScan cfg items qvec).Pairwise (fun a b => a.row_index < b.row_index) := by
  rw [rankScan_eq]
  refine List.Pairwise.filterMap _ ?_ (List.pairwise_lt_range items.length)
  intro i j hij a ha b hb
  obtain ⟨_, _, _, rfl⟩ := (scanItem_some_iff cfg items qvec i a).mp ha
  obtain ⟨_, _, _, rfl⟩ := (scanItem_some_iff cfg items qvec j b).mp hb
  exact Int.ofNat_lt.mpr hij

theorem rankScan_rows_nodup (cfg : rag_config) (items : List rag_index_row)
    (qvec : List float) : ((rankScan cfg items qvec).map (fun it => it.row_index)).Nodup := by
  have h := rankScan_rows_increasing cfg items qvec
  rw [List.Nodup, List.pairwise_map]
  exact h.imp (fun hlt => ne_of_lt hlt)

/-- When no row scores not-a-number, no item of the scan has such a score. -/
theorem rankScan_scores_ne_nan (cfg : rag_config) (items : List rag_index_row)
    (qvec : List float) (hnan : ∀ r ∈ items, dot qvec r.vec ≠ float.nan) :
    ∀ it ∈ rankScan cfg items qvec, it.score ≠ float.nan := by
  intro it hit
  obtain ⟨i, r, hr, -, rfl⟩ := (mem_rankScan cfg items qvec it).mp hit
  exact hnan r (List.mem_iff_getElem?.mpr ⟨i, hr⟩)

/-- In a list without repeated elements two elements cannot occur in both orders. -/
theorem nodup_no_swap {α : Type} {l : List α} (hl : l.Nodup) :
    l.Pairwise (fun x y => ¬ List.Sublist [y, x] l) := by
  induction l with
  | nil => exact List.Pairwise.nil
  | cons h t ih =>
    have hnd := List.nodup_cons.mp hl
    refine List.Pairwise.cons ?_ ?_
    · intro y hy hsub
      have hne : y ≠ h := fun e => hnd.1 (e ▸ hy)
      cases hsub with
      | cons _ h1 =>
        have : h ∈ t := h1.subset (by simp)
        exact hnd.1 this
      | cons₂ _ h1 => exact hne rfl
    · refine (ih hnd.2).imp_of_mem ?_
      intro x y hx hy hnot hsub
      cases hsub with
      | cons _ h1 => exact hnot h1
      | cons₂ _ h1 => exact hnd.1 hy

theorem rank_perm (sort : (rag_rank_item → rag_rank_item → Bool) → List rag_rank_item →
    List rag_rank_item) (hs : SortContract sort) (cfg : rag_config)
    (items : List rag_index_row) (qvec : List float)
    (hnan : ∀ r ∈ items, dot qvec r.vec ≠ float.nan) :
    (rank sort cfg items qvec).Perm (rankScan cfg items qvec) :=
  (hs rankComp (rankScan cfg items qvec)
    (rankComp_swo _ (rankScan_scores_ne_nan cfg items qvec hnan))).1

theorem rank_pairwise (sort : (rag_rank_item → rag_rank_item → Bool) → List rag_rank_item →
    List rag_rank_item) (hs : SortContract sort) (cfg : rag_config)
    (items : List rag_index_row) (qvec : List float)
    (hnan : ∀ r ∈ items, dot qvec r.vec ≠ float.nan) :
    (rank sort cfg items qvec).Pairwise (fun a b => a.score ≥ b.score) := by
  have hne := rankScan_scores_ne_nan cfg items qvec hnan
  have hperm := rank_perm sort hs cfg items qvec hnan
  refine ((hs rankComp (rankScan cfg items qvec) (rankComp_swo _ hne)).2).imp_of_mem ?_
  intro a b ha hb h
  simp only [rankComp, decide_eq_false_iff_not, GT.gt, LT.lt, Bool.not_eq_true] at h
  exact (float.le_iff_not_lt _ _ (hne b (hperm.subset hb)) (hne a (hperm.subset ha))).mpr h

/-- The rows of `nanItems` are what `load_index` holds after reading a two-line index
file whose first vector field is `nan`, for every `std::stof` that reads `nan` as
not-a-number and `1` as 1. -/
theorem load_nanItems (stof : Str → Option float) (h1 : stof "nan".toList = some float.nan)
    (h2 : stof "1".toList = some 1) :
    load_index stof (some "0\tnan\ta.txt\tfirst\n1\t1\tb.txt\tsecond\n".toList) =
      (true, nanItems) := by
  have h : load_index stof (some "0\tnan\ta.txt\tfirst\n1\t1\tb.txt\tsecond\n".toList) =
      (true, [ { id := 0, vec := [(stof "nan".toList).getD 0], filename := "a.txt".toList,
                 text := "first".toList },
               { id := 1, vec := [(stof "1".toList).getD 0], filename := "b.txt".toList,
                 text := "second".toList } ]) := rfl
  rw [h, h1, h2]
  rfl

/-- C1, as stated, fails: a row whose vector holds a component that is not a number (the
token `nan` in the index file, which `load_index` loads) scores not-a-number, passes the
scan, and the comparator `a.score > b.score` never moves it; for the rows of `nanItems`
and the query `[1]`, `rank` returns the score not-a-number followed by the score 1, and
not-a-number is not greater than or equal to 1. -/
theorem rank_nan_breaks_order :
    (∀ stof : Str → Option float, stof "nan".toList = some float.nan →
      stof "1".toList = some 1 →
      load_index stof (some "0\tnan\ta.txt\tfirst\n1\t1\tb.txt\tsecond\n".toList) =
        (true, nanItems)) ∧
    dot [1] [float.nan] = float.nan ∧
    gnuSort rankComp (rankScan { min_score_keep := -1 } nanItems [1]) =
      some [{ score := float.nan, row_index := 0 }, { score := 1, row_index := 1 }] ∧
    rank gnuStdSort { min_score_keep := -1 } nanItems [1] =
      [{ score := float.nan, row_index := 0 }, { score := 1, row_index := 1 }] ∧
    ¬ (rank gnuStdSort { min_score_keep := -1 } nanItems [1]).Chain'
        (fun a b => a.score ≥ b.score) := by
  have hval : rank gnuStdSort { min_score_keep := -1 } nanItems [1] =
      [{ score := float.nan, row_index := 0 }, { score := 1, row_index := 1 }] := by
    decide!
  refine ⟨load_nanItems, by decide!, by decide!, hval, ?_⟩
  rw [hval]
  intro h
  exact absurd (List.chain'_pair.mp h) (by decide)

/-- C1, amended: for every query vector and every loaded index on which no row scores
not-a-number, and for every `std::sort` meeting the standard's contract, the scores of the
list returned by `rank` are in non-increasing order: each item's score is greater than or
equal to the score of the item right after it. -/
theorem rank_scores_nonincreasing
    (sort : (rag_rank_item → rag_rank_item → Bool) → List rag_rank_item → List rag_rank_item)
    (hs : SortContract sort) (cfg : rag_config) (items : List rag_index_row)
    (qvec : List float) (hnan : ∀ r ∈ items, dot qvec r.vec ≠ float.nan) :
    (rank sort cfg items qvec).Chain' (fun a b => a.score ≥ b.score) :=
  (rank_pairwise sort hs cfg items qvec hnan).chain'

theorem rank_scores_nonincreasing_witness :
    SortContract (insertionStdSort : (rag_rank_item → rag_rank_item → Bool) → _ → _) ∧
    (∀ r ∈ scenarioItems, dot [0, 1] r.vec ≠ float.nan) ∧
    rankScan { min_score_keep := -1 } scenarioItems [0, 1] =
      [{ score := 0, row_index := 0 }, { score := 1, row_index := 1 }] ∧
    rank insertionStdSort { min_score_keep := -1 } scenarioItems [0, 1] =
      [{ score := 1, row_index := 1 }, { score := 0, row_index := 0 }] ∧
    (rank insertionStdSort { min_score_keep := -1 } scenarioItems [0, 1]).Chain'
      (fun a b => a.score ≥ b.score) :=
  ⟨insertionStdSort_contract, by decide!, by decide!, by decide!,
    rank_scores_nonincreasing insertionStdSort insertionStdSort_contract _ _ _ (by decide!)⟩

/-- Two distinct members of a list occur in it in one order or the other. -/
theorem pair_sublist_or {α : Type} {l : List α} {a b : α} (ha : a ∈ l) (hb : b ∈ l)
    (hne : a ≠ b) : List.Sublist [a, b] l ∨ List.Sublist [b, a] l := by
  induction l with
  | nil => exact absurd ha (List.not_mem_nil a)
  | cons h t ih =>
    rcases List.mem_cons.mp ha with rfl | ha'
    · rcases List.mem_cons.mp hb with rfl | hb'
      · exact absurd rfl hne
      · exact Or.inl (List.Sublist.cons₂ _ (List.singleton_sublist.mpr hb'))
    · rcases List.mem_cons.mp hb with rfl | hb'
      · exact Or.inr (List.Sublist.cons₂ _ (List.singleton_sublist.mpr ha'))
      · rcases ih ha' hb' with h1 | h1
        · exact Or.inl (List.Sublist.cons _ h1)
        · exact Or.inr (List.Sublist.cons _ h1)

/-- C2, as stated, fails: for seventeen rows of identical score, the `std::sort` of the GNU
C++ library (one partitioning pass, then straight insertion) leaves the rows in the order
8, 16, 15, 14, 13, 12, 11, 10, 9, 0, 7, 6, 5, 4, 3, 2, 1, so rows of identical score come
back with a higher row index before a lower one. -/
theorem rank_ties_not_stable :
    (∀ r ∈ tiedItems, dot [1] r.vec = 1) ∧
    (rank gnuStdSort { min_score_keep := -1 } tiedItems [1]).map (fun it => it.score) =
      List.replicate 17 1 ∧
    gnuSort rankComp (rankScan { min_score_keep := -1 } tiedItems [1]) =
      some (rank gnuStdSort { min_score_keep := -1 } tiedItems [1]) ∧
    (rank gnuStdSort { min_score_keep := -1 } tiedItems [1]).map (fun it => it.row_index) =
      [8, 16, 15, 14, 13, 12, 11, 10, 9, 0, 7, 6, 5, 4, 3, 2, 1] ∧
    ¬ (rank gnuStdSort { min_score_keep := -1 } tiedItems [1]).Pairwise
        (fun a b => a.score = b.score → a.row_index < b.row_index) := by
  decide!

/-- C2, amended: for every query vector and every loaded index on which no row scores
not-a-number, and for every `std::sort` meeting the standard's contract, an item of
`rank`'s output never follows an item of strictly lower score, and the output is a
rearrangement of the scan in index order; when the sort is moreover stable, two items of
identical score appear with the lower row index first. -/
theorem rank_order_of_sort
    (sort : (rag_rank_item → rag_rank_item → Bool) → List rag_rank_item → List rag_rank_item)
    (hs : SortContract sort) (cfg : rag_config) (items : List rag_index_row)
    (qvec : List float) (hnan : ∀ r ∈ items, dot qvec r.vec ≠ float.nan) :
    (rank sort cfg items qvec).Pairwise (fun a b => a.score ≥ b.score) ∧
    (rank sort cfg items qvec).Perm (rankScan cfg items qvec) ∧
    (rankScan cfg items qvec).Pairwise (fun a b => a.row_index < b.row_index) ∧
    (SortStable sort →
      (rank sort cfg items qvec).Pairwise
        (fun a b => a.score = b.score → a.row_index < b.row_index)) := by
  refine ⟨rank_pairwise sort hs cfg items qvec hnan, rank_perm sort hs cfg items qvec hnan,
    rankScan_rows_increasing cfg items qvec, ?_⟩
  intro hst
  have hperm := rank_perm sort hs cfg items qvec hnan
  have hinc := rankScan_rows_increasing cfg items qvec
  have hswo := rankComp_swo _ (rankScan_scores_ne_nan cfg items qvec hnan)
  have hnd : (rank sort cfg items qvec).Nodup := by
    refine hperm.nodup_iff.mpr ?_
    exact hinc.imp (fun hlt e => absurd (e ▸ hlt) (lt_irrefl _))
  refine ((nodup_no_swap hnd).and hnd).imp_of_mem ?_
  rintro a b ha hb ⟨hnot, hane⟩ heq
  by_contra hlt
  have ha' : a ∈ rankScan cfg items qvec := hperm.subset ha
  have hb' : b ∈ rankScan cfg items qvec := hperm.subset hb
  -- `b` precedes `a` in the scan
  have hba : List.Sublist [b, a] (rankScan cfg items qvec) := by
    rcases pair_sublist_or ha' hb' hane with h | h
    · exact absurd (List.rel_of_pairwise_cons (hinc.sublist h) (List.mem_singleton.mpr rfl)) hlt
    · exact h
  have hcomp : rankComp a b = false := by
    simp only [rankComp, decide_eq_false_iff_not, GT.gt, LT.lt, Bool.not_eq_true, heq]
    exact float.lt_irrefl _
  exact hnot (hst rankComp _ hswo b a hcomp hba)

theorem rank_order_of_sort_witness :
    SortContract (insertionStdSort : (rag_rank_item → rag_rank_item → Bool) → _ → _) ∧
    SortStable (insertionStdSort : (rag_rank_item → rag_rank_item → Bool) → _ → _) ∧
    (∀ r ∈ mixedItems, dot [1] r.vec ≠ float.nan) ∧
    rankScan { min_score_keep := -1 } mixedItems [1] =
      [{ score := 0, row_index := 0 }, { score := 1, row_index := 1 },
       { score := 1, row_index := 2 }] ∧
    rank insertionStdSort { min_score_keep := -1 } mixedItems [1] =
      [{ score := 1, row_index := 1 }, { score := 1, row_index := 2 },
       { score := 0, row_index := 0 }] ∧
    (rank insertionStdSort { min_score_keep := -1 } mixedItems [1]).Pairwise
      (fun a b => a.score ≥ b.score) ∧
    (rank insertionStdSort { min_score_keep := -1 } mixedItems [1]).Pairwise
      (fun a b => a.score = b.score → a.row_index < b.row_index) :=
  have h := rank_order_of_sort insertionStdSort insertionStdSort_contract
    { min_score_keep := -1 } mixedItems [1] (by decide!)
  ⟨insertionStdSort_contract, insertionStdSort_stable, by decide!, by decide!, by decide!,
    h.1, h.2.2.2 insertionStdSort_stable⟩

/-- C3, as stated, fails: under the active threshold 0.5, the row of `nanItems` (a loaded
index) whose score is not-a-number is returned, although that score is not greater than or
equal to 0.5: the scan drops a row only when `s < min_score_keep` holds, which is false
for a score that is not a number. -/
theorem rank_keeps_nan_score :
    (∀ stof : Str → Option float, stof "nan".toList = some float.nan →
      stof "1".toList = some 1 →
      load_index stof (some "0\tnan\ta.txt\tfirst\n1\t1\tb.txt\tsecond\n".toList) =
        (true, nanItems)) ∧
    (0 : float) ≤ float.fin (1 / 2) ∧
    dot [1] [float.nan] = float.nan ∧
    ¬ (dot [1] [float.nan] ≥ float.fin (1 / 2)) ∧
    rank gnuStdSort { min_score_keep := float.fin (1 / 2) } nanItems [1] =
      [{ score := float.nan, row_index := 0 }, { score := 1, row_index := 1 }] ∧
    gnuSort rankComp (rankScan { min_score_keep := float.fin (1 / 2) } nanItems [1]) =
      some [{ score := float.nan, row_index := 0 }, { score := 1, row_index := 1 }] :=
  ⟨load_nanItems, by decide!⟩

/-- C3, amended: for every query vector and every loaded index on which no row scores
not-a-number, and for every `std::sort` meeting the standard's contract, `rank` returns
exactly one item per index position that passes the filter and nothing else: each returned
item carries a valid position of the index, the dot product of the query with that row
(as `dot` computes it, in `double` and rounded to `float`) as its score, and a score that
passes the filter (greater than or equal to `min_score_keep` when that is non-negative);
every passing position is returned, every position when `min_score_keep` is negative; no
position is returned twice. In particular a row scoring 0.4 under a threshold of 0.5 is
absent. -/
theorem rank_items_exact
    (sort : (rag_rank_item → rag_rank_item → Bool) → List rag_rank_item → List rag_rank_item)
    (hs : SortContract sort) (cfg : rag_config) (items : List rag_index_row)
    (qvec : List float) (hnan : ∀ r ∈ items, dot qvec r.vec ≠ float.nan) :
    (∀ it ∈ rank sort cfg items qvec, ∃ (i : Nat) (r : rag_index_row),
        items[i]? = some r ∧ it.row_index = (i : Int) ∧ it.score = dot qvec r.vec ∧
        (0 ≤ cfg.min_score_keep → cfg.min_score_keep ≤ dot qvec r.vec)) ∧
    (∀ (i : Nat) (r : rag_index_row), items[i]? = some r →
        (0 ≤ cfg.min_score_keep → cfg.min_score_keep ≤ dot qvec r.vec) →
        ({ score := dot qvec r.vec, row_index := (i : Int) } : rag_rank_item) ∈
          rank sort cfg items qvec) ∧
    (cfg.min_score_keep < 0 → ∀ (i : Nat) (r : rag_index_row), items[i]? = some r →
        ({ score := dot qvec r.vec, row_index := (i : Int) } : rag_rank_item) ∈
          rank sort cfg items qvec) ∧
    ((rank sort cfg items qvec).map (fun it => it.row_index)).Nodup ∧
    (cfg.min_score_keep = float.fin (1 / 2) → ∀ (i : Nat) (r : rag_index_row),
        items[i]? = some r → dot qvec r.vec = toFloat (float.fin (2 / 5)) →
        ∀ it ∈ rank sort cfg items qvec, it.row_index ≠ (i : Int)) := by
  have hperm := rank_perm sort hs cfg items qvec hnan
  have hmem : ∀ it, it ∈ rank sort cfg items qvec ↔ it ∈ rankScan cfg items qvec :=
    fun it => hperm.mem_iff
  have hrow : ∀ (i : Nat) (r : rag_index_row), items[i]? = some r →
      dot qvec r.vec ≠ float.nan :=
    fun i r hr => hnan r (List.mem_iff_getElem?.mpr ⟨i, hr⟩)
  have h1 : ∀ it ∈ rank sort cfg items qvec, ∃ (i : Nat) (r : rag_index_row),
      items[i]? = some r ∧ it.row_index = (i : Int) ∧ it.score = dot qvec r.vec ∧
      (0 ≤ cfg.min_score_keep → cfg.min_score_keep ≤ dot qvec r.vec) := by
    intro it hit
    obtain ⟨i, r, hr, hp, rfl⟩ := (mem_rankScan cfg items qvec it).mp ((hmem it).mp hit)
    exact ⟨i, r, hr, rfl, rfl, (keeps_iff_passesFilter cfg _ (hrow i r hr)).mp hp⟩
  have h2 : ∀ (i : Nat) (r : rag_index_row), items[i]? = some r →
      (0 ≤ cfg.min_score_keep → cfg.min_score_keep ≤ dot qvec r.vec) →
      ({ score := dot qvec r.vec, row_index := (i : Int) } : rag_rank_item) ∈
        rank sort cfg items qvec := by
    intro i r hr hp
    exact (hmem _).mpr ((mem_rankScan cfg items qvec _).mpr
      ⟨i, r, hr, (keeps_iff_passesFilter cfg _ (hrow i r hr)).mpr hp, rfl⟩)
  refine ⟨h1, h2, ?_, ?_, ?_⟩
  · intro hneg i r hr
    refine h2 i r hr (fun h0 => ?_)
    have := float.not_le_of_lt _ _ hneg
    rw [h0] at this
    exact absurd this (by decide)
  · exact (hperm.map _).nodup_iff.mpr (rankScan_rows_nodup cfg items qvec)
  · intro hmin i r hr hdot it hit hrow'
    obtain ⟨j, r', hr', hj, -, hp⟩ := h1 it hit
    have hij : j = i := by
      have : (j : Int) = (i : Int) := hj.symm.trans hrow'
      exact Int.ofNat_inj.mp this
    subst hij
    rw [hr] at hr'
    cases hr'
    rw [hmin, hdot] at hp
    exact absurd (hp (by decide!)) (by decide!)

theorem rank_items_exact_witness :
    SortContract (insertionStdSort : (rag_rank_item → rag_rank_item → Bool) → _ → _) ∧
    (∀ r ∈ scenarioItems,
      dot [toFloat (float.fin (2 / 5)), toFloat (float.fin (3 / 5))] r.vec ≠ float.nan) ∧
    ((rank insertionStdSort { min_score_keep := float.fin (1 / 2) } scenarioItems
      [toFloat (float.fin (2 / 5)), toFloat (float.fin (3 / 5))]).map
        (fun it => it.row_index)).Nodup ∧
    rank insertionStdSort { min_score_keep := float.fin (1 / 2) } scenarioItems
        [toFloat (float.fin (2 / 5)), toFloat (float.fin (3 / 5))] =
      [{ score := toFloat (float.fin (3 / 5)), row_index := 1 }] ∧
    rank insertionStdSort { min_score_keep := float.fin (1 / 2) }
        [{ id := 0, vec := [float.fin (8388607 / 16777216)], filename := "a.txt".toList,
           text := "t".toList }]
        [float.fin (8388609 / 8388608)] =
      [{ score := float.fin (1 / 2), row_index := 0 }] :=
  ⟨insertionStdSort_contract, by decide!,
    (rank_items_exact insertionStdSort insertionStdSort_contract
      { min_score_keep := float.fin (1 / 2) } scenarioItems
      [toFloat (float.fin (2 / 5)), toFloat (float.fin (3 / 5))] (by decide!)).2.2.2.1,
    by decide!, by decide!⟩

/-! ## `build_context` -/

theorem linesOf_nil (items : List rag_index_row) : linesOf items [] = [] := rfl

theorem linesOf_cons (items : List rag_index_row) (it : rag_rank_item)
    (l : List rag_rank_item) : linesOf items (it :: l) = lineOf items it ++ linesOf items l := by
  simp [linesOf]

theorem linesOf_length_mono (items : List rag_index_row) (l : List rag_rank_item)
    (m n : Nat) (h : m ≤ n) :
    (linesOf items (l.take m)).length ≤ (linesOf items (l.take n)).length := by
  induction l generalizing m n with
  | nil => simp
  | cons a t ih =>
    cases m with
    | zero => simp [linesOf_nil]
    | succ m =>
      cases n with
      | zero => omega
      | succ n =>
        simp only [List.take_succ_cons, linesOf_cons, List.length_append]
        have := ih m n (by omega)
        omega

theorem formatLine_length_pos (r : rag_index_row) : 0 < (formatLine r).length := by
  simp [formatLine]

/-- What the loop of `build_context` computes from an arbitrary state: it appends the lines
of the first `k` remaining items, where each appended item found the counter below `top_k`
and either fitted the budget or was the very first, and the item after them (if any) was
turned away by the counter or by the budget. -/
theorem buildLoop_spec (items : List rag_index_row) (top_k : Int) (char_budget : Nat)
    (rest : List rag_rank_item) (hv : ∀ it ∈ rest, ∃ r, rowAt items it.row_index = some r)
    (oss : Str) (used : Nat) (c : Nat) :
    ∃ k, k ≤ rest.length ∧
      buildLoop items top_k char_budget rest oss used (c : Int) =
        some (oss ++ linesOf items (rest.take k)) ∧
      (∀ j, j < k → ((c + j : Nat) : Int) < top_k ∧
        (used + (linesOf items (rest.take (j + 1))).length ≤ char_budget ∨ c + j = 0)) ∧
      (k < rest.length → top_k ≤ ((c + k : Nat) : Int) ∨
        (char_budget < used + (linesOf items (rest.take (k + 1))).length ∧ 1 ≤ c + k)) := by
  induction rest generalizing oss used c with
  | nil =>
    refine ⟨0, le_refl _, ?_, ?_, ?_⟩
    · simp [buildLoop, linesOf_nil]
    · intro j hj; omega
    · intro h; simp at h
  | cons it rest ih =>
    obtain ⟨r, hr⟩ := hv it (List.mem_cons_self _ _)
    have hline : lineOf items it = formatLine r := by simp [lineOf, hr]
    by_cases hk : (c : Int) ≥ top_k
    · refine ⟨0, Nat.zero_le _, ?_, ?_, ?_⟩
      · simp [buildLoop, hk, linesOf_nil]
      · intro j hj; omega
      · intro _; left; simpa using hk
    · by_cases hb : used + (formatLine r).length > char_budget ∧ (c : Int) ≥ 1
      · refine ⟨0, Nat.zero_le _, ?_, ?_, ?_⟩
        · simp only [buildLoop, hk, if_false, hr, hb, and_self, if_true, List.take_zero,
            linesOf_nil, List.append_nil]
        · intro j hj; omega
        · intro _; right
          simp only [Nat.zero_add, List.take_succ_cons, List.take_zero, linesOf_cons, hline,
            linesOf_nil, List.append_nil, Nat.add_zero]
          exact ⟨hb.1, by omega⟩
      · obtain ⟨k, hkl, hres, hacc, hstop⟩ :=
          ih (fun x hx => hv x (List.mem_cons_of_mem _ hx)) (oss ++ formatLine r)
            (used + (formatLine r).length) (c + 1)
        refine ⟨k + 1, by simpa using hkl, ?_, ?_, ?_⟩
        · simp only [buildLoop, hk, if_false, hr, hb]
          rw [show ((c : Int) + 1) = ((c + 1 : Nat) : Int) by push_cast; rfl, hres]
          simp [List.take_succ_cons, linesOf_cons, hline, List.append_assoc]
        · intro j hj
          cases j with
          | zero =>
            refine ⟨by simpa using not_le.mp hk, ?_⟩
            simp only [Nat.zero_add, List.take_succ_cons, List.take_zero, linesOf_cons, hline,
              linesOf_nil, List.append_nil, Nat.add_zero]
            by_cases hc0 : c = 0
            · exact Or.inr hc0
            · left
              have : (c : Int) ≥ 1 := by omega
              by_contra hlt
              exact hb ⟨by omega, this⟩
          | succ j =>
            obtain ⟨h1, h2⟩ := hacc j (by omega)
            refine ⟨by rw [show c + (j + 1) = c + 1 + j by omega]; exact h1, ?_⟩
            rcases h2 with h2 | h2
            · left
              simp only [List.take_succ_cons, linesOf_cons, hline, List.length_append] at h2 ⊢
              omega
            · omega
        · intro hlt
          have hlt' : k < rest.length := by simpa using hlt
          rcases hstop hlt' with h | h
          · left
            rw [show c + (k + 1) = c + 1 + k by omega]; exact h
          · right
            simp only [List.take_succ_cons, linesOf_cons, hline, List.length_append] at h ⊢
            omega

theorem rowAt_of_valid (items : List rag_index_row) (i : Int)
    (h : 0 ≤ i ∧ i < (items.length : Int)) : ∃ r, rowAt items i = some r := by
  have hlt : i.toNat < items.length := by omega
  exact ⟨items[i.toNat], by simp [rowAt, h.1, List.getElem?_eq_getElem hlt]⟩

/-- C4, as stated, fails: with `top_k = 0` the loop of `build_context` is left before the
first entry, so a non-empty ranked list with valid row indices yields the empty string. -/
theorem build_context_empty_when_top_k_zero :
    scenarioRanked ≠ [] ∧
    (∀ it ∈ scenarioRanked, 0 ≤ it.row_index ∧ it.row_index < (scenarioItems.length : Int)) ∧
    build_context scenarioItems scenarioRanked 0 1000 = some [] := by
  refine ⟨by decide, by decide, by decide⟩

/-- C4, amended: for every non-empty ranked list whose row indices are valid, every
`top_k >= 1` and every `char_budget`, `build_context` returns a non-empty string; when
`char_budget` is smaller than the length of the first ranked candidate's formatted line, it
returns exactly that line. -/
theorem build_context_nonempty (items : List rag_index_row) (first : rag_rank_item)
    (rest : List rag_rank_item) (top_k : Int) (char_budget : Nat)
    (hv : ∀ it ∈ first :: rest, 0 ≤ it.row_index ∧ it.row_index < (items.length : Int))
    (hk : 1 ≤ top_k) :
    ∃ s, build_context items (first :: rest) top_k char_budget = some s ∧ s ≠ [] ∧
      (char_budget < (lineOf items first).length → s = lineOf items first) := by
  obtain ⟨r, hr⟩ := rowAt_of_valid items first.row_index (hv first (List.mem_cons_self _ _))
  have hline : lineOf items first = formatLine r := by simp [lineOf, hr]
  have hpos := formatLine_length_pos r
  obtain ⟨k, hkl, hres, hacc, hstop⟩ := buildLoop_spec items top_k char_budget (first :: rest)
    (fun it hit => rowAt_of_valid items it.row_index (hv it hit)) [] 0 0
  have hk1 : 1 ≤ k := by
    by_contra h0
    have hk0 : k = 0 := by omega
    subst hk0
    rcases hstop (by simp) with h | h
    · simp at h; omega
    · omega
  obtain ⟨k', rfl⟩ : ∃ k', k = k' + 1 := ⟨k - 1, by omega⟩
  refine ⟨linesOf items ((first :: rest).take (k' + 1)), ?_, ?_, ?_⟩
  · simpa [build_context] using hres
  · intro h
    rw [List.take_succ_cons, linesOf_cons, hline] at h
    have := congrArg List.length h
    rw [List.length_append, List.length_nil] at this
    omega
  · intro hsmall
    have hk0 : k' = 0 := by
      by_contra hne
      obtain ⟨-, h2⟩ := hacc 1 (by omega)
      rcases h2 with h2 | h2
      · have hm := linesOf_length_mono items (first :: rest) 1 2 (by omega)
        simp only [List.take_succ_cons, List.take_zero, linesOf_cons, linesOf_nil,
          List.append_nil] at hm
        simp only [List.take_succ_cons, linesOf_cons] at h2
        omega
      · omega
    subst hk0
    simp [List.take_succ_cons, linesOf_cons, linesOf_nil]

theorem build_context_nonempty_witness :
    (∀ it ∈ scenarioRanked, 0 ≤ it.row_index ∧ it.row_index < (scenarioItems.length : Int)) ∧
    ((1 : Int) ≤ 2) ∧
    (∃ s, build_context scenarioItems scenarioRanked 2 3 = some s ∧ s ≠ [] ∧
      (3 < (lineOf scenarioItems { score := 1, row_index := 0 }).length →
        s = lineOf scenarioItems { score := 1, row_index := 0 })) ∧
    build_context scenarioItems scenarioRanked 2 3 =
      some "- [a.txt] cats are mammals\n\n".toList :=
  ⟨by decide, by decide,
    build_context_nonempty scenarioItems { score := 1, row_index := 0 }
      [{ score := 0, row_index := 1 }] 2 3 (by decide) (by decide),
    by decide⟩

/-- C5: for every ranked list with valid row indices, every `top_k >= 1` and every
`char_budget`, `build_context` returns the concatenation, in ranked order, of the formatted
lines `"- [" + filename + "] " + text + "\n\n"` of the first `n` ranked entries, where
`n = 0` if `ranked` is empty and otherwise `n` is the largest number with
`1 <= n <= min(top_k, ranked.size())` such that `n = 1` or the first `n` lines together are
at most `char_budget` long; being a prefix, the result holds no entry after the first
rejected one. The scenario rows ranked `[row 0, row 1]` with `top_k = 1` and budget 1000 give
`"- [a.txt] cats are mammals\n\n"`. -/
theorem build_context_greedy (items : List rag_index_row)
    (ranked : List rag_rank_item) (top_k : Int) (char_budget : Nat)
    (hv : ∀ it ∈ ranked, 0 ≤ it.row_index ∧ it.row_index < (items.length : Int))
    (hk : 1 ≤ top_k) :
    (∃ n : Nat,
      build_context items ranked top_k char_budget = some (linesOf items (ranked.take n)) ∧
      (ranked = [] → n = 0) ∧
      (ranked ≠ [] →
        1 ≤ n ∧ (n : Int) ≤ min top_k (ranked.length : Int) ∧
        (n = 1 ∨ (linesOf items (ranked.take n)).length ≤ char_budget) ∧
        ∀ m : Nat, 1 ≤ m → (m : Int) ≤ min top_k (ranked.length : Int) →
          (m = 1 ∨ (linesOf items (ranked.take m)).length ≤ char_budget) → m ≤ n)) ∧
    (∀ it ∈ ranked, ∃ r, items[it.row_index.toNat]? = some r ∧
      lineOf items it = "- [".toList ++ r.filename ++ "] ".toList ++ r.text ++ "\n\n".toList) ∧
    build_context scenarioItems
      [{ score := 1, row_index := 0 }, { score := 0, row_index := 1 }] 1 1000 =
      some "- [a.txt] cats are mammals\n\n".toList := by
  refine ⟨?_, ?_, by decide⟩
  · obtain ⟨k, hkl, hres, hacc, hstop⟩ := buildLoop_spec items top_k char_budget ranked
      (fun it hit => rowAt_of_valid items it.row_index (hv it hit)) [] 0 0
    refine ⟨k, by simpa [build_context] using hres, ?_, ?_⟩
    · intro he
      subst he
      simpa using hkl
    · intro hne
      have hlen : 0 < ranked.length := List.length_pos.mpr hne
      have hk1 : 1 ≤ k := by
        by_contra h0
        have hk0 : k = 0 := by omega
        subst hk0
        rcases hstop hlen with h | h
        · simp at h; omega
        · omega
      obtain ⟨h1, h2⟩ := hacc (k - 1) (by omega)
      rw [show k - 1 + 1 = k by omega] at h2
      refine ⟨hk1, ?_, ?_, ?_⟩
      · simp only [le_min_iff]
        constructor
        · have : ((0 + (k - 1) : Nat) : Int) = (k : Int) - 1 := by omega
          omega
        · exact_mod_cast hkl
      · rcases h2 with h2 | h2
        · right; omega
        · left; omega
      · intro m hm1 hmle hm
        by_contra hgt
        have hkm : k < m := by omega
        simp only [le_min_iff] at hmle
        have hml : m ≤ ranked.length := by exact_mod_cast hmle.2
        rcases hstop (by omega) with h | h
        · have : ((0 + k : Nat) : Int) = (k : Int) := by omega
          omega
        · have hmono := linesOf_length_mono items ranked (k + 1) m (by omega)
          rcases hm with hm | hm
          · omega
          · omega
  · intro it hit
    obtain ⟨h0, h1⟩ := hv it hit
    have hlt : it.row_index.toNat < items.length := by omega
    refine ⟨items[it.row_index.toNat], List.getElem?_eq_getElem hlt, ?_⟩
    simp [lineOf, rowAt, h0, List.getElem?_eq_getElem hlt, formatLine]

theorem build_context_greedy_witness :
    (∀ it ∈ scenarioRanked, 0 ≤ it.row_index ∧ it.row_index < (scenarioItems.length : Int)) ∧
    ((1 : Int) ≤ 2) ∧
    ∃ n : Nat, build_context scenarioItems scenarioRanked 2 30 =
      some (linesOf scenarioItems (scenarioRanked.take n)) :=
  ⟨by decide, by decide,
    (build_context_greedy scenarioItems scenarioRanked 2 30 (by decide) (by decide)).1.imp
      (fun _ h => h.1)⟩

/-! ## Chunker -/

theorem joinWords_snoc (l : List Str) (w : Str) :
    joinWords (l ++ [w]) = if l = [] then w else joinWords l ++ ' ' :: w := by
  induction l with
  | nil => simp [joinWords]
  | cons a t ih =>
    cases t with
    | nil => simp [joinWords]
    | cons b t' =>
      have h1 : joinWords (a :: ((b :: t') ++ [w])) =
          a ++ ' ' :: joinWords ((b :: t') ++ [w]) := rfl
      rw [List.cons_append, h1, ih]
      simp [joinWords]

theorem joinRange_eq (words : List Str) (i n : Nat) (h : i + n ≤ words.length) :
    (List.range' i n).foldl
      (fun oss k => (if k > i then oss ++ [' '] else oss) ++ words.getD k []) [] =
      joinWords ((words.drop i).take n) := by
  induction n with
  | zero => simp [joinWords]
  | succ n ih =>
    have hlt : i + n < words.length := by omega
    rw [List.range'_1_concat, List.foldl_append, ih (by omega)]
    have htake : (words.drop i).take (n + 1) = (words.drop i).take n ++ [words[i + n]] := by
      rw [List.take_succ]
      simp [List.getElem?_drop, List.getElem?_eq_getElem hlt]
    rw [htake, joinWords_snoc]
    simp only [List.foldl_cons, List.foldl_nil, List.getD_eq_getElem?_getD,
      List.getElem?_eq_getElem hlt, Option.getD_some]
    by_cases hn : n = 0
    · subst hn
      simp [joinWords]
    · have h1 : i + n > i := by omega
      have h2 : (words.drop i).take n ≠ [] := by
        intro he
        have := congrArg List.length he
        simp at this
        omega
      simp [h1, h2]

theorem splitWordsAux_isWord (text cur : Str) (hcur : ∀ c ∈ cur, isspace c = false) :
    ∀ w ∈ splitWordsAux text cur, IsWord w := by
  induction text generalizing cur with
  | nil =>
    intro w hw
    by_cases hc : cur = []
    · simp [splitWordsAux, hc] at hw
    · simp only [splitWordsAux, hc, if_false, List.mem_singleton] at hw
      subst hw
      exact ⟨hc, hcur⟩
  | cons c cs ih =>
    intro w hw
    by_cases hs : isspace c = true
    · by_cases hc : cur = []
      · simp only [splitWordsAux, hs, if_true, hc] at hw
        exact ih [] (by simp) w hw
      · simp only [splitWordsAux, hs, if_true, hc, if_false, List.mem_cons] at hw
        rcases hw with rfl | hw
        · exact ⟨hc, hcur⟩
        · exact ih [] (by simp) w hw
    · simp only [splitWordsAux, hs] at hw
      refine ih (cur ++ [c]) ?_ w hw
      intro x hx
      rcases List.mem_append.mp hx with hx | hx
      · exact hcur x hx
      · rw [List.mem_singleton.mp hx]
        simpa using hs

theorem splitWords_isWord (text : Str) : ∀ w ∈ splitWords text, IsWord w :=
  splitWordsAux_isWord text [] (by simp)

theorem regexReplaceSpaces_word_append (w : Str) (hw : ∀ c ∈ w, isspace c = false)
    (b : Bool) (rest : Str) :
    regexReplaceSpaces b (w ++ rest) =
      w ++ regexReplaceSpaces (if w = [] then b else false) rest := by
  induction w generalizing b with
  | nil => simp
  | cons c t ih =>
    have hc : isspace c = false := hw c (List.mem_cons_self _ _)
    have ht : ∀ x ∈ t, isspace x = false := fun x hx => hw x (List.mem_cons_of_mem _ hx)
    have h1 := ih ht false
    simp only [ite_self] at h1
    simp [regexReplaceSpaces, hc, h1]

theorem regexReplaceSpaces_joinWords (ws : List Str) (hws : ∀ w ∈ ws, IsWord w) (b : Bool) :
    regexReplaceSpaces b (joinWords ws) = joinWords ws := by
  induction ws generalizing b with
  | nil => simp [joinWords, regexReplaceSpaces]
  | cons w t ih =>
    have hw := hws w (List.mem_cons_self _ _)
    cases t with
    | nil =>
      have := regexReplaceSpaces_word_append w hw.2 b []
      simpa [joinWords, regexReplaceSpaces] using this
    | cons w' t' =>
      have ih' := ih (fun x hx => hws x (List.mem_cons_of_mem _ hx)) true
      simp only [joinWords] at ih' ⊢
      rw [regexReplaceSpaces_word_append w hw.2 b]
      simp only [hw.1, if_false]
      have hsp : isspace ' ' = true := by decide
      simp only [regexReplaceSpaces, hsp, if_true]
      rw [ih']
      simp

theorem joinWords_head (ws : List Str) (hws : ∀ w ∈ ws, IsWord w) (hne : ws ≠ []) :
    ∃ c t, joinWords ws = c :: t ∧ isspace c = false := by
  cases ws with
  | nil => exact absurd rfl hne
  | cons w t =>
    have hw := hws w (List.mem_cons_self _ _)
    cases w with
    | nil => exact absurd rfl hw.1
    | cons c w' =>
      have hc := hw.2 c (List.mem_cons_self _ _)
      cases t with
      | nil => exact ⟨c, w', by simp [joinWords], hc⟩
      | cons w2 t2 =>
        exact ⟨c, w' ++ ' ' :: joinWords (w2 :: t2), by simp [joinWords], hc⟩

theorem joinWords_last (ws : List Str) (hws : ∀ w ∈ ws, IsWord w) (hne : ws ≠ []) :
    ∃ c t, joinWords ws = t ++ [c] ∧ isspace c = false := by
  induction ws with
  | nil => exact absurd rfl hne
  | cons w t ih =>
    have hw := hws w (List.mem_cons_self _ _)
    cases t with
    | nil =>
      refine ⟨w.getLast hw.1, w.dropLast, ?_, hw.2 _ (List.getLast_mem hw.1)⟩
      simp [joinWords, List.dropLast_append_getLast]
    | cons w2 t2 =>
      obtain ⟨c, t', ht', hc⟩ := ih (fun x hx => hws x (List.mem_cons_of_mem _ hx)) (by simp)
      refine ⟨c, w ++ ' ' :: t', ?_, hc⟩
      simp only [joinWords] at ht' ⊢
      rw [ht']
      simp

theorem clean_spaces_joinWords (ws : List Str) (hws : ∀ w ∈ ws, IsWord w) (hne : ws ≠ []) :
    clean_spaces (joinWords ws) = joinWords ws := by
  obtain ⟨c, t, hct, hc⟩ := joinWords_head ws hws hne
  obtain ⟨d, u, hdu, hd⟩ := joinWords_last ws hws hne
  have hc' : c ≠ ' ' := fun e => by rw [e] at hc; exact absurd hc (by decide)
  have hd' : d ≠ ' ' := fun e => by rw [e] at hd; exact absurd hd (by decide)
  unfold clean_spaces
  simp only [regexReplaceSpaces_joinWords ws hws false]
  have hfirst : find_first_not_of (joinWords ws) ' ' = some 0 := by
    rw [hct]
    simp [find_first_not_of, List.takeWhile, hc']
  have hlast : find_last_not_of (joinWords ws) ' ' = some ((joinWords ws).length - 1) := by
    rw [hdu]
    simp [find_last_not_of, List.takeWhile, hd']
  rw [hfirst, hlast]
  simp only [Option.getD_some, substr, List.drop_zero, Nat.sub_zero]
  apply List.take_of_length_le
  omega

theorem splitWordsAux_word_append (w : Str) (hw : ∀ c ∈ w, isspace c = false)
    (rest cur : Str) : splitWordsAux (w ++ rest) cur = splitWordsAux rest (cur ++ w) := by
  induction w generalizing cur with
  | nil => simp
  | cons c t ih =>
    have hc : isspace c = false := hw c (List.mem_cons_self _ _)
    have ht : ∀ x ∈ t, isspace x = false := fun x hx => hw x (List.mem_cons_of_mem _ hx)
    have h1 := ih ht (cur ++ [c])
    simp only [List.append_assoc, List.singleton_append] at h1
    simp [splitWordsAux, hc, h1]

theorem splitWords_joinWords (ws : List Str) (hws : ∀ w ∈ ws, IsWord w) :
    splitWords (joinWords ws) = ws := by
  unfold splitWords
  induction ws with
  | nil => simp [joinWords, splitWordsAux]
  | cons w t ih =>
    have hw := hws w (List.mem_cons_self _ _)
    cases t with
    | nil =>
      have := splitWordsAux_word_append w hw.2 [] []
      simp only [List.append_nil, List.nil_append] at this
      simp [joinWords, this, splitWordsAux, hw.1]
    | cons w' t' =>
      have ih' := ih (fun x hx => hws x (List.mem_cons_of_mem _ hx))
      simp only [joinWords] at ih' ⊢
      rw [splitWordsAux_word_append w hw.2]
      have hsp : isspace ' ' = true := by decide
      simp only [List.nil_append, splitWordsAux, hsp, if_true, hw.1, if_false]
      rw [ih']

theorem ceil_step (W i step : Nat) (hi : i < W) (hs : 1 ≤ step) :
    (W - i + step - 1) / step = (W - (i + step) + step - 1) / step + 1 := by
  by_cases h : i + step ≤ W
  · have : W - i + step - 1 = (W - (i + step) + step - 1) + step := by omega
    rw [this, Nat.add_div_right _ (by omega)]
  · have h0 : (W - (i + step) + step - 1) / step = 0 := Nat.div_eq_of_lt (by omega)
    have : W - i + step - 1 = (W - i - 1) + step := by omega
    rw [h0, this, Nat.add_div_right _ (by omega), Nat.div_eq_of_lt (by omega)]

theorem chunk_at (ws : List Str) (hws : ∀ w ∈ ws, IsWord w) (M i : Nat) (hM : 1 ≤ M)
    (hi : i < ws.length) :
    clean_spaces (joinRange ws i (min (ws.length : Int) ((i : Int) + (M : Int)))) =
      joinWords (window ws M i) ∧ joinWords (window ws M i) ≠ [] := by
  have hn : (min (ws.length : Int) ((i : Int) + (M : Int)) - (i : Int)).toNat =
      min (ws.length - i) M := by omega
  have hwin : (ws.drop i).take (min (ws.length - i) M) = window ws M i := by
    unfold window
    rw [List.take_eq_take]
    simp only [List.length_drop]
    omega
  have hmem : ∀ w ∈ window ws M i, IsWord w := fun w hw =>
    hws w (List.mem_of_mem_drop (List.mem_of_mem_take hw))
  have hne : window ws M i ≠ [] := by
    intro he
    have := congrArg List.length he
    simp [window] at this
    omega
  constructor
  · unfold joinRange
    rw [hn, joinRange_eq ws i _ (by omega), hwin]
    exact clean_spaces_joinWords _ hmem hne
  · obtain ⟨c, t, hct, -⟩ := joinWords_head _ hmem hne
    rw [hct]
    simp

theorem intResult_of_range (x : Int) (h1 : -2147483648 ≤ x) (h2 : x ≤ 2147483647) :
    intResult x = some x :=
  if_pos ⟨h1, h2⟩

/-- The outer loop of `chunk_words`, given enough fuel and no overflow, appends one chunk
per window start `i, i + step, i + 2 step, ...` below the number of words. -/
theorem chunkLoop_spec (ws : List Str) (hws : ∀ w ∈ ws, IsWord w) (M step : Nat)
    (hM : 1 ≤ M) (hs : 1 ≤ step) (hsM : step ≤ M) (hfit : ws.length + M ≤ 2147483647)
    (fuel i : Nat) (out : List Str)
    (hf : (ws.length - i + step - 1) / step < fuel) :
    chunkLoop ws (M : Int) step fuel i out =
      some (out ++ (List.range ((ws.length - i + step - 1) / step)).map
        (fun t => joinWords (window ws M (i + t * step)))) := by
  induction fuel generalizing i out with
  | zero => exact absurd hf (Nat.not_lt_zero _)
  | succ fuel ih =>
    by_cases hi : i < ws.length
    · obtain ⟨hc, hne⟩ := chunk_at ws hws M i hM hi
      have hstep := ceil_step ws.length i step hi hs
      have h1 : intResult ((i : Int) + (M : Int)) = some ((i : Int) + (M : Int)) :=
        intResult_of_range _ (by omega) (by omega)
      have h2 : intResult ((i : Int) + (step : Int)) = some ((i : Int) + (step : Int)) :=
        intResult_of_range _ (by omega) (by omega)
      simp only [chunkLoop, hi, if_true, h1, h2, hc, hne, ne_eq, not_false_eq_true]
      rw [ih (i + step) _ (by omega), hstep, List.range_succ_eq_map]
      simp only [List.map_cons, List.map_map, Nat.zero_mul, Nat.add_zero, List.append_assoc,
        List.singleton_append]
      congr 3
      apply List.map_congr_left
      intro t _
      simp only [Function.comp, Nat.succ_eq_add_one]
      congr 2
      rw [Nat.add_mul]
      omega
    · have h0 : (ws.length - i + step - 1) / step = 0 := Nat.div_eq_of_lt (by omega)
      simp [chunkLoop, hi, h0]

/-- The chunks `chunk_words` returns when no `int` overflows: one per window start
`0, step, 2 step, ...` below the number of words, each the window's words joined by single
spaces. -/
theorem chunk_words_eq (text : Str) (max_words overlap : Int) (hM : 1 ≤ max_words)
    (hO : 0 ≤ overlap) (hOM : overlap < max_words)
    (hfit : ((splitWords text).length : Int) + max_words ≤ 2147483647) :
    chunk_words text max_words overlap =
      some ((List.range (((splitWords text).length + (max_words - overlap).toNat - 1) /
          (max_words - overlap).toNat)).map
        (fun t => joinWords (window (splitWords text) max_words.toNat
          (t * (max_words - overlap).toNat)))) := by
  have hs : 1 ≤ (max_words - overlap).toNat := by omega
  have hd : intResult (max_words - overlap) = some (max_words - overlap) :=
    intResult_of_range _ (by omega) (by omega)
  have hW : intResult ((splitWords text).length : Int) = some ((splitWords text).length : Int) :=
    intResult_of_range _ (by omega) (by omega)
  have hmax : (max 1 (max_words - overlap)).toNat = (max_words - overlap).toNat := by omega
  unfold chunk_words
  by_cases hw : splitWords text = []
  · have h0 : ((max_words - overlap).toNat - 1) / (max_words - overlap).toNat = 0 :=
      Nat.div_eq_of_lt (by omega)
    simp [hw, h0]
  · simp only [hw, if_false, hd, hW, hmax]
    have hcast : max_words = ((max_words.toNat : Nat) : Int) := by omega
    have hfuel : ((splitWords text).length - 0 + (max_words - overlap).toNat - 1) /
        (max_words - overlap).toNat < (splitWords text).length + 1 := by
      have hlen : 1 ≤ (splitWords text).length :=
        List.length_pos.mpr hw
      generalize (splitWords text).length = W at hlen ⊢
      generalize (max_words - overlap).toNat = s at hs ⊢
      obtain ⟨W', rfl⟩ : ∃ W', W = W' + 1 := ⟨W - 1, by omega⟩
      obtain ⟨s', rfl⟩ : ∃ s', s = s' + 1 := ⟨s - 1, by omega⟩
      apply Nat.lt_succ_of_le
      apply Nat.div_le_of_le_mul
      rw [Nat.succ_mul, Nat.mul_succ]
      omega
    have := chunkLoop_spec (splitWords text) (splitWords_isWord text) max_words.toNat
      (max_words - overlap).toNat (by omega) hs (by omega) (by omega)
      ((splitWords text).length + 1) 0 [] hfuel
    rw [← hcast] at this
    rw [this]
    simp

theorem intResult_some (x e : Int) (h : intResult x = some e) : intResult x = some x := by
  unfold intResult at h ⊢
  split at h
  · rename_i hr
    simp [hr]
  · exact absurd h (by simp)

/-- Whatever the outer loop of `chunk_words` returns is the chunks collected so far followed
by one chunk per window start `i, i + step, i + 2 step, ...` below the number of words. -/
theorem chunkLoop_some (ws : List Str) (hws : ∀ w ∈ ws, IsWord w) (M step : Nat)
    (hM : 1 ≤ M) (hs : 1 ≤ step) (fuel i : Nat) (out res : List Str)
    (h : chunkLoop ws (M : Int) step fuel i out = some res) :
    res = out ++ (List.range ((ws.length - i + step - 1) / step)).map
        (fun t => joinWords (window ws M (i + t * step))) := by
  induction fuel generalizing i out with
  | zero => exact absurd h (by simp [chunkLoop])
  | succ fuel ih =>
    by_cases hi : i < ws.length
    · obtain ⟨hc, hne⟩ := chunk_at ws hws M i hM hi
      have hstep := ceil_step ws.length i step hi hs
      have h1 : intResult ((i : Int) + (M : Int)) = some ((i : Int) + (M : Int)) := by
        cases hx : intResult ((i : Int) + (M : Int)) with
        | none => simp [chunkLoop, hi, hx] at h
        | some e => rw [← hx]; exact intResult_some _ e hx
      have h2 : intResult ((i : Int) + (step : Int)) = some ((i : Int) + (step : Int)) := by
        cases hx : intResult ((i : Int) + (step : Int)) with
        | none => simp [chunkLoop, hi, h1, hx] at h
        | some e => rw [← hx]; exact intResult_some _ e hx
      simp only [chunkLoop, hi, if_true, h1, h2, hc, hne, ne_eq, not_false_eq_true] at h
      rw [ih (i + step) _ h, hstep, List.range_succ_eq_map]
      simp only [List.map_cons, List.map_map, Nat.zero_mul, Nat.add_zero, List.append_assoc,
        List.singleton_append]
      congr 3
      funext t
      simp only [Function.comp, Nat.succ_eq_add_one]
      congr 2
      rw [Nat.add_mul]
      omega
    · have h0 : (ws.length - i + step - 1) / step = 0 := Nat.div_eq_of_lt (by omega)
      simp only [chunkLoop, hi, if_false, Option.some.injEq] at h
      simp [h0, h]

/-- Whatever `chunk_words` returns for `M >= 1` and `0 <= O < M` is one chunk per window
start `0, step, 2 step, ...` below the number of words, each the window's words joined by
single spaces. -/
theorem chunk_words_some (text : Str) (max_words overlap : Int) (hM : 1 ≤ max_words)
    (hOM : overlap < max_words) (chunks : List Str)
    (h : chunk_words text max_words overlap = some chunks) :
    chunks = (List.range (((splitWords text).length + (max_words - overlap).toNat - 1) /
          (max_words - overlap).toNat)).map
        (fun t => joinWords (window (splitWords text) max_words.toNat
          (t * (max_words - overlap).toNat))) := by
  have hs : 1 ≤ (max_words - overlap).toNat := by omega
  have hmax : ∀ d : Int, d = max_words - overlap → (max 1 d).toNat = (max_words - overlap).toNat := by
    intro d hd
    omega
  unfold chunk_words at h
  by_cases hw : splitWords text = []
  · have h0 : ((max_words - overlap).toNat - 1) / (max_words - overlap).toNat = 0 :=
      Nat.div_eq_of_lt (by omega)
    simp only [hw, if_true, Option.some.injEq] at h
    simp [hw, h0, ← h]
  · simp only [hw, if_false] at h
    cases hd : intResult (max_words - overlap) with
    | none => simp [hd] at h
    | some d =>
      cases hW : intResult ((splitWords text).length : Int) with
      | none => simp [hd, hW] at h
      | some w =>
        have hdd : d = max_words - overlap := by
          have := intResult_some _ d hd
          rw [hd] at this
          exact Option.some.inj this
        simp only [hd, hW, hmax d hdd] at h
        have hcast : max_words = ((max_words.toNat : Nat) : Int) := by omega
        rw [hcast] at h
        have := chunkLoop_some (splitWords text) (splitWords_isWord text) max_words.toNat
          (max_words - overlap).toNat (by omega) hs _ 0 [] chunks (by rw [← hcast] at h ⊢; exact h)
        simpa using this

/-- C6, as stated, fails: the three words `a b c` with `max_words = 3` and `overlap = 1`
give two chunks (the loop starts a second window at word 2), where the stated formula
`ceil(max(0, W - M) / step) + 1` gives one. -/
theorem chunk_count_exceeds_stated :
    (splitWords "a b c".toList).length = 3 ∧
    chunk_words "a b c".toList 3 1 = some ["a b c".toList, "c".toList] ∧
    specChunkCount 3 3 (max 1 (3 - 1)) = 1 ∧
    ∃ chunks, chunk_words "a b c".toList 3 1 = some chunks ∧
      chunks.length ≠ specChunkCount (splitWords "a b c".toList).length 3 (max 1 (3 - 1)) := by
  refine ⟨by decide, by decide, by decide, ["a b c".toList, "c".toList], by decide, by decide⟩

/-- C6, amended: for every text with `W` whitespace-delimited words, every
`max_words = M >= 1` and every overlap `O` with `0 <= O < M`, provided `W + M` does not
exceed the largest `int`, `chunk_words` returns exactly `ceil(W / step)` chunks, where
`step = max(1, M - O) = M - O`; for `O = 0` and `W > 0` this is the stated
`ceil(max(0, W - M) / step) + 1`. -/
theorem chunk_count (text : Str) (max_words overlap : Int) (hM : 1 ≤ max_words)
    (hO : 0 ≤ overlap) (hOM : overlap < max_words)
    (hfit : ((splitWords text).length : Int) + max_words ≤ 2147483647) :
    ∃ chunks, chunk_words text max_words overlap = some chunks ∧
      chunks.length = ((splitWords text).length + (max 1 (max_words - overlap)).toNat - 1) /
        (max 1 (max_words - overlap)).toNat ∧
      (overlap = 0 → 0 < (splitWords text).length →
        chunks.length = specChunkCount (splitWords text).length max_words.toNat
          (max 1 (max_words - overlap)).toNat) := by
  have hmax : (max 1 (max_words - overlap)).toNat = (max_words - overlap).toNat := by omega
  refine ⟨_, chunk_words_eq text max_words overlap hM hO hOM hfit, by simp [hmax], ?_⟩
  intro hO0 hW
  subst hO0
  have hstep : (max_words - 0).toNat = max_words.toNat := by omega
  have := ceil_step (splitWords text).length 0 max_words.toNat hW (by omega)
  simp only [List.length_map, List.length_range, hmax, hstep, specChunkCount]
  simpa using this

theorem chunk_count_witness :
    ((1 : Int) ≤ 3 ∧ (0 : Int) ≤ 1 ∧ (1 : Int) < 3 ∧
      ((splitWords "a b c d e".toList).length : Int) + 3 ≤ 2147483647) ∧
    ∃ chunks, chunk_words "a b c d e".toList 3 1 = some chunks ∧ chunks.length = 3 :=
  ⟨by decide, (chunk_count "a b c d e".toList 3 1 (by decide) (by decide) (by decide)
      (by decide)).imp
    (fun _ h => ⟨h.1, h.2.1.trans (by decide)⟩)⟩

/-- An overflow in the chunker: the three words `a b c` with `max_words = 2147483647` and
`overlap = 2147483646` meet `M >= 1` and `0 <= O < M`, and the step is 1; the first chunk is
built, and at the second window the sum `i + max_words`, with `i = 1`, is beyond the
largest `int`, so the chunker has no defined result. -/
theorem chunk_words_overflow :
    ((1 : Int) ≤ 2147483647 ∧ (0 : Int) ≤ 2147483646 ∧ (2147483646 : Int) < 2147483647) ∧
    (splitWords "a b c".toList).length = 3 ∧
    intResult ((0 : Int) + 2147483647) = some 2147483647 ∧
    intResult ((1 : Int) + 2147483647) = none ∧
    chunk_words "a b c".toList 2147483647 2147483646 = none := by
  refine ⟨by decide, by decide, by decide, by decide, by decide⟩

/-- C7: for every text, every `max_words = M >= 1` and every overlap `O` with
`0 <= O < M`, in every list of chunks that `chunk_words` returns the `k`-th chunk holds the
words `k * step .. k * step + M - 1` of the text (as far as they exist), `step = M - O`, so
each chunk starts exactly `step` words after the previous one; hence for two consecutive
chunks of `M` words each, the last `O` words of the earlier one are the first `O` words of
the later one. `chunk_words` returns such a list whenever the number of words plus `M`
does not exceed the largest `int`, so that none of its `int` computations overflows. -/
theorem chunk_overlap (text : Str) (max_words overlap : Int) (hM : 1 ≤ max_words)
    (hO : 0 ≤ overlap) (hOM : overlap < max_words) :
    (∀ chunks, chunk_words text max_words overlap = some chunks →
      (∀ (k : Nat) (c : Str), chunks[k]? = some c →
        splitWords c =
          ((splitWords text).drop (k * (max_words - overlap).toNat)).take max_words.toNat) ∧
      (∀ (k : Nat) (c c' : Str), chunks[k]? = some c → chunks[k + 1]? = some c' →
        (splitWords c).length = max_words.toNat → (splitWords c').length = max_words.toNat →
        (splitWords c).drop ((splitWords c).length - overlap.toNat) =
          (splitWords c').take overlap.toNat)) ∧
    (((splitWords text).length : Int) + max_words ≤ 2147483647 →
      ∃ chunks, chunk_words text max_words overlap = some chunks) := by
  refine ⟨?_, fun hfit => ⟨_, chunk_words_eq text max_words overlap hM hO hOM hfit⟩⟩
  intro chunks hch
  have hkey : ∀ (k : Nat) (c : Str), chunks[k]? = some c →
      splitWords c =
        ((splitWords text).drop (k * (max_words - overlap).toNat)).take max_words.toNat := by
    intro k c hc
    rw [chunk_words_some text max_words overlap hM hOM chunks hch] at hc
    rw [List.getElem?_map] at hc
    obtain ⟨t, ht, rfl⟩ := Option.map_eq_some'.mp hc
    have htk : t = k := by
      rw [List.getElem?_eq_some] at ht
      obtain ⟨hlt, he⟩ := ht
      rw [List.getElem_range] at he
      exact he.symm
    subst htk
    apply splitWords_joinWords
    intro w hw
    exact splitWords_isWord text w (List.mem_of_mem_drop (List.mem_of_mem_take hw))
  refine ⟨hkey, ?_⟩
  intro k c c' hc hc' hlen _
  rw [hlen, hkey k c hc, hkey (k + 1) c' hc']
  rw [List.drop_take, List.drop_drop, List.take_take]
  have h1 : max_words.toNat - (max_words.toNat - overlap.toNat) = overlap.toNat := by omega
  have h2 : min overlap.toNat max_words.toNat = overlap.toNat := by omega
  have h3 : k * (max_words - overlap).toNat + (max_words.toNat - overlap.toNat) =
      (k + 1) * (max_words - overlap).toNat := by
    rw [Nat.add_mul]
    omega
  rw [h1, h2, h3]

theorem chunk_overlap_witness :
    ((1 : Int) ≤ 3 ∧ (0 : Int) ≤ 1 ∧ (1 : Int) < 3) ∧
    ((splitWords "a b c d e".toList).length : Int) + 3 ≤ 2147483647 ∧
    chunk_words "a b c d e".toList 3 1 =
      some ["a b c".toList, "c d e".toList, "e".toList] ∧
    (∀ (k : Nat) (c c' : Str),
      ["a b c".toList, "c d e".toList, "e".toList][k]? = some c →
      ["a b c".toList, "c d e".toList, "e".toList][k + 1]? = some c' →
      (splitWords c).length = (3 : Int).toNat → (splitWords c').length = (3 : Int).toNat →
      (splitWords c).drop ((splitWords c).length - (1 : Int).toNat) =
        (splitWords c').take (1 : Int).toNat) ∧
    ∃ chunks, chunk_words "a b c d e".toList 3 1 = some chunks :=
  ⟨by decide, by decide, by decide,
    ((chunk_overlap "a b c d e".toList 3 1 (by decide) (by decide) (by decide)).1
      ["a b c".toList, "c d e".toList, "e".toList] (by decide)).2,
    (chunk_overlap "a b c d e".toList 3 1 (by decide) (by decide) (by decide)).2
      (by decide)⟩

/-! ## Index loader -/

theorem takeWhile_ne_length_lt {c : Char} (l : Str) (h : c ∈ l) :
    (l.takeWhile (fun x => x ≠ c)).length < l.length := by
  induction l with
  | nil => exact absurd h (List.not_mem_nil c)
  | cons a t ih =>
    by_cases hac : a = c
    · rw [List.takeWhile_cons_of_neg (by simpa using hac)]
      simp
    · have : c ∈ t := by
        rcases List.mem_cons.mp h with h1 | h1
        · exact absurd h1.symm hac
        · exact h1
      rw [List.takeWhile_cons_of_pos (by simpa using hac)]
      have := ih this
      simp only [List.length_cons]
      omega

theorem takeWhile_ne_eq_self {c : Char} (l : Str) (h : c ∉ l) :
    l.takeWhile (fun x => x ≠ c) = l := by
  induction l with
  | nil => rfl
  | cons a t ih =>
    have hac : a ≠ c := fun e => h (e ▸ List.mem_cons_self _ _)
    have ht : c ∉ t := fun e => h (List.mem_cons_of_mem _ e)
    rw [List.takeWhile_cons_of_pos (by simpa using hac), ih ht]

theorem take_length_takeWhile (p : Char → Bool) (l : Str) :
    l.take (l.takeWhile p).length = l.takeWhile p := by
  induction l with
  | nil => rfl
  | cons a t ih =>
    by_cases h : p a = true
    · simp [List.takeWhile, h, ih]
    · simp [List.takeWhile, h]

theorem drop_length_takeWhile (p : Char → Bool) (l : Str) :
    l.drop (l.takeWhile p).length = l.dropWhile p := by
  induction l with
  | nil => rfl
  | cons a t ih =>
    by_cases h : p a = true
    · simp [List.takeWhile, List.dropWhile, h, ih]
    · simp [List.takeWhile, List.dropWhile, h]

/-- A successful `find(c, pos)` and the two `substr` calls around the position found. -/
theorem find_some (s : Str) (c : Char) (pos : Nat) (h : c ∈ s.drop pos) :
    find s c pos = some (pos + ((s.drop pos).takeWhile (fun x => x ≠ c)).length) ∧
    substr s pos ((s.drop pos).takeWhile (fun x => x ≠ c)).length =
      (s.drop pos).takeWhile (fun x => x ≠ c) ∧
    s.drop (pos + ((s.drop pos).takeWhile (fun x => x ≠ c)).length + 1) =
      ((s.drop pos).dropWhile (fun x => x ≠ c)).drop 1 := by
  have hlt := takeWhile_ne_length_lt (s.drop pos) h
  have hlen : (s.drop pos).length = s.length - pos := List.length_drop pos s
  refine ⟨?_, ?_, ?_⟩
  · unfold find
    simp only
    rw [if_pos (by omega)]
  · unfold substr
    exact take_length_takeWhile _ _
  · rw [← drop_length_takeWhile, List.drop_drop, List.drop_drop]
    congr 1

theorem find_none (s : Str) (c : Char) (pos : Nat) (h : c ∉ s.drop pos) :
    find s c pos = none := by
  unfold find
  simp only [takeWhile_ne_eq_self (s.drop pos) h, List.length_drop]
  rw [if_neg (by omega)]

/-- The function `parse_index_line` in terms of the line's fields. -/
theorem parse_index_line_eq (stof : Str → Option float) (line : Str) (row : rag_index_row) :
    parse_index_line stof line row =
      if '\t' ∈ line ∧ '\t' ∈ afterTab line ∧ '\t' ∈ afterTab (afterTab line) then
        if idField line = [] ∨ vecField line = [] ∨ nameField line = [] then (false, row)
        else
          match stoi (idField line) with
          | none => (false, row)
          | some n =>
            if parse_vec_csv stof (vecField line) = [] then (false, row)
            else (true, { id := n, vec := parse_vec_csv stof (vecField line),
                          filename := nameField line, text := textField line })
      else (false, row) := by
  unfold parse_index_line
  by_cases h1 : '\t' ∈ line
  · obtain ⟨f1, s1, d1⟩ := find_some line '\t' 0 (by simpa using h1)
    simp only [List.drop_zero, Nat.zero_add] at f1 s1 d1
    rw [f1]
    simp only
    have hd1 : line.drop ((line.takeWhile (fun x => x ≠ '\t')).length + 1) = afterTab line := d1
    by_cases h2 : '\t' ∈ afterTab line
    · obtain ⟨f2, s2, d2⟩ := find_some line '\t'
        ((line.takeWhile (fun x => x ≠ '\t')).length + 1) (by rw [hd1]; exact h2)
      rw [hd1] at f2 s2 d2
      rw [f2]
      simp only
      have hd2 : line.drop ((line.takeWhile (fun x => x ≠ '\t')).length + 1 +
          ((afterTab line).takeWhile (fun x => x ≠ '\t')).length + 1) =
          afterTab (afterTab line) := d2
      by_cases h3 : '\t' ∈ afterTab (afterTab line)
      · obtain ⟨f3, s3, d3⟩ := find_some line '\t'
          ((line.takeWhile (fun x => x ≠ '\t')).length + 1 +
            ((afterTab line).takeWhile (fun x => x ≠ '\t')).length + 1)
          (by rw [hd2]; exact h3)
        rw [hd2] at f3 s3 d3
        rw [f3]
        simp only [h1, h2, h3, and_self, if_true]
        have e2 : (line.takeWhile (fun x => x ≠ '\t')).length + 1 +
            ((afterTab line).takeWhile (fun x => x ≠ '\t')).length -
            (line.takeWhile (fun x => x ≠ '\t')).length - 1 =
            ((afterTab line).takeWhile (fun x => x ≠ '\t')).length := by omega
        have e3 : (line.takeWhile (fun x => x ≠ '\t')).length + 1 +
            ((afterTab line).takeWhile (fun x => x ≠ '\t')).length + 1 +
            ((afterTab (afterTab line)).takeWhile (fun x => x ≠ '\t')).length -
            ((line.takeWhile (fun x => x ≠ '\t')).length + 1 +
            ((afterTab line).takeWhile (fun x => x ≠ '\t')).length) - 1 =
            ((afterTab (afterTab line)).takeWhile (fun x => x ≠ '\t')).length := by omega
        rw [e2, e3, s1, s2, s3, d3]
        rfl
      · rw [find_none line '\t' _ (by rw [hd2]; exact h3)]
        simp [h3]
    · rw [find_none line '\t' _ (by rw [hd1]; exact h2)]
      simp [h2]
  · rw [find_none line '\t' 0 (by simpa using h1)]
    simp [h1]

theorem parse_index_line_blank (stof : Str → Option float) (row : rag_index_row) :
    parse_index_line stof [] row = (false, row) := rfl

theorem loadStep_eq (stof : Str → Option float) (items : List rag_index_row) (line : Str) :
    loadStep stof items line =
      items ++ (if (parse_index_line stof line {}).1 = true
        then some (parse_index_line stof line {}).2 else none).toList := by
  unfold loadStep
  by_cases hl : line = []
  · subst hl
    simp [parse_index_line_blank]
  · by_cases hp : (parse_index_line stof line {}).1 = true
    · simp [hl, hp]
    · simp [hl, hp]

theorem foldl_loadStep (stof : Str → Option float) (lines : List Str)
    (items : List rag_index_row) :
    lines.foldl (loadStep stof) items =
      items ++ lines.filterMap (fun line =>
        if (parse_index_line stof line {}).1 = true
        then some (parse_index_line stof line {}).2 else none) := by
  induction lines generalizing items with
  | nil => simp
  | cons l t ih =>
    rw [List.foldl_cons, ih, loadStep_eq, List.filterMap_cons]
    by_cases hp : (parse_index_line stof l {}).1 = true
    · simp [hp]
    · simp [hp]

/-- C9: for every readable index file, `load_index` leaves in `items_` exactly the rows of
the lines that `parse_index_line` accepts, in file order: blank lines (which
`parse_index_line` would reject as well) and rejected lines contribute nothing and do not
stop the load; it reports success if and only if that collection is non-empty. A file with
one well-formed line and one line missing a required tab loads exactly one record and
succeeds. -/
theorem load_index_rows (stof : Str → Option float) (content : Str) :
    (load_index stof (some content)).2 =
      (getlines content).filterMap (fun line =>
        if (parse_index_line stof line {}).1 = true
        then some (parse_index_line stof line {}).2 else none) ∧
    ((load_index stof (some content)).1 = true ↔ (load_index stof (some content)).2 ≠ []) ∧
    (parse_index_line stof [] {}).1 = false ∧
    load_index stof
      (some "0\t1,0\ta.txt\tcats are mammals\n1 0,1\tb.txt\tdogs bark\n".toList) =
      (true, [{ id := 0, vec := [(stof "1".toList).getD 0, (stof "0".toList).getD 0],
                filename := "a.txt".toList, text := "cats are mammals".toList }]) := by
  refine ⟨?_, ?_, rfl, rfl⟩
  · simp only [load_index]
    rw [foldl_loadStep]
    simp
  · simp only [load_index]
    cases (getlines content).foldl (loadStep stof) [] <;> simp

theorem count_tab_of_not_mem (s : Str) (h : '\t' ∉ s) : s.count '\t' = 0 :=
  List.count_eq_zero_of_not_mem h

theorem count_tab_afterTab (s : Str) (h : '\t' ∈ s) :
    s.count '\t' = (afterTab s).count '\t' + 1 := by
  induction s with
  | nil => exact absurd h (List.not_mem_nil _)
  | cons a t ih =>
    by_cases ha : a = '\t'
    · subst ha
      have : afterTab ('\t' :: t) = t := by
        unfold afterTab
        rw [List.dropWhile_cons_of_neg (by simp)]
        rfl
      rw [this, List.count_cons_self]
    · have ht : '\t' ∈ t := by
        rcases List.mem_cons.mp h with h1 | h1
        · exact absurd h1.symm ha
        · exact h1
      have : afterTab (a :: t) = afterTab t := by
        unfold afterTab
        rw [List.dropWhile_cons_of_pos (by simpa using ha)]
      rw [this, List.count_cons_of_ne (fun e => ha e.symm), ih ht]

theorem three_tabs_iff (line : Str) :
    ('\t' ∈ line ∧ '\t' ∈ afterTab line ∧ '\t' ∈ afterTab (afterTab line)) ↔
      3 ≤ line.count '\t' := by
  by_cases h1 : '\t' ∈ line
  · rw [count_tab_afterTab line h1]
    by_cases h2 : '\t' ∈ afterTab line
    · rw [count_tab_afterTab _ h2]
      by_cases h3 : '\t' ∈ afterTab (afterTab line)
      · rw [count_tab_afterTab _ h3]
        simp [h1, h2, h3]
      · rw [count_tab_of_not_mem _ h3]
        simp [h1, h2, h3]
    · rw [count_tab_of_not_mem _ h2]
      simp [h1, h2]
  · rw [count_tab_of_not_mem _ h1]
    simp [h1]


theorem isDigit_not_space (c : Char) (h : c.isDigit = true) :
    isspace c = false ∧ c ≠ '-' ∧ c ≠ '+' ∧ c ≠ '\t' ∧ c ≠ '\n' ∧ c ≠ ',' ∧ 32 < c.toNat := by
  have h48 : 48 ≤ c.toNat ∧ c.toNat ≤ 57 := by
    simp only [Char.isDigit, Bool.and_eq_true, decide_eq_true_eq] at h
    exact ⟨by simpa using h.1, by simpa using h.2⟩
  have hne : ∀ d : Char, d.toNat < 48 → c ≠ d := by
    intro d hd e
    rw [e] at h48
    omega
  refine ⟨?_, hne _ (by decide), hne _ (by decide), hne _ (by decide), hne _ (by decide),
    hne _ (by decide), by omega⟩
  simp only [isspace, Bool.or_eq_false_iff, decide_eq_false_iff_not]
  exact ⟨⟨⟨⟨⟨hne _ (by decide), hne _ (by decide)⟩, hne _ (by decide)⟩, hne _ (by decide)⟩,
    hne _ (by decide)⟩, hne _ (by decide)⟩

theorem takeWhile_append_stop (p : Char → Bool) (ds rest : Str) (hds : ∀ c ∈ ds, p c = true)
    (hrest : ∀ c, rest.head? = some c → p c = false) :
    (ds ++ rest).takeWhile p = ds := by
  rw [List.takeWhile_append_of_pos hds]
  cases rest with
  | nil => simp
  | cons a t =>
    have := hrest a rfl
    simp [List.takeWhile, this]

theorem readDigits_eq_some_iff (neg : Bool) (t : Str) (v : Int) :
    readDigits neg t = some v ↔
      ∃ ds rest, t = ds ++ rest ∧ ds ≠ [] ∧ (∀ c ∈ ds, c.isDigit = true) ∧
        (∀ c, rest.head? = some c → c.isDigit = false) ∧
        v = (if neg = true then -(digitsValue ds : Int) else (digitsValue ds : Int)) ∧
        -2147483648 ≤ v ∧ v ≤ 2147483647 := by
  unfold readDigits
  constructor
  · intro h
    by_cases hd : t.takeWhile Char.isDigit = []
    · simp [hd] at h
    · rw [if_neg hd] at h
      simp only at h
      generalize hv0 : (if neg = true then -(digitsValue (t.takeWhile Char.isDigit) : Int)
        else (digitsValue (t.takeWhile Char.isDigit) : Int)) = v0 at h
      by_cases hr : -2147483648 ≤ v0 ∧ v0 ≤ 2147483647
      · rw [if_pos hr] at h
        have hv : v0 = v := Option.some.inj h
        subst hv
        refine ⟨t.takeWhile Char.isDigit, t.dropWhile Char.isDigit,
          (List.takeWhile_append_dropWhile _ _).symm, hd, fun c hc => List.mem_takeWhile_imp hc,
          ?_, hv0.symm, hr.1, hr.2⟩
        intro c hc
        have := List.head?_dropWhile_not Char.isDigit t
        rw [hc] at this
        simpa using this
      · rw [if_neg hr] at h
        exact absurd h (by simp)
  · rintro ⟨ds, rest, rfl, hne, hall, hstop, hv, hlo, hhi⟩
    rw [takeWhile_append_stop Char.isDigit ds rest hall hstop, if_neg hne]
    simp only
    rw [← hv, if_pos ⟨hlo, hhi⟩]

/-- The model of `std::stoi` reads exactly what `StartsWithInt` describes, from any string
that does not begin with whitespace. -/
theorem stoi_eq_some_iff (s : Str) (hs : ∀ c, s.head? = some c → isspace c = false) (v : Int) :
    stoi s = some v ↔ StartsWithInt s v := by
  have hdrop : s.dropWhile isspace = s := by
    cases s with
    | nil => rfl
    | cons a t => rw [List.dropWhile_cons_of_neg (by simp [hs a rfl])]
  have hm : ['-'] ≠ ['+'] := by decide
  unfold stoi StartsWithInt
  rw [hdrop]
  split
  · rename_i t
    rw [readDigits_eq_some_iff]
    constructor
    · rintro ⟨ds, rest, rfl, hne, hall, hstop, hv, hlo, hhi⟩
      exact ⟨['-'], ds, rest, rfl, Or.inr (Or.inl rfl), hne, hall, hstop, by simpa using hv,
        hlo, hhi⟩
    · rintro ⟨sign, ds, rest, he, hsign, hne, hall, hstop, hv, hlo, hhi⟩
      obtain ⟨d, ds', rfl⟩ := List.exists_cons_of_ne_nil hne
      have hd := isDigit_not_space d (hall d (List.mem_cons_self _ _))
      rcases hsign with rfl | rfl | rfl
      · simp only [List.nil_append, List.cons_append, List.cons.injEq] at he
        exact absurd he.1.symm hd.2.1
      · simp only [List.cons_append, List.nil_append, List.cons.injEq, true_and] at he
        exact ⟨d :: ds', rest, he, hne, hall, hstop, by simpa using hv, hlo, hhi⟩
      · simp only [List.cons_append, List.nil_append, List.cons.injEq] at he
        exact absurd he.1 (by decide)
  · rename_i t
    rw [readDigits_eq_some_iff]
    constructor
    · rintro ⟨ds, rest, rfl, hne, hall, hstop, hv, hlo, hhi⟩
      refine ⟨['+'], ds, rest, rfl, Or.inr (Or.inr rfl), hne, hall, hstop, ?_, hlo, hhi⟩
      simpa [hm.symm] using hv
    · rintro ⟨sign, ds, rest, he, hsign, hne, hall, hstop, hv, hlo, hhi⟩
      obtain ⟨d, ds', rfl⟩ := List.exists_cons_of_ne_nil hne
      have hd := isDigit_not_space d (hall d (List.mem_cons_self _ _))
      rcases hsign with rfl | rfl | rfl
      · simp only [List.nil_append, List.cons_append, List.cons.injEq] at he
        exact absurd he.1.symm hd.2.2.1
      · simp only [List.cons_append, List.nil_append, List.cons.injEq] at he
        exact absurd he.1 (by decide)
      · simp only [List.cons_append, List.nil_append, List.cons.injEq, true_and] at he
        refine ⟨d :: ds', rest, he, hne, hall, hstop, ?_, hlo, hhi⟩
        simpa [hm.symm] using hv
  · rename_i s1 hnm hnp
    rw [readDigits_eq_some_iff]
    constructor
    · rintro ⟨ds, rest, rfl, hne, hall, hstop, hv, hlo, hhi⟩
      exact ⟨[], ds, rest, rfl, Or.inl rfl, hne, hall, hstop, by simpa using hv, hlo, hhi⟩
    · rintro ⟨sign, ds, rest, he, hsign, hne, hall, hstop, hv, hlo, hhi⟩
      rcases hsign with rfl | rfl | rfl
      · exact ⟨ds, rest, by simpa using he, hne, hall, hstop, by simpa using hv, hlo, hhi⟩
      · exact absurd he (hnm _)
      · exact absurd he (hnp _)

theorem trim_eq_rdropWhile (s : Str) :
    trim s = List.rdropWhile (fun c => decide (c.toNat ≤ 32))
      (s.dropWhile (fun c => decide (c.toNat ≤ 32))) := rfl

theorem trim_head_gt (s : Str) (c : Char) (h : (trim s).head? = some c) : 32 < c.toNat := by
  have hp : trim s <+: s.dropWhile (fun c => decide (c.toNat ≤ 32)) := by
    rw [trim_eq_rdropWhile]
    exact List.rdropWhile_prefix _ _
  obtain ⟨r, hr⟩ := hp
  cases ht : trim s with
  | nil => rw [ht] at h; exact absurd h (by simp)
  | cons a t =>
    rw [ht] at h hr
    have hac : a = c := by simpa using h
    subst hac
    have := List.head?_dropWhile_not (fun c => decide (c.toNat ≤ 32)) s
    rw [← hr] at this
    simpa using this

theorem not_isspace_of_gt (c : Char) (h : 32 < c.toNat) : isspace c = false := by
  have hne : ∀ d : Char, d.toNat ≤ 32 → c ≠ d := by
    intro d hd e
    rw [e] at h
    omega
  simp only [isspace, Bool.or_eq_false_iff, decide_eq_false_iff_not]
  exact ⟨⟨⟨⟨⟨hne _ (by decide), hne _ (by decide)⟩, hne _ (by decide)⟩, hne _ (by decide)⟩,
    hne _ (by decide)⟩, hne _ (by decide)⟩

theorem stoi_trim_iff (s : Str) (v : Int) :
    stoi (trim s) = some v ↔ StartsWithInt (trim s) v :=
  stoi_eq_some_iff (trim s) (fun c hc => not_isspace_of_gt c (trim_head_gt s c hc)) v
/-- C10, as stated, fails in both directions. The id field `7x` is not a decimal integer,
yet the line is accepted, with id 7: `std::stoi` reads the leading digits and ignores the
rest. The id field `99999999999` is a decimal integer and none of the other grounds for
rejection holds, yet the line is rejected: the value does not fit an `int`. -/
theorem parse_index_line_id_not_strict :
    isDecimalInteger (idField "7x\t1\ta\tb".toList) = false ∧
    (∀ stof : Str → Option float, parse_index_line stof "7x\t1\ta\tb".toList {} =
      (true, { id := 7, vec := [(stof "1".toList).getD 0], filename := "a".toList,
               text := "b".toList })) ∧
    isDecimalInteger (idField "99999999999\t1\ta\tb".toList) = true ∧
    "99999999999\t1\ta\tb".toList.count '\t' = 3 ∧
    vecField "99999999999\t1\ta\tb".toList ≠ [] ∧
    nameField "99999999999\t1\ta\tb".toList ≠ [] ∧
    (∀ stof : Str → Option float,
      parse_vec_csv stof (vecField "99999999999\t1\ta\tb".toList) ≠ []) ∧
    (∀ stof : Str → Option float,
      parse_index_line stof "99999999999\t1\ta\tb".toList {} = (false, {})) := by
  refine ⟨by decide, fun _ => rfl, by decide, by decide, by decide, by decide, ?_, fun _ => rfl⟩
  intro stof h
  exact absurd h (List.cons_ne_nil _ _)

/-- C10, amended: `parse_index_line` rejects a line (returns false and leaves the output row
unchanged) if and only if the line has fewer than three tab characters, or its id, vector or
filename field is empty after trimming, or `std::stoi` reads no `int` from its trimmed id
field, or its vector field yields no components; every other line is accepted with the
value `std::stoi` reads from the id field, the trimmed filename, the components of the
vector field and, as text, the whole untrimmed remainder of the line after the third tab.
Here `std::stoi` reads the value `v` from the id field exactly when the field begins with an
optional sign and a run of decimal digits of signed value `v` within the `int` range;
whatever follows the digits is ignored. -/
theorem parse_index_line_rejects_iff (stof : Str → Option float) (line : Str)
    (row : rag_index_row) :
    ((parse_index_line stof line row).1 = false ↔
      (line.count '\t' < 3 ∨ idField line = [] ∨ vecField line = [] ∨ nameField line = [] ∨
        stoi (idField line) = none ∨ parse_vec_csv stof (vecField line) = [])) ∧
    ((parse_index_line stof line row).1 = false → (parse_index_line stof line row).2 = row) ∧
    ((parse_index_line stof line row).1 = true →
      ∃ n, stoi (idField line) = some n ∧
        (parse_index_line stof line row).2 =
          { id := n, vec := parse_vec_csv stof (vecField line), filename := nameField line,
            text := textField line }) ∧
    (∀ v : Int, stoi (idField line) = some v ↔ StartsWithInt (idField line) v) := by
  refine (and_assoc.mp (and_assoc.mp ⟨?_, fun v => stoi_trim_iff (beforeTab line) v⟩))
  rw [and_assoc]
  rw [parse_index_line_eq]
  by_cases h3 : '\t' ∈ line ∧ '\t' ∈ afterTab line ∧ '\t' ∈ afterTab (afterTab line)
  · have hc : ¬ line.count '\t' < 3 := not_lt.mpr ((three_tabs_iff line).mp h3)
    rw [if_pos h3]
    by_cases he : idField line = [] ∨ vecField line = [] ∨ nameField line = []
    · rw [if_pos he]
      refine ⟨⟨fun _ => ?_, fun _ => rfl⟩, fun _ => rfl, fun h => absurd h (by simp)⟩
      rcases he with h | h | h
      · exact Or.inr (Or.inl h)
      · exact Or.inr (Or.inr (Or.inl h))
      · exact Or.inr (Or.inr (Or.inr (Or.inl h)))
    · rw [if_neg he]
      have he1 : idField line ≠ [] := fun h => he (Or.inl h)
      have he2 : vecField line ≠ [] := fun h => he (Or.inr (Or.inl h))
      have he3 : nameField line ≠ [] := fun h => he (Or.inr (Or.inr h))
      cases hs : stoi (idField line) with
      | none =>
        refine ⟨⟨fun _ => ?_, fun _ => rfl⟩, fun _ => rfl, fun h => absurd h (by simp)⟩
        exact Or.inr (Or.inr (Or.inr (Or.inr (Or.inl rfl))))
      | some n =>
        by_cases hv : parse_vec_csv stof (vecField line) = []
        · dsimp only
          rw [if_pos hv]
          refine ⟨⟨fun _ => ?_, fun _ => rfl⟩, fun _ => rfl, fun h => absurd h (by simp)⟩
          exact Or.inr (Or.inr (Or.inr (Or.inr (Or.inr hv))))
        · dsimp only
          rw [if_neg hv]
          refine ⟨⟨fun h => absurd h (by simp), fun h => ?_⟩, fun h => absurd h (by simp),
            fun _ => ⟨n, rfl, rfl⟩⟩
          rcases h with h | h | h | h | h | h
          · exact absurd h hc
          · exact absurd h he1
          · exact absurd h he2
          · exact absurd h he3
          · exact absurd h (by simp)
          · exact absurd h hv
  · have hc : line.count '\t' < 3 := by
      by_contra hge
      exact h3 ((three_tabs_iff line).mpr (not_lt.mp hge))
    rw [if_neg h3]
    exact ⟨⟨fun _ => Or.inl hc, fun _ => rfl⟩, fun _ => rfl, fun h => absurd h (by simp)⟩

/-! ## Index round trip -/

theorem digitChar_spec (k : Nat) (hk : k < 10) :
    (Nat.digitChar k).isDigit = true ∧ (Nat.digitChar k).toNat - '0'.toNat = k := by
  interval_cases k <;> decide

theorem digitsValue_snoc (pre : Str) (d : Char) :
    digitsValue (pre ++ [d]) = digitsValue pre * 10 + (d.toNat - '0'.toNat) := by
  simp [digitsValue, List.foldl_append]

theorem toDigitsCore_spec (fuel n : Nat) (acc : Str) (h : n < fuel) :
    ∃ pre, Nat.toDigitsCore 10 fuel n acc = pre ++ acc ∧ pre ≠ [] ∧
      (∀ c ∈ pre, c.isDigit = true) ∧ digitsValue pre = n := by
  induction fuel generalizing n acc with
  | zero => omega
  | succ fuel ih =>
    have hd := digitChar_spec (n % 10) (Nat.mod_lt _ (by decide))
    by_cases h0 : n / 10 = 0
    · refine ⟨[Nat.digitChar (n % 10)], ?_, by simp, ?_, ?_⟩
      · simp [Nat.toDigitsCore, h0]
      · intro c hc
        rw [List.mem_singleton.mp hc]
        exact hd.1
      · have : digitsValue [Nat.digitChar (n % 10)] =
            (Nat.digitChar (n % 10)).toNat - '0'.toNat := by simp [digitsValue]
        rw [this, hd.2]
        omega
    · obtain ⟨pre, hpre, -, hall, hval⟩ := ih (n / 10) (Nat.digitChar (n % 10) :: acc) (by omega)
      refine ⟨pre ++ [Nat.digitChar (n % 10)], ?_, by simp, ?_, ?_⟩
      · simp [Nat.toDigitsCore, h0, hpre]
      · intro c hc
        rcases List.mem_append.mp hc with hc | hc
        · exact hall c hc
        · rw [List.mem_singleton.mp hc]
          exact hd.1
      · rw [digitsValue_snoc, hval, hd.2]
        omega

theorem toDigits_spec (n : Nat) :
    Nat.toDigits 10 n ≠ [] ∧ (∀ c ∈ Nat.toDigits 10 n, c.isDigit = true) ∧
      digitsValue (Nat.toDigits 10 n) = n := by
  obtain ⟨pre, hpre, hne, hall, hval⟩ := toDigitsCore_spec (n + 1) n [] (by omega)
  have : Nat.toDigits 10 n = pre := by
    unfold Nat.toDigits
    rw [hpre, List.append_nil]
  rw [this]
  exact ⟨hne, hall, hval⟩

theorem stoi_toDigits (n : Nat) (h : n ≤ 2147483647) :
    stoi (Nat.toDigits 10 n) = some (n : Int) := by
  obtain ⟨hne, hall, hval⟩ := toDigits_spec n
  rw [stoi_eq_some_iff]
  · refine ⟨[], Nat.toDigits 10 n, [], by simp, Or.inl rfl, hne, hall, by simp, ?_, ?_, ?_⟩
    · simp [hval]
    · omega
    · omega
  · intro c hc
    have : c ∈ Nat.toDigits 10 n := List.mem_of_mem_head? hc
    exact (isDigit_not_space c (hall c this)).1

theorem trim_of_all_gt (s : Str) (h : ∀ c ∈ s, 32 < c.toNat) : trim s = s := by
  have h1 : s.dropWhile (fun c => decide (c.toNat ≤ 32)) = s := by
    cases s with
    | nil => rfl
    | cons a t =>
      have := h a (List.mem_cons_self _ _)
      rw [List.dropWhile_cons_of_neg (by simp; omega)]
  rw [trim_eq_rdropWhile, h1, List.rdropWhile_eq_self_iff]
  intro hl
  have := h _ (List.getLast_mem hl)
  simp
  omega

theorem beforeTab_append (a b : Str) (h : '\t' ∉ a) :
    beforeTab (a ++ '\t' :: b) = a ∧ afterTab (a ++ '\t' :: b) = b := by
  have hp : ∀ c ∈ a, (fun x => decide (x ≠ '\t')) c = true := by
    intro c hc
    have : c ≠ '\t' := fun e => h (e ▸ hc)
    simpa using this
  constructor
  · unfold beforeTab
    rw [List.takeWhile_append_of_pos hp, List.takeWhile_cons_of_neg (by simp)]
    simp
  · unfold afterTab
    rw [List.dropWhile_append_of_pos hp, List.dropWhile_cons_of_neg (by simp)]
    rfl

theorem getlinesAux_append (l rest cur : Str) (h : '\n' ∉ l) :
    getlinesAux (l ++ rest) cur = getlinesAux rest (cur ++ l) := by
  induction l generalizing cur with
  | nil => simp
  | cons a t ih =>
    have ha : a ≠ '\n' := fun e => h (e ▸ List.mem_cons_self _ _)
    have ht : '\n' ∉ t := fun e => h (List.mem_cons_of_mem _ e)
    have h1 := ih (cur ++ [a]) ht
    simp only [List.append_assoc, List.singleton_append] at h1
    simp [getlinesAux, ha, h1]

theorem getlines_flatten (lines : List Str) (h : ∀ l ∈ lines, '\n' ∉ l) :
    getlines ((lines.map (fun l => l ++ ['\n'])).flatten) = lines := by
  unfold getlines
  induction lines with
  | nil => rfl
  | cons l t ih =>
    have hl := h l (List.mem_cons_self _ _)
    have ht := ih (fun x hx => h x (List.mem_cons_of_mem _ hx))
    simp only [List.map_cons, List.flatten_cons, List.append_assoc, List.singleton_append]
    rw [getlinesAux_append l _ [] hl]
    simp only [List.nil_append, getlinesAux, if_true]
    rw [ht]

theorem joinComma_snoc (l : List Str) (w : Str) :
    joinComma (l ++ [w]) = if l = [] then w else joinComma l ++ ',' :: w := by
  induction l with
  | nil => simp [joinComma]
  | cons a t ih =>
    cases t with
    | nil => simp [joinComma]
    | cons b t' =>
      have h1 : joinComma (a :: ((b :: t') ++ [w])) =
          a ++ ',' :: joinComma ((b :: t') ++ [w]) := rfl
      rw [List.cons_append, h1, ih]
      simp [joinComma]

theorem formatVec_loop (fmt : float → Str) (emb : List float) (n : Nat) (h : n ≤ emb.length) :
    (List.range n).foldl
      (fun vcsv i => (if i ≠ 0 then vcsv ++ [','] else vcsv) ++ fmt (emb.getD i 0)) [] =
      joinComma ((emb.take n).map fmt) := by
  induction n with
  | zero => simp [joinComma]
  | succ n ih =>
    have hlt : n < emb.length := by omega
    have htake : emb.take (n + 1) = emb.take n ++ [emb[n]] := by
      rw [List.take_succ]
      simp [List.getElem?_eq_getElem hlt]
    rw [List.range_succ, List.foldl_append, ih (by omega), htake, List.map_append,
      List.map_singleton, joinComma_snoc]
    by_cases hn : n = 0
    · subst hn
      simp [joinComma, List.getElem?_eq_getElem hlt]
    · have h2 : (emb.take n).map fmt ≠ [] := by
        intro he
        have h3 := congrArg List.length he
        rw [List.length_map, List.length_take, List.length_nil] at h3
        omega
      rw [if_neg h2]
      simp only [List.foldl_cons, List.foldl_nil, List.getD_eq_getElem?_getD,
        List.getElem?_eq_getElem hlt, Option.getD_some, hn, ne_eq, not_false_eq_true, if_true,
        List.append_assoc, List.singleton_append]

theorem formatVec_eq (fmt : float → Str) (emb : List float) :
    formatVec fmt emb = joinComma (emb.map fmt) := by
  unfold formatVec
  rw [formatVec_loop fmt emb emb.length (le_refl _), List.take_length]

theorem joinComma_chars (toks : List Str) (h : ∀ t ∈ toks, ∀ c ∈ t, c ≠ ',' ∧ 32 < c.toNat) :
    ∀ c ∈ joinComma toks, 32 < c.toNat := by
  induction toks with
  | nil => intro c hc; simp [joinComma] at hc
  | cons w t ih =>
    cases t with
    | nil =>
      intro c hc
      exact (h w (List.mem_cons_self _ _) c (by simpa [joinComma] using hc)).2
    | cons w' t' =>
      intro c hc
      simp only [joinComma, List.mem_append, List.mem_cons] at hc
      rcases hc with hc | hc | hc
      · exact (h w (List.mem_cons_self _ _) c hc).2
      · rw [hc]; decide
      · exact ih (fun x hx => h x (List.mem_cons_of_mem _ hx)) c hc

theorem joinComma_ne_nil (toks : List Str) (hne : toks ≠ []) (h : ∀ t ∈ toks, t ≠ []) :
    joinComma toks ≠ [] := by
  cases toks with
  | nil => exact absurd rfl hne
  | cons w t =>
    have hw := h w (List.mem_cons_self _ _)
    cases t with
    | nil => simpa [joinComma] using hw
    | cons w' t' => simp [joinComma, hw]

theorem parseVecLoop_nil (stof : Str → Option float) (fuel : Nat) :
    parseVecLoop stof fuel [] = [] := by
  cases fuel <;> simp [parseVecLoop]

/-- One pass of the loop of `parse_vec_csv` over a token that is followed by the end of the
field or by a comma. -/
theorem parseVecLoop_token (stof : Str → Option float) (fuel : Nat) (tok more : Str)
    (hne : tok ≠ []) (hok : ∀ c ∈ tok, c ≠ ',' ∧ 32 < c.toNat) :
    parseVecLoop stof (fuel + 1) tok = (stof tok).getD 0 :: parseVecLoop stof fuel [] ∧
    parseVecLoop stof (fuel + 1) (tok ++ ',' :: more) =
      (stof tok).getD 0 :: parseVecLoop stof fuel more := by
  obtain ⟨a, t, rfl⟩ := List.exists_cons_of_ne_nil hne
  have ha := hok a (List.mem_cons_self _ _)
  have hsep : ¬ ((a = ',' ∨ a = ' ') ∨ a = '\t') := by
    rintro ((e | e) | e)
    · exact ha.1 e
    · rw [e] at ha; exact absurd ha.2 (by decide)
    · rw [e] at ha; exact absurd ha.2 (by decide)
  have hp : ∀ c ∈ a :: t, (fun c => decide (c ≠ ',')) c = true := by
    intro c hc
    simpa using (hok c hc).1
  have hd : ∀ rest : Str, (a :: t ++ rest).dropWhile
      (fun c => c = ',' || c = ' ' || c = '\t') = a :: t ++ rest := by
    intro rest
    rw [List.cons_append, List.dropWhile_cons_of_neg (by simpa using hsep)]
  constructor
  · have h1 := hd []
    rw [List.append_nil] at h1
    have h2 : (a :: t).takeWhile (fun c => decide (c ≠ ',')) = a :: t :=
      List.takeWhile_eq_self_iff.mpr hp
    have h3 : (a :: t).dropWhile (fun c => decide (c ≠ ',')) = [] :=
      List.dropWhile_eq_nil_iff.mpr hp
    simp only [parseVecLoop, h1, h2, h3]
    simp
  · have h2 : (a :: t ++ ',' :: more).takeWhile (fun c => decide (c ≠ ',')) = a :: t := by
      rw [List.takeWhile_append_of_pos hp, List.takeWhile_cons_of_neg (by simp)]
      simp
    have h3 : (a :: t ++ ',' :: more).dropWhile (fun c => decide (c ≠ ',')) = ',' :: more := by
      rw [List.dropWhile_append_of_pos hp, List.dropWhile_cons_of_neg (by simp)]
    simp only [parseVecLoop, hd, h2, h3]
    simp

theorem parseVecLoop_joinComma (stof : Str → Option float) (toks : List Str)
    (h : ∀ t ∈ toks, t ≠ [] ∧ ∀ c ∈ t, c ≠ ',' ∧ 32 < c.toNat) (fuel : Nat)
    (hf : toks.length ≤ fuel) :
    parseVecLoop stof fuel (joinComma toks) = toks.map (fun t => (stof t).getD 0) := by
  induction toks generalizing fuel with
  | nil => simp [joinComma, parseVecLoop_nil]
  | cons w t ih =>
    have hw := h w (List.mem_cons_self _ _)
    obtain ⟨fuel', rfl⟩ : ∃ fuel', fuel = fuel' + 1 := ⟨fuel - 1, by simp at hf; omega⟩
    cases t with
    | nil =>
      simp only [joinComma, List.map_cons, List.map_nil]
      rw [(parseVecLoop_token stof fuel' w [] hw.1 hw.2).1, parseVecLoop_nil]
    | cons w' t' =>
      have ih' := ih (fun x hx => h x (List.mem_cons_of_mem _ hx)) fuel'
        (by simp at hf ⊢; omega)
      have hj : joinComma (w :: w' :: t') = w ++ ',' :: joinComma (w' :: t') := rfl
      rw [hj, (parseVecLoop_token stof fuel' w _ hw.1 hw.2).2, ih']
      simp

theorem joinComma_length (toks : List Str) (h : ∀ t ∈ toks, t ≠ []) :
    toks.length ≤ (joinComma toks).length := by
  induction toks with
  | nil => simp
  | cons w t ih =>
    have hw : 0 < w.length := List.length_pos.mpr (h w (List.mem_cons_self _ _))
    cases t with
    | nil => simp [joinComma]; omega
    | cons w' t' =>
      have := ih (fun x hx => h x (List.mem_cons_of_mem _ hx))
      simp only [joinComma, List.length_append, List.length_cons] at this ⊢
      omega

theorem parse_vec_csv_formatVec (fmt : float → Str) (stof : Str → Option float) (hfmt : FloatTextOK fmt)
    (emb : List float) :
    parse_vec_csv stof (formatVec fmt emb) = emb.map (fun x => (stof (fmt x)).getD 0) := by
  have htok : ∀ t ∈ emb.map fmt, t ≠ [] ∧ ∀ c ∈ t, c ≠ ',' ∧ 32 < c.toNat := by
    intro t ht
    obtain ⟨x, -, rfl⟩ := List.mem_map.mp ht
    exact hfmt x
  unfold parse_vec_csv
  rw [formatVec_eq, parseVecLoop_joinComma stof _ htok _
    (joinComma_length _ (fun t ht => (htok t ht).1)), List.map_map]
  rfl

theorem writeRecord_eq (fmt : float → Str) (r : index_record) :
    writeRecord fmt r = recordLine fmt r ++ ['\n'] := by
  simp [writeRecord, recordLine]

theorem formatVec_chars (fmt : float → Str) (hfmt : FloatTextOK fmt) (emb : List float) :
    ∀ c ∈ formatVec fmt emb, 32 < c.toNat := by
  rw [formatVec_eq]
  apply joinComma_chars
  intro t ht
  obtain ⟨x, -, rfl⟩ := List.mem_map.mp ht
  exact (hfmt x).2

theorem formatVec_ne_nil (fmt : float → Str) (hfmt : FloatTextOK fmt) (emb : List float)
    (h : emb ≠ []) : formatVec fmt emb ≠ [] := by
  rw [formatVec_eq]
  apply joinComma_ne_nil
  · simpa using h
  · intro t ht
    obtain ⟨x, -, rfl⟩ := List.mem_map.mp ht
    exact (hfmt x).1

theorem not_mem_of_all_gt (s : Str) (h : ∀ c ∈ s, 32 < c.toNat) (d : Char)
    (hd : d.toNat ≤ 32) : d ∉ s := by
  intro hm
  have := h d hm
  omega

/-- A line written by `create_index` for a loadable record is accepted by
`parse_index_line`, with the record's id and text, its trimmed filename and one vector
component per written component. -/
theorem parse_recordLine (fmt : float → Str) (stof : Str → Option float) (hfmt : FloatTextOK fmt)
    (r : index_record) (hr : Loadable r) (row : rag_index_row) :
    parse_index_line stof (recordLine fmt r) row = (true, loadedRow fmt stof r) := by
  obtain ⟨hid, hemb, hname, hft, -, -⟩ := hr
  obtain ⟨hdne, hdall, -⟩ := toDigits_spec r.chunk_id
  have hdgt : ∀ c ∈ Nat.toDigits 10 r.chunk_id, 32 < c.toNat :=
    fun c hc => (isDigit_not_space c (hdall c hc)).2.2.2.2.2.2
  have hvgt := formatVec_chars fmt hfmt r.emb
  have hvne := formatVec_ne_nil fmt hfmt r.emb hemb
  have b1 := beforeTab_append (Nat.toDigits 10 r.chunk_id)
    (formatVec fmt r.emb ++ '\t' :: (r.filename ++ '\t' :: r.chunk))
    (not_mem_of_all_gt _ hdgt '\t' (by decide))
  have b2 := beforeTab_append (formatVec fmt r.emb) (r.filename ++ '\t' :: r.chunk)
    (not_mem_of_all_gt _ hvgt '\t' (by decide))
  have b3 := beforeTab_append r.filename r.chunk hft
  have e1 : idField (recordLine fmt r) = Nat.toDigits 10 r.chunk_id := by
    unfold idField recordLine
    rw [b1.1, trim_of_all_gt _ hdgt]
  have e2 : vecField (recordLine fmt r) = formatVec fmt r.emb := by
    unfold vecField recordLine
    rw [b1.2, b2.1, trim_of_all_gt _ hvgt]
  have e3 : nameField (recordLine fmt r) = trim r.filename := by
    unfold nameField recordLine
    rw [b1.2, b2.2, b3.1]
  have e4 : textField (recordLine fmt r) = r.chunk := by
    unfold textField recordLine
    rw [b1.2, b2.2, b3.2]
  have t1 : '\t' ∈ recordLine fmt r := by simp [recordLine]
  have t2 : '\t' ∈ afterTab (recordLine fmt r) := by
    unfold recordLine
    rw [b1.2]
    simp
  have t3 : '\t' ∈ afterTab (afterTab (recordLine fmt r)) := by
    unfold recordLine
    rw [b1.2, b2.2]
    simp
  have hvec := parse_vec_csv_formatVec fmt stof hfmt r.emb
  have hvec_ne : r.emb.map (fun x => (stof (fmt x)).getD 0) ≠ [] := by simpa using hemb
  rw [parse_index_line_eq, if_pos ⟨t1, t2, t3⟩, e1, e2, e3, e4,
    if_neg (by simp [hdne, hvne, hname]), stoi_toDigits _ hid]
  simp only [hvec]
  rw [if_neg hvec_ne]
  rfl

/-- Loading what `create_index` wrote for loadable records gives one row per record, in
order. -/
theorem load_written (fmt : float → Str) (stof : Str → Option float) (hfmt : FloatTextOK fmt)
    (recs : List index_record) (hrecs : ∀ r ∈ recs, Loadable r) :
    load_index stof (some (writeIndex fmt recs)) =
      (!recs.isEmpty, recs.map (loadedRow fmt stof)) := by
  have hlines : getlines (writeIndex fmt recs) = recs.map (recordLine fmt) := by
    have : writeIndex fmt recs =
        ((recs.map (recordLine fmt)).map (fun l => l ++ ['\n'])).flatten := by
      unfold writeIndex
      rw [List.map_map]
      congr 1
      apply List.map_congr_left
      intro r _
      exact writeRecord_eq fmt r
    rw [this, getlines_flatten]
    intro l hl
    obtain ⟨r, hr, rfl⟩ := List.mem_map.mp hl
    obtain ⟨-, -, -, -, hfn, hcn⟩ := hrecs r hr
    obtain ⟨-, hdall, -⟩ := toDigits_spec r.chunk_id
    have hdgt : ∀ c ∈ Nat.toDigits 10 r.chunk_id, 32 < c.toNat :=
      fun c hc => (isDigit_not_space c (hdall c hc)).2.2.2.2.2.2
    have h1 := not_mem_of_all_gt _ hdgt '\n' (by decide)
    have h2 := not_mem_of_all_gt _ (formatVec_chars fmt hfmt r.emb) '\n' (by decide)
    simp only [recordLine, List.mem_append, List.mem_cons, not_or]
    exact ⟨h1, by decide, h2, by decide, hfn, by decide, hcn⟩
  have hrows : (recs.map (recordLine fmt)).filterMap (fun line =>
      if (parse_index_line stof line {}).1 = true
      then some (parse_index_line stof line {}).2 else none) =
      recs.map (loadedRow fmt stof) := by
    rw [List.filterMap_map]
    rw [← List.filterMap_eq_map]
    apply List.filterMap_congr
    intro r hr
    simp [parse_recordLine fmt stof hfmt r (hrecs r hr)]
  simp only [load_index]
  rw [hlines, foldl_loadStep, hrows]
  cases recs <;> simp

theorem formatFixed7_ok : FloatTextOK formatFixed7 := by
  intro x
  have hdig : ∀ n : Nat, ∀ c ∈ Nat.toDigits 10 n, c ≠ ',' ∧ 32 < c.toNat := by
    intro n c hc
    have := isDigit_not_space c ((toDigits_spec n).2.1 c hc)
    exact ⟨this.2.2.2.2.2.1, this.2.2.2.2.2.2⟩
  cases x with
  | nan => exact ⟨by decide, by decide⟩
  | ninf => exact ⟨by decide, by decide⟩
  | pinf => exact ⟨by decide, by decide⟩
  | fin x =>
    constructor
    · simp [formatFixed7]
    · intro c hc
      simp only [formatFixed7, List.mem_append, List.mem_cons, List.mem_replicate] at hc
      rcases hc with (hc | hc) | hc | hc | hc
      · by_cases hx : x < 0
        · simp only [hx, if_true, List.mem_singleton] at hc
          rw [hc]
          decide
        · simp [hx] at hc
      · exact hdig _ c hc
      · rw [hc]
        decide
      · rw [hc.2]
        decide
      · exact hdig _ c hc

theorem trim_eq_self_of_ends (s : Str) (h1 : ∀ c, s.head? = some c → 32 < c.toNat)
    (h2 : ∀ c, s.getLast? = some c → 32 < c.toNat) : trim s = s := by
  have hd : s.dropWhile (fun c => decide (c.toNat ≤ 32)) = s := by
    cases s with
    | nil => rfl
    | cons a t =>
      have := h1 a rfl
      rw [List.dropWhile_cons_of_neg (by simp; omega)]
  rw [trim_eq_rdropWhile, hd, List.rdropWhile_eq_self_iff]
  intro hl
  have := h2 _ (List.getLast?_eq_getLast _ hl)
  simp
  omega

/-- C8, as stated, fails: a record whose filename begins with a space meets every
precondition of the claim, yet the row loaded back holds the filename without that space,
because `parse_index_line` trims the filename field. -/
theorem round_trip_changes_filename :
    (spacedNameRecord.chunk_id ≤ 2147483647 ∧ spacedNameRecord.emb.length = 1 ∧
      spacedNameRecord.filename ≠ [] ∧ '\t' ∉ spacedNameRecord.filename ∧
      '\n' ∉ spacedNameRecord.filename ∧ '\t' ∉ spacedNameRecord.chunk ∧
      '\n' ∉ spacedNameRecord.chunk) ∧
    (∀ (fmt : float → Str) (stof : Str → Option float), FloatTextOK fmt →
      (load_index stof (some (writeIndex fmt [spacedNameRecord]))).2.map
        (fun row => row.filename) = ["a.txt".toList]) ∧
    spacedNameRecord.filename = " a.txt".toList ∧
    " a.txt".toList ≠ "a.txt".toList := by
  refine ⟨by decide, ?_, rfl, by decide⟩
  intro fmt stof hfmt
  have hl : ∀ r ∈ [spacedNameRecord], Loadable r := by
    intro r hr
    rw [List.mem_singleton.mp hr]
    refine ⟨by decide, ?_, by decide, by decide, by decide, by decide⟩
    simp [spacedNameRecord]
  rw [load_written fmt stof hfmt _ hl]
  rfl

/-- C8, amended: for every sequence of N >= 1 records written in the build format (ids
within the `int` range, vectors with at least one component, filenames free of tab and
newline and not empty after trimming, chunk texts free of tab and newline), loading the
written lines succeeds and yields exactly N records, in the same order, each with the
identical id, the identical text, a vector with the same number of components, and the
filename with its leading and trailing characters up to the space removed: the identical
filename whenever it neither begins nor ends with such a character. -/
theorem index_round_trip (fmt : float → Str) (stof : Str → Option float) (recs : List index_record)
    (hfmt : FloatTextOK fmt) (hN : recs ≠ [])
    (hrecs : ∀ r ∈ recs, r.chunk_id ≤ 2147483647 ∧ r.emb ≠ [] ∧ trim r.filename ≠ [] ∧
      '\t' ∉ r.filename ∧ '\n' ∉ r.filename ∧ '\t' ∉ r.chunk ∧ '\n' ∉ r.chunk) :
    (load_index stof (some (writeIndex fmt recs))).1 = true ∧
    (load_index stof (some (writeIndex fmt recs))).2.length = recs.length ∧
    List.Forall₂ (fun (r : index_record) (row : rag_index_row) =>
        row.id = (r.chunk_id : Int) ∧ row.filename = trim r.filename ∧ row.text = r.chunk ∧
        row.vec.length = r.emb.length)
      recs (load_index stof (some (writeIndex fmt recs))).2 ∧
    (∀ r ∈ recs, (∀ c, r.filename.head? = some c → 32 < c.toNat) →
      (∀ c, r.filename.getLast? = some c → 32 < c.toNat) → trim r.filename = r.filename) := by
  have hl : ∀ r ∈ recs, Loadable r := by
    intro r hr
    obtain ⟨h1, h2, h3, h4, h5, -, h7⟩ := hrecs r hr
    exact ⟨h1, h2, h3, h4, h5, h7⟩
  rw [load_written fmt stof hfmt recs hl]
  refine ⟨?_, by simp, ?_, fun r _ h1 h2 => trim_eq_self_of_ends r.filename h1 h2⟩
  · cases recs with
    | nil => exact absurd rfl hN
    | cons a t => rfl
  · rw [List.forall₂_map_right_iff, List.forall₂_same]
    intro r _
    simp [loadedRow]

theorem index_round_trip_witness :
    FloatTextOK formatFixed7 ∧ scenarioRecords ≠ [] ∧
    (∀ stof : Str → Option float,
      (load_index stof (some (writeIndex formatFixed7 scenarioRecords))).1 = true ∧
      (load_index stof (some (writeIndex formatFixed7 scenarioRecords))).2.length = 2) :=
  ⟨formatFixed7_ok, List.cons_ne_nil _ _, fun stof =>
    have h := index_round_trip formatFixed7 stof scenarioRecords formatFixed7_ok
      (List.cons_ne_nil _ _)
      (by
        intro r hr
        simp only [scenarioRecords, List.mem_cons, List.mem_singleton, List.not_mem_nil,
          or_false] at hr
        rcases hr with rfl | rfl
        · exact ⟨by decide, by simp, by decide, by decide, by decide, by decide, by decide⟩
        · exact ⟨by decide, by simp, by decide, by decide, by decide, by decide, by decide⟩)
    ⟨h.1, h.2.1⟩⟩

/-- The fuel of `parseVecLoop` is adequate: any amount of at least the number of
characters left gives the same components. -/
theorem parseVecLoop_fuel (stof : Str → Option float) (n : Nat) :
    ∀ (s : Str) (f1 f2 : Nat), s.length ≤ n → s.length ≤ f1 → s.length ≤ f2 →
      parseVecLoop stof f1 s = parseVecLoop stof f2 s := by
  induction n with
  | zero =>
    intro s f1 f2 hn _ _
    have hs : s = [] := List.length_eq_zero.mp (Nat.le_zero.mp hn)
    subst hs
    rw [parseVecLoop_nil, parseVecLoop_nil]
  | succ n ih =>
    intro s f1 f2 hn h1 h2
    by_cases hs : s = []
    · subst hs
      rw [parseVecLoop_nil, parseVecLoop_nil]
    · have hpos : 0 < s.length := List.length_pos.mpr hs
      obtain ⟨g1, rfl⟩ : ∃ g, f1 = g + 1 := ⟨f1 - 1, by omega⟩
      obtain ⟨g2, rfl⟩ : ∃ g, f2 = g + 1 := ⟨f2 - 1, by omega⟩
      simp only [parseVecLoop]
      by_cases h0 : s.dropWhile (fun c => c = ',' || c = ' ' || c = '\t') = []
      · simp [h0]
      · rw [if_neg h0, if_neg h0]
        congr 1
        have hle : (s.dropWhile (fun c => c = ',' || c = ' ' || c = '\t')).length ≤ s.length :=
          (List.dropWhile_suffix _).length_le
        have hlt : (((s.dropWhile (fun c => c = ',' || c = ' ' || c = '\t')).dropWhile
            (fun c => c ≠ ',')).drop 1).length <
            (s.dropWhile (fun c => c = ',' || c = ' ' || c = '\t')).length := by
          cases hd : s.dropWhile (fun c => c = ',' || c = ' ' || c = '\t') with
          | nil => exact absurd hd h0
          | cons a t =>
            have := (List.dropWhile_suffix (fun c => decide (c ≠ ',')) (l := a :: t)).length_le
            simp only [List.length_drop, List.length_cons] at this ⊢
            have hp : 0 < ((a :: t).dropWhile (fun c => decide (c ≠ ','))).length ∨
                ((a :: t).dropWhile (fun c => decide (c ≠ ','))).length = 0 := by omega
            omega
        exact ih _ g1 g2 (by omega) (by omega) (by omega)

theorem parse_vec_csv_fuel (stof : Str → Option float) (csv : Str) (fuel : Nat)
    (h : csv.length ≤ fuel) : parseVecLoop stof fuel csv = parse_vec_csv stof csv :=
  parseVecLoop_fuel stof csv.length csv fuel csv.length (le_refl _) h (le_refl _)

/-! ## `parse_vec_csv` against the comma-separated tokens -/

theorem splitCommaAux_eq (s cur : Str) :
    splitCommaAux s cur =
      (cur ++ s.takeWhile (fun c => c ≠ ',')) ::
        (if s.dropWhile (fun c => c ≠ ',') = [] then []
         else splitCommaAux ((s.dropWhile (fun c => c ≠ ',')).drop 1) []) := by
  induction s generalizing cur with
  | nil => simp [splitCommaAux]
  | cons a t ih =>
    by_cases ha : a = ','
    · subst ha
      rw [List.takeWhile_cons_of_neg (by simp), List.dropWhile_cons_of_neg (by simp)]
      simp [splitCommaAux]
    · rw [List.takeWhile_cons_of_pos (by simpa using ha),
        List.dropWhile_cons_of_pos (by simpa using ha)]
      simp only [splitCommaAux, ha, if_false]
      rw [ih (cur ++ [a])]
      simp

theorem splitCommaAux_length (s cur : Str) :
    (splitCommaAux s cur).length = s.count ',' + 1 := by
  induction s generalizing cur with
  | nil => simp [splitCommaAux]
  | cons a t ih =>
    by_cases ha : a = ','
    · subst ha
      simp [splitCommaAux, ih]
    · simp only [splitCommaAux, ha, if_false]
      rw [ih, List.count_cons_of_ne (fun e => ha e.symm)]

theorem parseVecLoop_congr (stof : Str → Option float) (fuel : Nat) (s s' : Str)
    (h : s.dropWhile (fun c => c = ',' || c = ' ' || c = '\t') =
      s'.dropWhile (fun c => c = ',' || c = ' ' || c = '\t')) :
    parseVecLoop stof (fuel + 1) s = parseVecLoop stof (fuel + 1) s' := by
  simp only [parseVecLoop, h]

/-- A field splits at its first comma into a piece without comma and the rest. -/
theorem comma_split (s : Str) :
    ∃ tok0 rest0, s = tok0 ++ rest0 ∧ ',' ∉ tok0 ∧
      ((rest0 = [] ∧ splitComma s = [tok0]) ∨
        ∃ r, rest0 = ',' :: r ∧ splitComma s = tok0 :: splitComma r) := by
  refine ⟨s.takeWhile (fun c => c ≠ ','), s.dropWhile (fun c => c ≠ ','),
    (List.takeWhile_append_dropWhile _ _).symm, ?_, ?_⟩
  · intro hm
    have := List.mem_takeWhile_imp hm
    simp at this
  · have hq := splitCommaAux_eq s []
    rw [List.nil_append] at hq
    cases hrest : s.dropWhile (fun c => c ≠ ',') with
    | nil =>
      left
      rw [hrest] at hq
      exact ⟨rfl, by simpa [splitComma] using hq⟩
    | cons c r =>
      right
      have hc : c = ',' := by
        have := List.head?_dropWhile_not (fun c => decide (c ≠ ',')) s
        rw [hrest] at this
        simpa using this
      subst hc
      rw [hrest] at hq
      refine ⟨r, rfl, ?_⟩
      unfold splitComma
      rw [hq]
      simp

/-- The separators skipped before a token, on a piece that holds no comma, are its leading
spaces and tabs. -/
theorem dropWhile_sep_piece (tok rest : Str) (htok : ',' ∉ tok) :
    (stripBlank tok = [] →
      (tok ++ rest).dropWhile (fun c => c = ',' || c = ' ' || c = '\t') =
        rest.dropWhile (fun c => c = ',' || c = ' ' || c = '\t')) ∧
    (stripBlank tok ≠ [] →
      (tok ++ rest).dropWhile (fun c => c = ',' || c = ' ' || c = '\t') =
        stripBlank tok ++ rest) := by
  induction tok with
  | nil => simp [stripBlank]
  | cons a t ih =>
    have ha : a ≠ ',' := fun e => htok (e ▸ List.mem_cons_self _ _)
    have ht : ',' ∉ t := fun e => htok (List.mem_cons_of_mem _ e)
    by_cases hb : a = ' ' ∨ a = '\t'
    · have hs : stripBlank (a :: t) = stripBlank t := by
        unfold stripBlank
        rw [List.dropWhile_cons_of_pos (by simpa using hb)]
      have hsep : (a = ',' ∨ a = ' ') ∨ a = '\t' := by
        rcases hb with e | e
        · exact Or.inl (Or.inr e)
        · exact Or.inr e
      rw [hs, List.cons_append, List.dropWhile_cons_of_pos (by simpa using hsep)]
      exact ih ht
    · have hb' : a ≠ ' ' ∧ a ≠ '\t' := by
        constructor
        · exact fun e => hb (Or.inl e)
        · exact fun e => hb (Or.inr e)
      have hs : stripBlank (a :: t) = a :: t := by
        unfold stripBlank
        rw [List.dropWhile_cons_of_neg (by simp [hb'.1, hb'.2])]
      rw [hs, List.cons_append, List.dropWhile_cons_of_neg (by simp [ha, hb'.1, hb'.2])]
      simp

theorem tokenValues_cons_blank (stof : Str → Option float) (t : Str) (ts : List Str)
    (h : stripBlank t = []) : tokenValues stof (t :: ts) = tokenValues stof ts := by
  simp [tokenValues, h]

theorem tokenValues_cons (stof : Str → Option float) (t : Str) (ts : List Str)
    (h : stripBlank t ≠ []) :
    tokenValues stof (t :: ts) = (stof (stripBlank t)).getD 0 :: tokenValues stof ts := by
  simp [tokenValues, h]

/-- One pass of the loop of `parse_vec_csv` when, after the separators, a comma-free token
`core` stands before the end of the field or before a comma. -/
theorem parseVecLoop_step (stof : Str → Option float) (fuel : Nat) (s core rest0 : Str)
    (hs1 : s.dropWhile (fun c => c = ',' || c = ' ' || c = '\t') = core ++ rest0)
    (hne : core ≠ []) (hcore : ',' ∉ core) (hrest : rest0 = [] ∨ ∃ r, rest0 = ',' :: r) :
    parseVecLoop stof (fuel + 1) s =
      (stof core).getD 0 :: parseVecLoop stof fuel (rest0.drop 1) := by
  have hp : ∀ c ∈ core, (fun c => decide (c ≠ ',')) c = true := by
    intro c hc
    have : c ≠ ',' := fun e => hcore (e ▸ hc)
    simpa using this
  have h2 : (core ++ rest0).takeWhile (fun c => decide (c ≠ ',')) = core := by
    rw [List.takeWhile_append_of_pos hp]
    rcases hrest with rfl | ⟨r, rfl⟩
    · simp
    · rw [List.takeWhile_cons_of_neg (by simp)]
      simp
  have h3 : (core ++ rest0).dropWhile (fun c => decide (c ≠ ',')) = rest0 := by
    rw [List.dropWhile_append_of_pos hp]
    rcases hrest with rfl | ⟨r, rfl⟩
    · simp
    · rw [List.dropWhile_cons_of_neg (by simp)]
  have hne' : core ++ rest0 ≠ [] := by simp [hne]
  simp only [parseVecLoop, hs1]
  rw [if_neg hne', h2, h3]

/-- The loop of `parse_vec_csv` yields the components of the comma-separated tokens that
are not blank. -/
theorem parseVecLoop_tokens (stof : Str → Option float) (n : Nat) :
    ∀ (s : Str) (fuel : Nat), s.length ≤ n → s.length ≤ fuel →
      parseVecLoop stof fuel s = tokenValues stof (splitComma s) := by
  induction n with
  | zero =>
    intro s fuel hn _
    have hs : s = [] := List.length_eq_zero.mp (Nat.le_zero.mp hn)
    subst hs
    rw [parseVecLoop_nil]
    rfl
  | succ n ih =>
    intro s fuel hn hf
    by_cases hs : s = []
    · subst hs
      rw [parseVecLoop_nil]
      rfl
    · have hpos : 0 < s.length := List.length_pos.mpr hs
      obtain ⟨f, rfl⟩ : ∃ f, fuel = f + 1 := ⟨fuel - 1, by omega⟩
      obtain ⟨tok0, rest0, hsplit, htok, hcases⟩ := comma_split s
      have hlen : s.length = tok0.length + rest0.length := by
        rw [hsplit, List.length_append]
      obtain ⟨hblank, hcoreEq⟩ := dropWhile_sep_piece tok0 rest0 htok
      rw [← hsplit] at hblank hcoreEq
      have hcore : ',' ∉ stripBlank tok0 :=
        fun hm => htok ((List.dropWhile_suffix _).subset hm)
      rcases hcases with ⟨hr0, hsp⟩ | ⟨r, hr0, hsp⟩
      · subst hr0
        rw [hsp]
        by_cases hb : stripBlank tok0 = []
        · have h1 := hblank hb
          rw [tokenValues_cons_blank stof tok0 [] hb]
          simp only [parseVecLoop, h1, List.dropWhile_nil, if_true]
          rfl
        · have h1 := hcoreEq hb
          rw [tokenValues_cons stof tok0 [] hb,
            parseVecLoop_step stof f s (stripBlank tok0) [] h1 hb hcore (Or.inl rfl)]
          simp only [List.drop_nil, parseVecLoop_nil]
          rfl
      · subst hr0
        simp only [List.length_cons] at hlen
        rw [hsp]
        by_cases hb : stripBlank tok0 = []
        · have h1 := hblank hb
          rw [List.dropWhile_cons_of_pos (by simp)] at h1
          rw [tokenValues_cons_blank stof tok0 _ hb, parseVecLoop_congr stof f s r h1,
            ih r (f + 1) (by omega) (by omega)]
        · have h1 := hcoreEq hb
          rw [tokenValues_cons stof tok0 _ hb,
            parseVecLoop_step stof f s (stripBlank tok0) (',' :: r) h1 hb hcore
              (Or.inr ⟨r, rfl⟩)]
          simp only [List.drop_succ_cons, List.drop_zero]
          rw [ih r f (by omega) (by omega)]

theorem tokenValues_length_le (stof : Str → Option float) (toks : List Str) :
    (tokenValues stof toks).length ≤ toks.length := by
  unfold tokenValues
  rw [List.length_map]
  exact (List.length_filter_le _ _).trans (by rw [List.length_map])

theorem tokenValues_of_no_blank (stof : Str → Option float) (toks : List Str)
    (h : ∀ tok ∈ toks, stripBlank tok ≠ []) :
    tokenValues stof toks = toks.map (fun tok => (stof (stripBlank tok)).getD 0) := by
  induction toks with
  | nil => rfl
  | cons t ts ih =>
    rw [tokenValues_cons stof t ts (h t (List.mem_cons_self _ _)),
      ih (fun x hx => h x (List.mem_cons_of_mem _ hx))]
    rfl

/-- C11, as stated, fails: the field `1,,2` has two commas, hence three comma-separated
tokens, but `parse_vec_csv` returns two components: the empty token between the commas is
skipped by the separator loop and contributes nothing, not 0.0. -/
theorem parse_vec_csv_skips_empty_token :
    "1,,2".toList ≠ [] ∧
    "1,,2".toList.count ',' + 1 = 3 ∧
    splitComma "1,,2".toList = ["1".toList, [], "2".toList] ∧
    (∀ stof : Str → Option float, parse_vec_csv stof "1,,2".toList =
      [(stof "1".toList).getD 0, (stof "2".toList).getD 0]) ∧
    (∀ stof : Str → Option float, (parse_vec_csv stof "1,,2".toList).length = 2) :=
  ⟨by decide, by decide, by decide, fun _ => rfl, fun _ => rfl⟩

/-- C11, amended: for every vector field, `parse_vec_csv` splits the field on commas and
returns, in order, exactly one component per comma-separated token that holds a character
other than a space or a tab; a token that is empty or holds only spaces and tabs is skipped
and contributes nothing, so the number of components is at most the number of commas plus
one, and is the number of commas plus one when no token is blank. A token contributes what
`std::stof` reads from it once its leading spaces and tabs are dropped, and 0.0 when
`std::stof` throws; the function always returns. -/
theorem parse_vec_csv_tokens (stof : Str → Option float) (csv : Str) :
    parse_vec_csv stof csv =
      (((splitComma csv).map stripBlank).filter (fun t => decide (t ≠ []))).map
        (fun t => (stof t).getD 0) ∧
    (splitComma csv).length = csv.count ',' + 1 ∧
    (parse_vec_csv stof csv).length ≤ csv.count ',' + 1 ∧
    ((∀ tok ∈ splitComma csv, stripBlank tok ≠ []) →
      parse_vec_csv stof csv =
        (splitComma csv).map (fun tok => (stof (stripBlank tok)).getD 0) ∧
      (parse_vec_csv stof csv).length = csv.count ',' + 1) := by
  have hmain : parse_vec_csv stof csv = tokenValues stof (splitComma csv) :=
    parseVecLoop_tokens stof csv.length csv csv.length (le_refl _) (le_refl _)
  have hlen : (splitComma csv).length = csv.count ',' + 1 := splitCommaAux_length csv []
  refine ⟨hmain, hlen, ?_, ?_⟩
  · rw [hmain, ← hlen]
    exact tokenValues_length_le stof _
  · intro h
    have := tokenValues_of_no_blank stof (splitComma csv) h
    rw [hmain, this]
    exact ⟨rfl, by rw [List.length_map, hlen]⟩

theorem parse_vec_csv_tokens_witness :
    (∀ tok ∈ splitComma "0.5, 2 ,x".toList, stripBlank tok ≠ []) ∧
    (∀ stof : Str → Option float,
      parse_vec_csv stof "0.5, 2 ,x".toList =
        [(stof "0.5".toList).getD 0, (stof "2 ".toList).getD 0, (stof "x".toList).getD 0] ∧
      (parse_vec_csv stof "0.5, 2 ,x".toList).length = "0.5, 2 ,x".toList.count ',' + 1) :=
  ⟨by decide, fun stof =>
    ⟨((parse_vec_csv_tokens stof "0.5, 2 ,x".toList).2.2.2 (by decide)).1.trans rfl,
     ((parse_vec_csv_tokens stof "0.5, 2 ,x".toList).2.2.2 (by decide)).2⟩⟩

/-! ## Conversation session -/

theorem apply_template_text (tmpl : chat_template) (msgs : List chat_message) (b : Bool)
    (buf t : Str) (h : tmpl msgs b = .text t) :
    (apply_template tmpl msgs b buf).1 = (t.length : Int) ∧
    (apply_template tmpl msgs b buf).2.length = buf.length ∧
    (t.length ≤ buf.length → ∃ z, (apply_template tmpl msgs b buf).2 = t ++ z) := by
  unfold apply_template
  rw [h]
  refine ⟨rfl, ?_, ?_⟩
  · by_cases hb : buf.length > 0
    · simp only [hb, if_true, List.length_append, List.length_take, List.length_replicate]
      omega
    · simp [hb]
  · intro hle
    by_cases hb : buf.length > 0
    · refine ⟨List.replicate (buf.length - t.length) (Char.ofNat 0), ?_⟩
      simp only [hb, if_true]
      rw [List.take_of_length_le hle]
    · have hb0 : buf.length = 0 := by omega
      have ht : t = [] := List.length_eq_zero.mp (by omega)
      refine ⟨buf, ?_⟩
      simp [hb, ht]

theorem iterRange_prefix (t z : Str) (first : Int) (h0 : 0 ≤ first)
    (h1 : first ≤ (t.length : Int)) :
    iterRange (t ++ z) first (t.length : Int) = some (t.drop first.toNat) := by
  unfold iterRange
  have hlen : (t.length : Int) ≤ ((t ++ z).length : Int) := by
    rw [List.length_append]
    omega
  rw [if_pos ⟨h0, h1, hlen⟩]
  have hn : first.toNat ≤ t.length := by omega
  have hk : ((t.length : Int) - first).toNat = (t.drop first.toNat).length := by
    rw [List.length_drop]
    omega
  rw [List.drop_append_of_le_length hn, hk, List.take_left']
  rfl

/-- When the rendering succeeds and the cursor lies within it, `begin_prepare_prompt`
appends the user message, keeps the cursor and returns the rendering without its first
`_prev_len` characters. -/
theorem begin_prepare_prompt_ok (tmpl : chat_template) (s : llm_state) (prompt t : Str)
    (hr : tmpl (s.messages ++ [{ role := "user".toList, content := cstr prompt }]) true =
      .text t)
    (h0 : 0 ≤ s.prev_len) (h1 : s.prev_len ≤ (t.length : Int)) :
    (begin_prepare_prompt tmpl s prompt).1.messages =
      s.messages ++ [{ role := "user".toList, content := cstr prompt }] ∧
    (begin_prepare_prompt tmpl s prompt).1.prev_len = s.prev_len ∧
    (begin_prepare_prompt tmpl s prompt).2 = some (t.drop s.prev_len.toNat) := by
  obtain ⟨a1, a2, a3⟩ := apply_template_text tmpl _ true s.formatted t hr
  have hnn : ¬ ((t.length : Int) < 0) := by omega
  unfold begin_prepare_prompt
  simp only
  rw [a1, a2]
  by_cases hgt : (t.length : Int) > (s.formatted.length : Int)
  · rw [if_pos hgt]
    obtain ⟨b1, -, b3⟩ := apply_template_text tmpl _ true
      (resize (apply_template tmpl (s.messages ++
        [{ role := "user".toList, content := cstr prompt }]) true s.formatted).2
        (t.length : Int).toNat) t hr
    have hres : (resize (apply_template tmpl (s.messages ++
        [{ role := "user".toList, content := cstr prompt }]) true s.formatted).2
        (t.length : Int).toNat).length = t.length := by
      unfold resize
      rw [List.length_append, List.length_take, List.length_replicate, a2]
      omega
    obtain ⟨z, hz⟩ := b3 (by omega)
    rw [b1, if_neg hnn, hz]
    exact ⟨rfl, rfl, iterRange_prefix t z s.prev_len h0 h1⟩
  · rw [if_neg hgt]
    obtain ⟨z, hz⟩ := a3 (by omega)
    rw [a1, if_neg hnn, hz]
    exact ⟨rfl, rfl, iterRange_prefix t z s.prev_len h0 h1⟩

/-- C12, as stated, fails: with a template that renders only the last message, the
rendering for `begin_turn("Q2")` succeeds (it is `Q2`), but the cursor left by the last
`end_turn` is 13, beyond the end of that rendering; the iterator range of the returned
string is then invalid and no string "rendering minus its first 13 characters" comes
back. -/
theorem begin_prepare_prompt_cursor_beyond :
    lastOnlyTemplate ((sessionAfterTurn lastOnlyTemplate "a long answer".toList).messages ++
      [{ role := "user".toList, content := cstr "Q2".toList }]) true = .text "Q2".toList ∧
    lastOnlyTemplate ((begin_prepare_prompt lastOnlyTemplate sessionStart "Q1".toList).1.messages
      ++ [{ role := "assistant".toList, content := cstr "a long answer".toList }]) false =
      .text "a long answer".toList ∧
    (sessionAfterTurn lastOnlyTemplate "a long answer".toList).prev_len = 13 ∧
    (begin_prepare_prompt lastOnlyTemplate
      (sessionAfterTurn lastOnlyTemplate "a long answer".toList) "Q2".toList).2 = none := by
  refine ⟨by decide, by decide, by decide, by decide⟩

/-- C12, amended: for every chat template and every message history on which rendering
succeeds, provided the cursor is not negative and not beyond the end of the new rendering,
`begin_prepare_prompt` appends the user message, keeps the cursor and returns the rendering
of the whole history with the generation marker, minus its first `cursor` characters. The
cursor is 0 in a fresh session, is kept by `set_system_prompt`, and after an `end_turn`
whose marker-less rendering succeeds is the length of that rendering. Hence after
`set_system_prompt(S)` the first `begin_turn(Q1)` returns the entire rendered transcript,
and whenever the marker-less rendering of the consumed history is a prefix of the new
rendering, that rendering followed by the returned delta is the new rendering, also for
the `begin_turn(Q2)` that follows `end_turn(A1)`. -/
theorem begin_prepare_prompt_delta (tmpl : chat_template) (s : llm_state) (prompt t : Str)
    (hr : tmpl (s.messages ++ [{ role := "user".toList, content := cstr prompt }]) true =
      .text t)
    (h0 : 0 ≤ s.prev_len) (h1 : s.prev_len ≤ (t.length : Int)) :
    ((begin_prepare_prompt tmpl s prompt).1.messages =
        s.messages ++ [{ role := "user".toList, content := cstr prompt }] ∧
      (begin_prepare_prompt tmpl s prompt).1.prev_len = s.prev_len ∧
      (begin_prepare_prompt tmpl s prompt).2 = some (t.drop s.prev_len.toNat)) ∧
    (∀ u : Str, s.prev_len = (u.length : Int) → u <+: t →
      ∃ d, (begin_prepare_prompt tmpl s prompt).2 = some d ∧ u ++ d = t) ∧
    (∀ n : Nat, (initial_state n).prev_len = 0) ∧
    (∀ p : Str, (set_system_prompt s p).prev_len = s.prev_len) ∧
    (∀ (s' : llm_state) (result u : Str),
      tmpl (s'.messages ++ [{ role := "assistant".toList, content := cstr result }]) false =
        .text u →
      (after_prepare_prepare tmpl s' result).prev_len = (u.length : Int)) ∧
    (∀ (n : Nat) (S Q1 t1 : Str),
      tmpl [{ role := "system".toList, content := cstr S },
            { role := "user".toList, content := cstr Q1 }] true = .text t1 →
      (begin_prepare_prompt tmpl (set_system_prompt (initial_state n) S) Q1).2 = some t1) ∧
    (∀ (s' : llm_state) (A1 Q2 u t2 : Str),
      tmpl (s'.messages ++ [{ role := "assistant".toList, content := cstr A1 }]) false =
        .text u →
      tmpl (s'.messages ++ [{ role := "assistant".toList, content := cstr A1 }] ++
        [{ role := "user".toList, content := cstr Q2 }]) true = .text t2 →
      u <+: t2 →
      ∃ d, (begin_prepare_prompt tmpl (after_prepare_prepare tmpl s' A1) Q2).2 = some d ∧
        u ++ d = t2) := by
  have hpre : ∀ (u t : Str), u <+: t → u ++ t.drop u.length = t := by
    rintro u t ⟨r, rfl⟩
    simp
  refine ⟨begin_prepare_prompt_ok tmpl s prompt t hr h0 h1, ?_, fun _ => rfl, fun _ => rfl,
    ?_, ?_, ?_⟩
  · intro u hu hp
    refine ⟨t.drop s.prev_len.toNat, (begin_prepare_prompt_ok tmpl s prompt t hr h0 h1).2.2, ?_⟩
    rw [hu]
    exact hpre u t hp
  · intro s' result u h
    simp only [after_prepare_prepare, h]
    rfl
  · intro n S Q1 t1 h
    have := (begin_prepare_prompt_ok tmpl (set_system_prompt (initial_state n) S) Q1 t1 h
      (le_refl _) (Int.ofNat_nonneg _)).2.2
    simpa using this
  · intro s' A1 Q2 u t2 hu ht2 hp
    have hcur : (after_prepare_prepare tmpl s' A1).prev_len = (u.length : Int) := by
      simp only [after_prepare_prepare, hu]
      rfl
    have hlen : (u.length : Int) ≤ (t2.length : Int) := by
      exact_mod_cast hp.length_le
    have := (begin_prepare_prompt_ok tmpl (after_prepare_prepare tmpl s' A1) Q2 t2 ht2
      (by rw [hcur]; exact Int.ofNat_nonneg _) (by rw [hcur]; exact hlen)).2.2
    refine ⟨_, this, ?_⟩
    rw [hcur]
    exact hpre u t2 hp

theorem begin_prepare_prompt_delta_witness :
    (plainTemplate ((sessionAfterTurn plainTemplate "A1".toList).messages ++
        [{ role := "user".toList, content := cstr "Q2".toList }]) true =
      .text "system: S\nuser: Q1\nassistant: A1\nuser: Q2\nassistant: ".toList) ∧
    (sessionAfterTurn plainTemplate "A1".toList).prev_len = 33 ∧
    (begin_prepare_prompt plainTemplate (sessionAfterTurn plainTemplate "A1".toList)
      "Q2".toList).2 = some "user: Q2\nassistant: ".toList ∧
    (begin_prepare_prompt plainTemplate sessionStart "Q1".toList).2 =
      some "system: S\nuser: Q1\nassistant: ".toList :=
  ⟨by decide, by decide,
    ((begin_prepare_prompt_delta plainTemplate (sessionAfterTurn plainTemplate "A1".toList)
      "Q2".toList "system: S\nuser: Q1\nassistant: A1\nuser: Q2\nassistant: ".toList
      (by decide) (by decide) (by decide)).1.2.2).trans (by decide),
    by decide⟩

/-- C13: the code breaks the claim. `after_prepare_prepare` stores the value returned by
`llama_chat_apply_template` in `_prev_len` before testing it, so when the re-rendering
fails the cursor becomes that negative value instead of keeping its old value. With a
template that cannot be applied, the cursor is 0 before `end_turn("A1")` and -1 after. -/
theorem after_prepare_prepare_stores_failure :
    (∀ (tmpl : chat_template) (s : llm_state) (result : Str) (code : Nat),
      tmpl (s.messages ++ [{ role := "assistant".toList, content := cstr result }]) false =
        .error code →
      (after_prepare_prepare tmpl s result).prev_len = -((code : Int) + 1) ∧
      (after_prepare_prepare tmpl s result).prev_len < 0) ∧
    (begin_prepare_prompt failingTemplate sessionStart "Q1".toList).1.prev_len = 0 ∧
    failingTemplate ((begin_prepare_prompt failingTemplate sessionStart "Q1".toList).1.messages
      ++ [{ role := "assistant".toList, content := cstr "A1".toList }]) false = .error 0 ∧
    (after_prepare_prepare failingTemplate
      (begin_prepare_prompt failingTemplate sessionStart "Q1".toList).1 "A1".toList).prev_len
      = -1 := by
  refine ⟨?_, by decide, by decide, by decide⟩
  intro tmpl s result code h
  have : (after_prepare_prepare tmpl s result).prev_len = -((code : Int) + 1) := by
    simp only [after_prepare_prepare, h]
    rfl
  rw [this]
  exact ⟨rfl, by omega⟩

/-! ## Generation loop -/

/-- The loop of `run_prompt` over passes without fatal condition that end with an
end-of-generation token: it leaves through `break` with the pieces appended in order and,
when `token_out` is set, handed to it in order. -/
theorem genLoop_collect (v : vocab_model) (has_token_out : Bool) (good : List gen_step)
    (last : gen_step) (rest : List gen_step) (batch_n : Int) (result : Str)
    (delivered : List Str)
    (hfit0 : ∀ st, (good ++ [last]).head? = some st →
      ¬ (st.seq_pos_max + 1 + batch_n > st.n_ctx))
    (hfit : ∀ st ∈ (good ++ [last]).tail, ¬ (st.seq_pos_max + 1 + 1 > st.n_ctx))
    (hdec : ∀ st ∈ good ++ [last], st.decode_ret = 0)
    (hgood : ∀ st ∈ good, v.is_eog st.sampled = false ∧ (v.token_to_piece st.sampled).isSome)
    (hlast : v.is_eog last.sampled = true) :
    genLoop v has_token_out (good ++ last :: rest) batch_n result delivered =
      .finished (result ++ (piecesOf v good).flatten)
        (if has_token_out then delivered ++ piecesOf v good else delivered) := by
  induction good generalizing batch_n result delivered with
  | nil =>
    have h0 := hfit0 last rfl
    have hd := hdec last (by simp)
    simp only [List.nil_append, genLoop, h0, if_false, hd, ne_eq, not_true_eq_false, hlast,
      if_true, piecesOf, List.map_nil, List.flatten_nil, List.append_nil]
    cases has_token_out <;> rfl
  | cons st good ih =>
    have h0 := hfit0 st rfl
    have hd := hdec st (by simp)
    obtain ⟨he, hp⟩ := hgood st (List.mem_cons_self _ _)
    obtain ⟨piece, hpiece⟩ := Option.isSome_iff_exists.mp hp
    have hfit' : ∀ st' ∈ good ++ [last], ¬ (st'.seq_pos_max + 1 + 1 > st'.n_ctx) := by
      intro st' hst'
      exact hfit st' (by simpa using hst')
    have ih' := ih 1 (result ++ piece)
      (if has_token_out then delivered ++ [piece] else delivered)
      (fun st' hst' => hfit' st' (List.mem_of_mem_head? hst'))
      (fun st' hst' => hfit' st' (List.mem_of_mem_tail hst'))
      (fun st' hst' => hdec st' (by
        simp only [List.cons_append, List.mem_cons]
        exact Or.inr hst'))
      (fun st' hst' => hgood st' (List.mem_cons_of_mem _ hst'))
    simp only [List.cons_append, genLoop, h0, if_false, hd, ne_eq, not_true_eq_false, he,
      Bool.false_eq_true, hpiece, List.append_eq]
    rw [ih']
    have hpc : piecesOf v (st :: good) = piece :: piecesOf v good := by
      simp [piecesOf, hpiece]
    rw [hpc]
    cases has_token_out <;> simp

theorem piecesOf_getElem? (v : vocab_model) (good : List gen_step)
    (hgood : ∀ st ∈ good, v.is_eog st.sampled = false ∧ (v.token_to_piece st.sampled).isSome)
    (i : Nat) (st : gen_step) (h : good[i]? = some st) :
    (piecesOf v good)[i]? = v.token_to_piece st.sampled := by
  have hm : st ∈ good := List.mem_iff_getElem?.mpr ⟨i, h⟩
  obtain ⟨piece, hpiece⟩ := Option.isSome_iff_exists.mp (hgood st hm).2
  simp [piecesOf, List.getElem?_map, h, hpiece]

/-- C14: for every run of `run_prompt` in which the prompt is prepared and tokenized, the
passes `good` of the loop meet no fatal condition (context not exceeded, `llama_decode`
returns 0, the sampled token is not end-of-generation and has a display text) and the next
pass samples an end-of-generation token, `run_prompt` returns true, its result is the
concatenation in order of the display texts of the tokens of `good`, and `token_out`, when
set, has received exactly those display texts, one per token, in order; nothing of the
end-of-generation pass or of the passes after it is appended. -/
theorem run_prompt_collects (tmpl : chat_template) (v : vocab_model) (trace : engine_trace)
    (has_token_out : Bool) (s : llm_state) (prompt n_prompt : Str)
    (prompt_tokens : List llama_token) (good : List gen_step) (last : gen_step)
    (rest : List gen_step)
    (hb : (begin_prepare_prompt tmpl s prompt).2 = some n_prompt)
    (ht : v.tokenize n_prompt (decide (trace.seq_pos_max0 = -1)) = some prompt_tokens)
    (hsteps : trace.steps = good ++ last :: rest)
    (hfit0 : ∀ st, (good ++ [last]).head? = some st →
      ¬ (st.seq_pos_max + 1 + (prompt_tokens.length : Int) > st.n_ctx))
    (hfit : ∀ st ∈ (good ++ [last]).tail, ¬ (st.seq_pos_max + 1 + 1 > st.n_ctx))
    (hdec : ∀ st ∈ good ++ [last], st.decode_ret = 0)
    (hgood : ∀ st ∈ good, v.is_eog st.sampled = false ∧ (v.token_to_piece st.sampled).isSome)
    (hlast : v.is_eog last.sampled = true) :
    run_prompt tmpl v trace has_token_out s prompt =
      .returned true (piecesOf v good).flatten
        (if has_token_out then piecesOf v good else [])
        (after_prepare_prepare tmpl (begin_prepare_prompt tmpl s prompt).1
          (piecesOf v good).flatten) ∧
    (piecesOf v good).length = good.length ∧
    (∀ (i : Nat) (st : gen_step), good[i]? = some st →
      (piecesOf v good)[i]? = v.token_to_piece st.sampled) ∧
    (has_token_out = true →
      ∃ result delivered state, run_prompt tmpl v trace has_token_out s prompt =
        .returned true result delivered state ∧ result = delivered.flatten ∧
        delivered.length = good.length) := by
  have hloop := genLoop_collect v has_token_out good last rest (prompt_tokens.length : Int)
    [] [] hfit0 hfit hdec hgood hlast
  have hrun : run_prompt tmpl v trace has_token_out s prompt =
      .returned true (piecesOf v good).flatten
        (if has_token_out then piecesOf v good else [])
        (after_prepare_prepare tmpl (begin_prepare_prompt tmpl s prompt).1
          (piecesOf v good).flatten) := by
    unfold run_prompt
    simp only [hb, ht, hsteps, hloop, List.nil_append]
  have hlen : (piecesOf v good).length = good.length := by simp [piecesOf]
  refine ⟨hrun, hlen, piecesOf_getElem? v good hgood, ?_⟩
  intro hcb
  refine ⟨_, _, _, hrun, ?_, ?_⟩
  · simp [hcb]
  · simp [hcb, hlen]

theorem run_prompt_collects_witness :
    (begin_prepare_prompt plainTemplate sessionStart "Q1".toList).2 =
      some "system: S\nuser: Q1\nassistant: ".toList ∧
    charVocab.is_eog 0 = true ∧
    run_prompt plainTemplate charVocab helloTrace true sessionStart "Q1".toList =
      .returned true "Hi".toList ["H".toList, "i".toList]
        (after_prepare_prepare plainTemplate
          (begin_prepare_prompt plainTemplate sessionStart "Q1".toList).1 "Hi".toList) :=
  ⟨by decide, by decide,
    (run_prompt_collects plainTemplate charVocab helloTrace true sessionStart "Q1".toList
      "system: S\nuser: Q1\nassistant: ".toList
      ("system: S\nuser: Q1\nassistant: ".toList.map (fun c : Char => (c.toNat : Int)))
      [ { n_ctx := 4096, seq_pos_max := -1, decode_ret := 0, sampled := 72 },
        { n_ctx := 4096, seq_pos_max := 29, decode_ret := 0, sampled := 105 } ]
      { n_ctx := 4096, seq_pos_max := 30, decode_ret := 0, sampled := 0 }
      [ { n_ctx := 4096, seq_pos_max := 31, decode_ret := 0, sampled := 33 } ]
      (by decide) rfl rfl (by decide) (by decide) (by decide) (by decide) (by decide)).1.trans
      rfl⟩

theorem embed_query_tokenizes (e : embed_engine) (cfg : embed_interface.model_config)
    (text : Str) :
    embed_interface.embed_query e cfg text =
      encodeTokens e cfg (e.embd_tokenize
        (if cfg.query_prefix.isEmpty then text
         else cfg.query_prefix ++ ( cfg.query_prefix ++ text)) true true) := by
  unfold embed_interface.embed_query embed_interface.encode_once encodeInput
  cases h : cfg.query_prefix <;> simp

theorem embed_passage_tokenizes (e : embed_engine) (cfg : embed_interface.model_config)
    (text : Str) :
    embed_interface.embed_passage e cfg text =
      encodeTokens e cfg (e.embd_tokenize
        (if cfg.query_prefix.isEmpty then cfg.passage_prefix ++ text
         else cfg.query_prefix ++ ( cfg.passage_prefix ++ text)) true true) := by
  unfold embed_interface.embed_passage embed_interface.encode_once encodeInput
  cases h : cfg.query_prefix <;> simp

/-- C16 does not hold for the code: `encode_once` prepends `query_prefix` once more
whenever it is not empty. For every engine, configuration and text with a non-empty
`query_prefix`, `embed_query(text)` hands `query_prefix + query_prefix + text` to the
tokenizer and `embed_passage(text)` hands it `query_prefix + passage_prefix + text`; only
with an empty `query_prefix` is the string `query_prefix + text`, respectively
`passage_prefix + text`. With the prefixes of `main.cpp` and an engine whose embedding
spells out the tokenized string, the text `cats` is embedded as `query: query: cats` by
`embed_query` and as `query: passage: cats` by `embed_passage`. -/
theorem embed_prefix_applied_twice :
    (∀ (e : embed_engine) (cfg : embed_interface.model_config) (text : Str),
      cfg.query_prefix ≠ [] →
      embed_interface.embed_query e cfg text =
        encodeTokens e cfg
          (e.embd_tokenize ( cfg.query_prefix ++ ( cfg.query_prefix ++ text)) true true) ∧
      embed_interface.embed_passage e cfg text =
        encodeTokens e cfg
          (e.embd_tokenize ( cfg.query_prefix ++ ( cfg.passage_prefix ++ text)) true true)) ∧
    (∀ (e : embed_engine) (cfg : embed_interface.model_config) (text : Str),
      cfg.query_prefix = [] →
      embed_interface.embed_query e cfg text =
        encodeTokens e cfg (e.embd_tokenize ( cfg.query_prefix ++ text) true true) ∧
      embed_interface.embed_passage e cfg text =
        encodeTokens e cfg (e.embd_tokenize ( cfg.passage_prefix ++ text) true true)) ∧
    (embed_interface.embed_query echoEngine mainEmbedConfig "cats".toList).map
      (fun r => (r.1, echoText r.2)) = some (true, "query: query: cats".toList) ∧
    (embed_interface.embed_passage echoEngine mainEmbedConfig "cats".toList).map
      (fun r => (r.1, echoText r.2)) = some (true, "query: passage: cats".toList) ∧
    mainEmbedConfig.query_prefix ++ "cats".toList = "query: cats".toList ∧
    mainEmbedConfig.passage_prefix ++ "cats".toList = "passage: cats".toList := by
  refine ⟨?_, ?_, ?_, ?_, by decide, by decide⟩
  · intro e cfg text h
    rw [embed_query_tokenizes, embed_passage_tokenizes]
    have hne : cfg.query_prefix.isEmpty = false := by
      cases hq : cfg.query_prefix with
      | nil => exact absurd hq h
      | cons a l => rfl
    simp [hne]
  · intro e cfg text h
    rw [embed_query_tokenizes, embed_passage_tokenizes]
    simp [h]
  · simp [embed_interface.embed_query, embed_interface.encode_once, encodeInput, encodeTokens,
      echoEngine, mainEmbedConfig, echoText]
  · simp [embed_interface.embed_passage, embed_interface.encode_once, encodeInput,
      encodeTokens, echoEngine, mainEmbedConfig, echoText]

theorem rank_nil_of_below (sort : (rag_rank_item → rag_rank_item → Bool) →
    List rag_rank_item → List rag_rank_item) (hs : SortContract sort) (cfg : rag_config)
    (items : List rag_index_row) (qvec : List float) (h0 : 0 ≤ cfg.min_score_keep)
    (hlow : ∀ r ∈ items, dot qvec r.vec < cfg.min_score_keep) :
    rank sort cfg items qvec = [] := by
  have hscan : rankScan cfg items qvec = [] := by
    rw [List.eq_nil_iff_forall_not_mem]
    intro it hit
    obtain ⟨i, r, hr, hp, -⟩ := (mem_rankScan cfg items qvec it).mp hit
    have hmem : r ∈ items := List.mem_iff_getElem?.mpr ⟨i, hr⟩
    exact hp ⟨h0, hlow r hmem⟩
  have hperm := (hs rankComp (rankScan cfg items qvec)
    (rankComp_swo _ (by rw [hscan]; intro it hit; exact absurd hit (List.not_mem_nil it)))).1
  unfold rank
  rw [hscan] at hperm ⊢
  exact List.Perm.eq_nil hperm

theorem isEmpty_eq_false_of_ne_nil {α : Type} (l : List α) (h : l ≠ []) :
    l.isEmpty = false := by
  cases l with
  | nil => exact absurd rfl h
  | cons a t => rfl

/-- C15: `ask` returns a marker string, whatever the generation engine would answer and
with the session of the generation model (the conversation history and the cursor) left as
it was and nothing handed to `on_token`, in each of these cases, in this order:
`[ERROR] models not loaded` when the models are not ready; otherwise
`[ERROR] index is empty` when the loaded index is empty; otherwise
`[ERROR] failed to embed question` when `embed_query` returns false or leaves an empty
vector; otherwise `[WARN] no relevant context found` when `rank` returns no item, which is
the case when the threshold is active and every row scores below it. -/
theorem ask_markers (sort : (rag_rank_item → rag_rank_item → Bool) → List rag_rank_item →
      List rag_rank_item)
    (e : embed_engine) (tmpl : chat_template) (v : vocab_model) (trace : engine_trace)
    (c : rag_client) (question : Str) (override_top_k : Option Int) (has_on_token : Bool) :
    (c._models_ready = false →
      ask sort e tmpl v trace c question override_top_k has_on_token =
        .returned "[ERROR] models not loaded".toList [] c._llm) ∧
    (c._models_ready = true → c.items_ = [] →
      ask sort e tmpl v trace c question override_top_k has_on_token =
        .returned "[ERROR] index is empty".toList [] c._llm) ∧
    (c._models_ready = true → c.items_ ≠ [] →
      ∀ (ok : Bool) (out_qvec : List float),
        embed_interface.embed_query e c.cfg_.embed question = some (ok, out_qvec) →
        (ok = false ∨ out_qvec = []) →
        ask sort e tmpl v trace c question override_top_k has_on_token =
          .returned "[ERROR] failed to embed question".toList [] c._llm) ∧
    (c._models_ready = true → c.items_ ≠ [] →
      ∀ qvec : List float,
        embed_interface.embed_query e c.cfg_.embed question = some (true, qvec) →
        qvec ≠ [] →
        rank sort c.cfg_.torag_config c.items_ qvec = [] →
        ask sort e tmpl v trace c question override_top_k has_on_token =
          .returned "[WARN] no relevant context found".toList [] c._llm) ∧
    (SortContract sort → c._models_ready = true → c.items_ ≠ [] →
      ∀ qvec : List float,
        embed_interface.embed_query e c.cfg_.embed question = some (true, qvec) →
        qvec ≠ [] →
        0 ≤ c.cfg_.min_score_keep →
        (∀ r ∈ c.items_, dot qvec r.vec < c.cfg_.min_score_keep) →
        ask sort e tmpl v trace c question override_top_k has_on_token =
          .returned "[WARN] no relevant context found".toList [] c._llm) := by
  have hwarn : c._models_ready = true → c.items_ ≠ [] →
      ∀ qvec : List float,
        embed_interface.embed_query e c.cfg_.embed question = some (true, qvec) →
        qvec ≠ [] →
        rank sort c.cfg_.torag_config c.items_ qvec = [] →
        ask sort e tmpl v trace c question override_top_k has_on_token =
          .returned "[WARN] no relevant context found".toList [] c._llm := by
    intro hready hitems qvec hq hne hrank
    have hi := isEmpty_eq_false_of_ne_nil c.items_ hitems
    have hv := isEmpty_eq_false_of_ne_nil qvec hne
    simp [ask, embed_question, hready, hi, hq, hv, hrank]
  refine ⟨?_, ?_, ?_, hwarn, ?_⟩
  · intro hready
    simp [ask, hready]
  · intro hready hitems
    simp [ask, hready, hitems]
  · intro hready hitems ok out_qvec hq hfail
    have hi := isEmpty_eq_false_of_ne_nil c.items_ hitems
    have hflag : (ok && !out_qvec.isEmpty) = false := by
      rcases hfail with h | h
      · simp [h]
      · simp [h]
    simp [ask, embed_question, hready, hi, hq, hflag]
  · intro hs hready hitems qvec hq hne h0 hlow
    exact hwarn hready hitems qvec hq hne
      (rank_nil_of_below sort hs c.cfg_.torag_config c.items_ qvec h0 hlow)

theorem ask_markers_witness :
    ask insertionStdSort fixedEngine plainTemplate charVocab helloTrace
        { scenarioClient 2 with _models_ready := false } "why?".toList none true =
      .returned "[ERROR] models not loaded".toList [] sessionStart ∧
    ask insertionStdSort fixedEngine plainTemplate charVocab helloTrace
        { scenarioClient 2 with items_ := [] } "why?".toList none true =
      .returned "[ERROR] index is empty".toList [] sessionStart ∧
    ask insertionStdSort failingEngine plainTemplate charVocab helloTrace
        (scenarioClient 2) "why?".toList none true =
      .returned "[ERROR] failed to embed question".toList [] sessionStart ∧
    ask insertionStdSort fixedEngine plainTemplate charVocab helloTrace
        (scenarioClient 2) "why?".toList none true =
      .returned "[WARN] no relevant context found".toList [] sessionStart :=
  ⟨(ask_markers insertionStdSort fixedEngine plainTemplate charVocab helloTrace
      { scenarioClient 2 with _models_ready := false } "why?".toList none true).1 rfl,
   (ask_markers insertionStdSort fixedEngine plainTemplate charVocab helloTrace
      { scenarioClient 2 with items_ := [] } "why?".toList none true).2.1 rfl rfl,
   (ask_markers insertionStdSort failingEngine plainTemplate charVocab helloTrace
      (scenarioClient 2) "why?".toList none true).2.2.1 rfl (by simp [scenarioClient, scenarioItems])
      false [] (by simp [embed_interface.embed_query, embed_interface.encode_once, encodeInput,
        encodeTokens, failingEngine, fixedEngine, scenarioClient]) (Or.inl rfl),
   (ask_markers insertionStdSort fixedEngine plainTemplate charVocab helloTrace
      (scenarioClient 2) "why?".toList none true).2.2.2.2 insertionStdSort_contract rfl
      (by simp [scenarioClient, scenarioItems]) [1, 0]
      (by simp [embed_interface.embed_query, embed_interface.encode_once, encodeInput,
        encodeTokens, fixedEngine, scenarioClient]) (by simp)
      (by decide) (by decide!)⟩

end RagClient
